import Mathlib

/-!
Verification of the todo_lib task library (todo.txt data model, edit engine
and filter pipeline) against its natural-language specification.

The Rust sources are shallowly embedded: Rust `String` becomes `List Char`
(the relevant code is ASCII-guarded at every byte-level slice, so byte and
char positions coincide on every string the embedded functions split),
`chrono::NaiveDate` becomes a `(year, month, day)` record, fallible code
returns `Except`/`Option`, and struct mutation becomes functional record
update.  Functions keep the source's names where possible.
-/

namespace TodoSpec

/-- Rust `String` / `&str`, embedded as a list of characters. -/
abbrev Str := List Char

/-- `s.starts_with(pat)` for strings. -/
def strStarts : Str → Str → Bool
  | _, [] => true
  | [], _ :: _ => false
  | c :: s, p :: ps => c = p && strStarts s ps

/-- `s.ends_with(pat)` for strings. -/
def strEnds (s pat : Str) : Bool := strStarts s.reverse pat.reverse

/-- `s.find(c)`: byte index of the first occurrence of an ASCII char. -/
def findCharIdx (c : Char) : Str → Option Nat
  | [] => none
  | x :: s => if x = c then some 0 else (findCharIdx c s).map (fun n => n + 1)

/-- `s.find(pat)`: index of the first occurrence of a substring. -/
def findSub : Str → Str → Option Nat
  | _, [] => some 0
  | [], _ :: _ => none
  | c :: s, p :: ps =>
    if strStarts (c :: s) (p :: ps) then some 0
    else match findSub s (p :: ps) with
      | some n => some (n + 1)
      | none => none

/-- `s.contains(pat)` for a substring pattern. -/
def containsSub (s pat : Str) : Bool := (findSub s pat).isSome

/-- Rust `char::is_whitespace` (the Unicode White_Space set). -/
def rustIsWs (c : Char) : Bool :=
  (0x9 ≤ c.toNat && c.toNat ≤ 0xD) || c.toNat = 0x20 || c.toNat = 0x85 || c.toNat = 0xA0 ||
  c.toNat = 0x1680 || (0x2000 ≤ c.toNat && c.toNat ≤ 0x200A) || c.toNat = 0x2028 ||
  c.toNat = 0x2029 || c.toNat = 0x202F || c.toNat = 0x205F || c.toNat = 0x3000

/-- Rust `str::trim_start`. -/
def rustTrimStart (s : Str) : Str := s.dropWhile rustIsWs

/-- Rust `str::trim`. -/
def rustTrim (s : Str) : Str := ((s.dropWhile rustIsWs).reverse.dropWhile rustIsWs).reverse

/-- Rust `s.split(sep)` (keeps empty fragments; `"".split(c)` is `[""]`). -/
def splitChar (sep : Char) : Str → List Str
  | [] => [[]]
  | c :: rest =>
    if c = sep then [] :: splitChar sep rest
    else match splitChar sep rest with
      | [] => [[c]]
      | w :: ws => (c :: w) :: ws

/-- Rust `str::split_whitespace` (non-empty words, any whitespace separates). -/
def splitWs (s : Str) : List Str := (splitChar ' ' s).filter (fun w => w ≠ [])

/-- Join words with single spaces (the `push_str` + `push(' ')` +
`trim_matches(' ')` pattern of `remove_proj_ctx`/`replace_proj_ctx`). -/
def joinSpace : List Str → Str
  | [] => []
  | [w] => w
  | w :: ws => w ++ ' ' :: joinSpace ws

/-- Rust `str::split_terminator(c)`: like `split` but a trailing separator
produces no trailing empty fragment. -/
def splitTerm (c : Char) (s : Str) : List Str :=
  if s = [] then []
  else if s.getLast? = some c then (splitChar c s).dropLast
  else splitChar c s

/-- ASCII lower-casing of one char (models Rust `to_lowercase` on the ASCII
strings the filter and edit engines compare). -/
def asciiLower (c : Char) : Char :=
  if 'A' ≤ c ∧ c ≤ 'Z' then Char.ofNat (c.toNat + 32) else c

/-- Lower-case a string (ASCII model of Rust `str::to_lowercase`). -/
def strLower (s : Str) : Str := s.map asciiLower

/-- Models `caseless::default_caseless_match_str`, restricted to ASCII case
folding (the only case difference exercised by this code's tests). -/
def default_caseless_match_str (a b : Str) : Bool := strLower a = strLower b

/-- `'0' ≤ c ≤ '9'` (Rust `char::is_ascii_digit`). -/
def isAsciiDigit (c : Char) : Bool := '0' ≤ c && c ≤ '9'

/-- `'A' ≤ c ≤ 'Z'` (Rust `u8::is_ascii_uppercase` on a one-byte char). -/
def isAsciiUpper (c : Char) : Bool := 'A' ≤ c && c ≤ 'Z'

/-- Numeric value of an ASCII digit. -/
def digitVal (c : Char) : Nat := c.toNat - 48

/-- One decimal digit as a char. -/
def digitChr (n : Nat) : Char := Char.ofNat (48 + n)

/-- Decimal digits of `n`, most significant first (`natChars 0 = "0"`);
models Rust's `{}` formatting of an unsigned integer.  The first argument
is structural fuel, always called with `n + 1` which is sufficient. -/
def natCharsAux : Nat → Nat → Str
  | 0, _ => []
  | fuel + 1, n => if n < 10 then [digitChr n] else natCharsAux fuel (n / 10) ++ [digitChr (n % 10)]

def natChars (n : Nat) : Str := natCharsAux (n + 1) n

/-- Rust `{}` formatting of a signed integer. -/
def intChars (i : Int) : Str := if i < 0 then '-' :: natChars (-i).toNat else natChars i.toNat

/-- Rust `FromStr` for an unsigned integer type with maximum `maxVal`
(an optional leading `+`, then one or more ASCII digits, overflow is an
error). -/
def plusStrip (s : Str) : Str :=
  match s with
  | '+' :: rest => rest
  | _ => s

def parseUnsigned (maxVal : Nat) (s0 : Str) : Except String Nat :=
  let s := plusStrip s0
  if s = [] ∨ ¬ s.all isAsciiDigit then Except.error "invalid digit found in string"
  else
    let v := s.foldl (fun acc c => acc * 10 + digitVal c) 0
    if v > maxVal then Except.error "number too large" else Except.ok v

/-- Rust `i64::from_str` (sign, digits, 64-bit bounds). -/
def parseI64 (s : Str) : Except String Int :=
  match s with
  | '-' :: rest =>
    match parseUnsigned (2 ^ 63) rest with
    | Except.ok n => Except.ok (-(n : Int))
    | Except.error e => Except.error e
  | _ =>
    match parseUnsigned (2 ^ 63 - 1) s with
    | Except.ok n => Except.ok (n : Int)
    | Except.error e => Except.error e

/-- Rust `n as i32` applied to a `u32` value. -/
def asI32 (n : Nat) : Int := if n < 2 ^ 31 then (n : Int) else (n : Int) - 2 ^ 32

/-! ## Dates (embedding of `chrono::NaiveDate`) -/

/-- `chrono::NaiveDate`: a plain calendar triple.  Chronological order on
valid dates is lexicographic on `(y, m, d)`. -/
structure Date where
  y : Int
  m : Nat
  d : Nat
deriving DecidableEq

/-- Smallest year representable by `chrono::NaiveDate` (`i32::MIN >> 13`). -/
def MIN_YEAR : Int := -262144

/-- Largest year representable by `chrono::NaiveDate` (`i32::MAX >> 13`). -/
def MAX_YEAR : Int := 262143

/-- `src/todotxt/utils.rs::days_in_month`. -/
def days_in_month (y : Int) (m : Nat) : Nat :=
  match m with
  | 1 | 3 | 5 | 7 | 8 | 10 | 12 => 31
  | 2 => if y % 4 = 0 then (if y % 100 = 0 ∧ y % 400 ≠ 0 then 28 else 29) else 28
  | _ => 30

/-- `chrono::NaiveDate::from_ymd_opt`: succeeds exactly on calendar-valid
triples whose year chrono can represent. -/
def from_ymd_opt (y : Int) (m d : Nat) : Option Date :=
  if MIN_YEAR ≤ y ∧ y ≤ MAX_YEAR ∧ 1 ≤ m ∧ m ≤ 12 ∧ 1 ≤ d ∧ d ≤ days_in_month y m
  then some ⟨y, m, d⟩ else none

/-- Strict chronological order of `chrono::NaiveDate` (lexicographic). -/
def dateLt (a b : Date) : Bool :=
  a.y < b.y ∨ (a.y = b.y ∧ (a.m < b.m ∨ (a.m = b.m ∧ a.d < b.d)))

/-- Non-strict chronological order of `chrono::NaiveDate`. -/
def dateLe (a b : Date) : Bool := dateLt a b || a = b

/-- Days since 1970-01-01 of a civil date (models chrono's internal date
arithmetic; the standard days-from-civil algorithm). -/
def toDays (dt : Date) : Int :=
  let y : Int := if dt.m ≤ 2 then dt.y - 1 else dt.y
  let era : Int := (if 0 ≤ y then y else y - 399).tdiv 400
  let yoe : Int := y - era * 400
  let mp : Int := ((dt.m : Int) + 9) % 12
  let doy : Int := (153 * mp + 2).tdiv 5 + (dt.d : Int) - 1
  let doe : Int := yoe * 365 + yoe.tdiv 4 - yoe.tdiv 100 + doy
  era * 146097 + doe - 719468

/-- Civil date from days since 1970-01-01 (inverse of `toDays`). -/
def fromDays (z0 : Int) : Date :=
  let z : Int := z0 + 719468
  let era : Int := (if 0 ≤ z then z else z - 146096).tdiv 146097
  let doe : Int := z - era * 146097
  let yoe : Int := (doe - doe.tdiv 1460 + doe.tdiv 36524 - doe.tdiv 146096).tdiv 365
  let y : Int := yoe + era * 400
  let doy : Int := doe - (365 * yoe + yoe.tdiv 4 - yoe.tdiv 100)
  let mp : Int := (5 * doy + 2).tdiv 153
  let d : Int := doy - (153 * mp + 2).tdiv 5 + 1
  let m : Int := if mp < 10 then mp + 3 else mp - 9
  ⟨if m ≤ 2 then y + 1 else y, m.toNat, d.toNat⟩

/-- `base + chrono::Duration::days(n)`. -/
def addDays (base : Date) (n : Int) : Date := fromDays (toDays base + n)

/-- Zero-padding to a minimum width (chrono's `%Y`/`%m`/`%d`). -/
def padZeros (w : Nat) (cs : Str) : Str := List.replicate (w - cs.length) '0' ++ cs

/-- `src/todotxt/utils.rs::format_date` (chrono `%Y-%m-%d`). -/
def format_date (dt : Date) : Str :=
  (if dt.y < 0 then '-' :: padZeros 4 (natChars (-dt.y).toNat) else padZeros 4 (natChars dt.y.toNat))
    ++ '-' :: padZeros 2 (natChars dt.m) ++ '-' :: padZeros 2 (natChars dt.d)

/-! ## Priorities and recurrences (`src/todotxt/utils.rs`) -/

/-- Sentinel for "no priority". -/
def NO_PRIORITY : Nat := 26

/-- `utils::parse_priority`: a capital Latin letter enclosed in parentheses.
(The source checks the byte length and the first byte of the trimmed text;
on every string both models accept — three one-byte chars — byte and char
indices coincide, so the char-level embedding accepts the same set.) -/
def parse_priority (s : Str) : Except String Nat :=
  if s.length ≠ 3 then Except.error "invalid priority"
  else
    let trimmed := ((s.dropWhile fun c => c = ' ' || c = '(' || c = ')').reverse.dropWhile
      fun c => c = ' ' || c = '(' || c = ')').reverse
    if trimmed.length ≠ 1 then Except.error "invalid priority"
    else match trimmed.head? with
      | some c => if isAsciiUpper c then Except.ok (c.toNat - 65) else Except.error "invalid priority"
      | none => Except.error "invalid priority"

/-- `utils::char_to_priority`. -/
def char_to_priority (c : Char) : Nat := if isAsciiUpper c then c.toNat - 65 else NO_PRIORITY

/-- `utils::str_to_priority`. -/
def str_to_priority (s : Str) : Nat :=
  if s.length > 1 then NO_PRIORITY
  else match s.head? with
    | some c => char_to_priority c
    | none => NO_PRIORITY

/-- `utils::priority_to_char`. -/
def priority_to_char (priority : Nat) : Char :=
  if priority ≥ NO_PRIORITY then ' ' else Char.ofNat (65 + priority)

/-- `utils::format_priority`. -/
def format_priority (priority : Nat) : Str :=
  if priority ≥ NO_PRIORITY then [] else ['('] ++ [priority_to_char priority] ++ [')']

/-- `utils::Period` — the recurrence units the code supports.  (The source
has no business-day variant.) -/
inductive Period
  | Day
  | Week
  | Month
  | Year
deriving DecidableEq

/-- `utils::Recurrence`. -/
structure Recurrence where
  period : Period
  count : Nat
  strict : Bool
deriving DecidableEq

/-- `Recurrence::default()`. -/
def Recurrence.default : Recurrence := ⟨Period.Day, 0, false⟩

/-- The literal `"rec:"`. -/
def REC_TAG_FULL : Str := ['r', 'e', 'c', ':']

/-- `utils::Recurrence::parse`.  (`s[..s.len() - 1]` in the source is byte
slicing, but the guard `ends_with('d'|'w'|'m'|'y')` makes the last char one
byte, so dropping the last char is faithful.) -/
def Recurrence.parse (s0 : Str) : Except String Recurrence :=
  let s := if strStarts s0 REC_TAG_FULL then s0.drop 4 else s0
  let rec0 := Recurrence.default
  let periodOpt : Option Period :=
    if strEnds s ['d'] then some Period.Day
    else if strEnds s ['w'] then some Period.Week
    else if strEnds s ['m'] then some Period.Month
    else if strEnds s ['y'] then some Period.Year
    else none
  match periodOpt with
  | none => Except.error "invalid recurrence"
  | some p =>
    let rec1 := { rec0 with period := p, strict := strStarts s ['+'] }
    match parseUnsigned 255 s.dropLast with
    | Except.error _ => Except.error "invalid recurrence"
    | Except.ok n => Except.ok { rec1 with count := n }

/-- `utils::Recurrence`'s `Display` (writes the `rec:` tag text). -/
def Recurrence.display (r : Recurrence) : Str :=
  REC_TAG_FULL ++ (if r.strict then ['+'] else []) ++ natChars r.count ++
    (match r.period with
     | Period.Day => ['d']
     | Period.Week => ['w']
     | Period.Month => ['m']
     | Period.Year => ['y'])

/-- `utils::Recurrence::next_date`. -/
def Recurrence.next_date (r : Recurrence) (base : Date) : Date :=
  let last := base.d = days_in_month base.y base.m
  match r.period with
  | Period.Day => addDays base r.count
  | Period.Week => addDays base (7 * r.count)
  | Period.Month =>
    let m0 := base.m + r.count
    let y := if m0 > 12 then base.y + (((m0 - 1) / 12 : Nat) : Int) else base.y
    let m := if m0 > 12 then (m0 - 1) % 12 + 1 else m0
    let mx := days_in_month y m
    let d := if (last ∧ mx ≠ base.d) ∨ mx < base.d then mx else base.d
    match from_ymd_opt y m d with
    | some dd => dd
    | none => base
  | Period.Year =>
    let y := base.y + r.count
    let mx := days_in_month y base.m
    let d := if (last ∧ mx ≠ base.d) ∨ mx < base.d then mx else base.d
    match from_ymd_opt y base.m d with
    | some dd => dd
    | none => base

/-- `utils::parse_date`.  A string without `-` is tried as a recurrence
applied to `base`; otherwise `Y-M-D` with the day clamped to the month's
last day, built through `from_ymd_opt`. -/
def parse_date (s : Str) (base : Date) : Except String Date :=
  let trimmed := rustTrim s
  if (findCharIdx '-' s).isNone then
    match Recurrence.parse s with
    | Except.error _ => Except.error "invalid date"
    | Except.ok rec1 => Except.ok (rec1.next_date base)
  else
    let parts := (splitChar '-' trimmed).mapM (fun spl => (parseUnsigned (2 ^ 32 - 1) spl).toOption)
    match parts with
    | none => Except.error "invalid date"
    | some vals =>
      if vals.length ≠ 3 then Except.error "invalid date"
      else
        let v0 := vals.headD 0
        let v1 := (vals.drop 1).headD 0
        let v2 := (vals.drop 2).headD 0
        if v0 = 0 then Except.error "invalid year"
        else if v1 = 0 ∨ v1 > 12 then Except.error "invalid month"
        else if v2 = 0 ∨ v2 > 31 then Except.error "invalid day"
        else
          let mx := days_in_month (asI32 v0) v1
          let v2 := if v2 > mx then mx else v2
          match from_ymd_opt (asI32 v0) v1 v2 with
          | some d => Except.ok d
          | none => Except.error "invalid date generated"

/-! ## Token extractors (`src/todotxt/utils.rs`) -/

/-- `HashMap::insert`: update the value in place if the key exists,
otherwise add the entry.  (Rust's `HashMap` is unordered; this ordered
association list is a deterministic representative — map equality of two
lists built by this insert is list equality.) -/
def tagsUpsert (m : List (Str × Str)) (k v : Str) : List (Str × Str) :=
  match m with
  | [] => [(k, v)]
  | (k0, v0) :: rest => if k0 = k then (k, v) :: rest else (k0, v0) :: tagsUpsert rest k v

/-- `HashMap::get`. -/
def tagsGet (m : List (Str × Str)) (k : Str) : Option Str :=
  match m with
  | [] => none
  | (k0, v0) :: rest => if k0 = k then some v0 else tagsGet rest k

/-- `HashMap::remove` (drops the entry, keeps the rest). -/
def tagsRemove (m : List (Str × Str)) (k : Str) : List (Str × Str) :=
  match m with
  | [] => []
  | (k0, v0) :: rest => if k0 = k then rest else (k0, v0) :: tagsRemove rest k

/-- `utils::split_tag`: split `name:value` at the first `:` when the colon
is neither first nor last. -/
def split_tag (s : Str) : Option (Str × Str) :=
  if s = [] then none
  else match findCharIdx ':' s with
    | none => none
    | some pos =>
      if 0 < pos ∧ pos < s.length - 1 then some (s.take pos, s.drop (pos + 1)) else none

/-- `utils::extract_tags`: fold over the space-separated words, last value
wins for a repeated name. -/
def extract_tags (s : Str) : List (Str × Str) :=
  (splitChar ' ' s).foldl
    (fun hm word =>
      if word = [] then hm
      else match split_tag word with
        | some (n, v) => tagsUpsert hm n v
        | none => hm)
    []

/-- `utils::extract_hashtags`: every word starting with `#`, stripped of all
leading `#` chars, in order, duplicates and empty remainders kept. -/
def extract_hashtags (s : Str) : List Str :=
  (splitChar ' ' s).foldl
    (fun acc word =>
      match word with
      | '#' :: _ => acc ++ [word.dropWhile (fun c => c = '#')]
      | _ => acc)
    []

/-- The scanning loop of `utils::extract_anything`: repeatedly find the
two-char pattern `' '`+sigil, collect the chars up to the next space as an
item (when non-empty and not seen before), resume at that space. -/
def extractScan (sig : Char) : Str → List Str → List Str
  | [], items => items
  | [_], items => items
  | c1 :: c2 :: rest, items =>
    if c1 = ' ' ∧ c2 = sig then
      let item := rest.takeWhile (fun x => x ≠ ' ')
      let rest2 := rest.dropWhile (fun x => x ≠ ' ')
      let items2 := if item ≠ [] ∧ ¬ items.contains item then items ++ [item] else items
      extractScan sig rest2 items2
    else extractScan sig (c2 :: rest) items
termination_by s _ => s.length
decreasing_by
  · simp only [List.length_cons]
    have h := (List.dropWhile_sublist (l := rest) (fun x => decide (x ≠ ' '))).length_le
    omega
  · simp

/-- `utils::extract_projects` (`extract_anything(" s ", " +")`). -/
def extract_projects (s : Str) : List Str := extractScan '+' (' ' :: s ++ [' ']) []

/-- `utils::extract_contexts` (`extract_anything(" s ", " @")`). -/
def extract_contexts (s : Str) : List Str := extractScan '@' (' ' :: s ++ [' ']) []

/-! ## Word replacement (`src/todotxt/utils.rs::replace_word`) -/

/-- Rust `str::replace`: replace every non-overlapping occurrence of `pat`,
scanning left to right.  (`pat = []` never occurs in this code.) -/
def replaceSub (pat new : Str) : Str → Str
  | [] => []
  | c :: rest =>
    if pat ≠ [] ∧ strStarts (c :: rest) pat then new ++ replaceSub pat new ((c :: rest).drop pat.length)
    else c :: replaceSub pat new rest
termination_by s => s.length
decreasing_by
  · rename_i h
    simp only [List.length_cons, List.length_drop]
    have : pat.length ≠ 0 := by
      intro hl
      exact h.1 (List.eq_nil_of_length_eq_zero hl)
    omega
  · simp

/-- `utils::replace_word`: replace a whole word (spaces and the string ends
delimit words); when `new` is empty the word is removed together with one
adjacent space. -/
def replace_word (s0 old new : Str) : Str :=
  if old = new then s0
  else if s0 = old then new
  else
    let s1 := if strStarts s0 (old ++ [' ']) then
        (let l := if new = [] then old.length + 1 else old.length
         new ++ s0.drop l)
      else s0
    let s2 := if strEnds s1 (' ' :: old) then
        (let l := if new = [] then old.length + 1 else old.length
         s1.take (s1.length - l) ++ new)
      else s1
    if new = [] then replaceSub (' ' :: old ++ [' ']) [' '] s2
    else replaceSub (' ' :: old ++ [' ']) (' ' :: new ++ [' ']) s2

/-! ## The Task record (`src/todotxt/task.rs`) -/

/-- The literal `"due"`. -/
def strDue : Str := ['d', 'u', 'e']

/-- The literal `"t"`. -/
def strT : Str := ['t']

/-- The literal `"rec"`. -/
def strRec : Str := ['r', 'e', 'c']

/-- The literal `"until"`. -/
def strUntil : Str := ['u', 'n', 't', 'i', 'l']

/-- The literal `"pri"` (`PRIORITY_TAG`). -/
def strPri : Str := ['p', 'r', 'i']

/-- `todotxt::Task`. -/
structure Task where
  subject : Str
  priority : Nat
  finished : Bool
  contexts : List Str
  projects : List Str
  tags : List (Str × Str)
  create_date : Option Date
  finish_date : Option Date
  due_date : Option Date
  threshold_date : Option Date
  recurrence : Option Recurrence
  hashtags : List Str
deriving DecidableEq

/-- `Task::default()`. -/
def Task.default : Task :=
  { subject := [], priority := NO_PRIORITY, finished := false, contexts := [], projects := [],
    tags := [], create_date := none, finish_date := none, due_date := none,
    threshold_date := none, recurrence := none, hashtags := [] }

/-- `impl Display for Task`: `x`, priority, finish date, create date,
subject, space separated. -/
def Task.format (t : Task) : Str :=
  (if t.finished then ['x', ' '] else []) ++
  (if t.priority < NO_PRIORITY then format_priority t.priority ++ [' '] else []) ++
  (match t.finish_date with
   | some dt => format_date dt ++ [' ']
   | none => []) ++
  (match t.create_date with
   | some dt => format_date dt ++ [' ']
   | none => []) ++
  t.subject

/-- `task.rs::next_word`. -/
def next_word (s : Str) : Str :=
  if s = [] then s
  else match findCharIdx ' ' s with
    | none => s
    | some p => s.take p

/-- `task.rs::try_read_date`: only words starting with an ASCII digit are
tried as a date. -/
def try_read_date (s : Str) (base : Date) : Option Date :=
  match s.head? with
  | none => none
  | some c => if isAsciiDigit c then (parse_date (next_word s) base).toOption else none

/-- Date-and-subject phase of `Task::validate` (after the `x ` and priority
prefixes were handled); faithful to the source's early returns. -/
def validateDates (t0 : Task) (s : Str) (base : Date) : Task :=
  match try_read_date s base with
  | none => { t0 with subject := s }
  | some dt =>
    let t1 := if t0.finished then { t0 with finish_date := some dt }
              else { t0 with create_date := some dt }
    match findCharIdx ' ' s with
    | none => t1
    | some idx =>
      let s2 := rustTrim (s.drop (idx + 1))
      if ¬ t1.finished then { t1 with subject := s2 }
      else
        match try_read_date s2 base with
        | none => { t1 with subject := s2 }
        | some dt2 =>
          let t2 := { t1 with create_date := some dt2 }
          match findCharIdx ' ' s2 with
          | none => t2
          | some idx2 => { t2 with subject := rustTrim (s2.drop (idx2 + 1)) }

/-- Priority phase of `Task::validate`: a word starting with `(` must parse
as a priority, otherwise the whole rest becomes the subject. -/
def validatePri (t0 : Task) (s : Str) (base : Date) : Task :=
  if s.head? = some '(' then
    match parse_priority (next_word s) with
    | Except.error _ => { t0 with subject := s }
    | Except.ok p => validateDates { t0 with priority := p } (rustTrim (s.drop (next_word s).length)) base
  else validateDates t0 s base

/-- `Task::validate`: extract tokens from the whole line, then strip `x `,
priority and up to two leading dates. -/
def Task.validate (s0 : Str) (base : Date) : Task :=
  let t0 := { Task.default with
    contexts := extract_contexts s0, projects := extract_projects s0,
    tags := extract_tags s0, hashtags := extract_hashtags s0 }
  if strStarts s0 ['x', ' '] then
    validatePri { t0 with finished := true } (rustTrim (s0.drop 2)) base
  else validatePri t0 s0 base

/-- `Task::replace_tag`: rewrite the word in the subject and upsert the tag
map from the new text. -/
def Task.replace_tag (t : Task) (old_tag new_tag : Str) : Task :=
  let subj := replace_word t.subject old_tag new_tag
  match split_tag new_tag with
  | some (n, v) => { t with subject := subj, tags := tagsUpsert t.tags n v }
  | none => { t with subject := subj }

/-- One entry of the `parse_special_tags` scan: set the mirrored field and
queue a canonicalising rewrite when the textual form is not canonical. -/
def pstEntry (base : Date) (tp : Task × List (Str × Str)) (nv : Str × Str) :
    Task × List (Str × Str) :=
  let t0 := tp.1
  let pairs0 := tp.2
  let name := nv.1
  let value := nv.2
  let t1 := if name = strRec then
      match Recurrence.parse value with
      | Except.ok r => { t0 with recurrence := some r }
      | Except.error _ => t0
    else t0
  let step := fun (t : Task) (pairs : List (Str × Str)) (upd : Task → Date → Task) =>
    match parse_date value base with
    | Except.ok dt =>
      let oldTag := name ++ ':' :: value
      let newTag := name ++ ':' :: format_date dt
      (upd t dt, if oldTag ≠ newTag then pairs ++ [(oldTag, newTag)] else pairs)
    | Except.error _ => (t, pairs)
  let r2 := if name = strT then step t1 pairs0 (fun t dt => { t with threshold_date := some dt })
    else (t1, pairs0)
  let r3 := if name = strDue then step r2.1 r2.2 (fun t dt => { t with due_date := some dt })
    else r2
  if name = strUntil then step r3.1 r3.2 (fun t _ => t) else r3

/-- `Task::parse_special_tags`: scan the tag map, then apply the queued
rewrites through `replace_tag`. -/
def Task.parse_special_tags (t : Task) (base : Date) : Task :=
  let r := t.tags.foldl (pstEntry base) (t, [])
  r.2.foldl (fun tk pr => Task.replace_tag tk pr.1 pr.2) r.1

/-- `Task::parse`. -/
def Task.parse (s : Str) (base : Date) : Task :=
  Task.parse_special_tags (Task.validate s base) base

/-! ## Completion (`src/todotxt/task.rs`) -/

/-- `task.rs::CompletionMode`. -/
inductive CompletionMode
  | JustMark
  | MovePriority
  | RemovePriority
  | PriorityToTag
deriving DecidableEq

/-- `task.rs::CompletionDateMode`. -/
inductive CompletionDateMode
  | WhenCreationDateIsPresent
  | AlwaysSet
deriving DecidableEq

/-- `task.rs::CompletionConfig`. -/
structure CompletionConfig where
  completion_mode : CompletionMode
  completion_date_mode : CompletionDateMode
deriving DecidableEq

/-- `Task::complete_with_config`; returns the new task and the
"was changed" flag. -/
def Task.complete_with_config (t : Task) (date : Date) (conf : CompletionConfig) : Task × Bool :=
  if t.finished then (t, false)
  else
    let t1 := { t with finished := true }
    let t2 := if t1.create_date.isSome ∨ conf.completion_date_mode = CompletionDateMode.AlwaysSet
      then { t1 with finish_date := some date } else t1
    let t3 := match conf.completion_mode with
      | CompletionMode.RemovePriority => { t2 with priority := NO_PRIORITY }
      | CompletionMode.PriorityToTag =>
        if t2.priority < NO_PRIORITY then
          { t2 with
            tags := tagsUpsert t2.tags strPri [priority_to_char t2.priority],
            subject := t2.subject ++ ' ' :: strPri ++ ':' :: [priority_to_char t2.priority],
            priority := NO_PRIORITY }
        else t2
      | CompletionMode.MovePriority =>
        if t2.priority < NO_PRIORITY ∧ t2.finish_date.isSome then
          { t2 with
            subject := format_priority t2.priority ++ ' ' :: t2.subject,
            priority := NO_PRIORITY }
        else t2
      | CompletionMode.JustMark => t2
    (t3, true)

/-- `Task::uncomplete`; returns the new task and the "was changed" flag. -/
def Task.uncomplete (t : Task) (cmpl : CompletionMode) : Task × Bool :=
  if ¬ t.finished then (t, false)
  else
    let t1 := match cmpl with
      | CompletionMode.PriorityToTag =>
        let pri := match tagsGet t.tags strPri with
          | some pri_s => str_to_priority pri_s
          | none => NO_PRIORITY
        if pri ≠ NO_PRIORITY then
          { t with
            priority := pri
            tags := tagsRemove t.tags strPri
            subject := replace_word t.subject (strPri ++ ':' :: [priority_to_char pri]) [] }
        else t
      | CompletionMode.MovePriority =>
        let pri_s := match findCharIdx ' ' t.subject with
          | some idx => t.subject.take idx
          | none => t.subject
        match parse_priority pri_s with
        | Except.ok p =>
          { t with priority := p, subject := rustTrimStart (t.subject.drop pri_s.length) }
        | Except.error _ => t
      | _ => t
    ({ t1 with finished := false, finish_date := none }, true)

/-- `Task::replace_project`. -/
def Task.replace_project (t : Task) (old0 new0 : Str) : Task :=
  let old := match old0 with
    | '+' :: r => r
    | _ => old0
  let new := match new0 with
    | '+' :: r => r
    | _ => new0
  if old = [] then
    if new ≠ [] ∧ ¬ t.projects.contains new then
      { t with projects := t.projects ++ [new], subject := t.subject ++ ' ' :: '+' :: new }
    else t
  else
    let t1 := { t with projects := t.projects.filter (fun proj => proj ≠ old) }
    if new ≠ [] then
      { t1 with
        projects := t1.projects ++ [new]
        subject := replace_word t1.subject ('+' :: old) ('+' :: new) }
    else { t1 with subject := replace_word t1.subject ('+' :: old) [] }

/-! ## Filter (`src/tfilter.rs`).  `chrono::Local::now()` is injected as the
`today` parameter. -/

namespace Tfilter

/-- `tfilter::INCLUDE_NONE`. -/
def INCLUDE_NONE : Int := -9999998

/-- The literal `"none"` (`NONE_TITLE`). -/
def NONE_TITLE : Str := ['n', 'o', 'n', 'e']

/-- The literal `"any"` (`ANY_TITLE`). -/
def ANY_TITLE : Str := ['a', 'n', 'y']

/-- `tfilter::ItemRange`. -/
inductive ItemRange
  | None
  | One (id : Nat)
  | Range (lo hi : Nat)
  | List (ids : List Nat)

/-- `tfilter::TodoStatus`. -/
inductive TodoStatus
  | Active
  | All
  | Done
  | Empty
deriving DecidableEq

/-- `tfilter::ValueRange`. -/
structure ValueRange where
  low : Int
  high : Int
deriving DecidableEq

/-- `tfilter::ValueSpan`. -/
inductive ValueSpan
  | None
  | Equal
  | Lower
  | Higher
  | Any
  | Range
  | Active
deriving DecidableEq

/-- `tfilter::DateRange`. -/
structure DateRange where
  days : ValueRange
  span : ValueSpan
deriving DecidableEq

/-- `tfilter::Recurrence` (the filter's own record, only `span`). -/
structure RecurrenceFlt where
  span : ValueSpan
deriving DecidableEq

/-- `tfilter::Priority`. -/
structure Priority where
  value : Nat
  span : ValueSpan
deriving DecidableEq

/-- `tfilter::Timer`. -/
structure Timer where
  span : ValueSpan
  value : Nat
deriving DecidableEq

/-- `tfilter::TagFilter`. -/
structure TagFilter where
  projects : List Str
  contexts : List Str
  tags : List Str
  hashtags : List Str

/-- `tfilter::Conf` (`include`/`exclude` are Lean keywords, embedded as
`incl`/`excl`; the recurrence predicate as `recf` since `rec` collides
with the structure recursor). -/
structure Conf where
  range : ItemRange
  regex : Option Str
  use_regex : Bool
  incl : TagFilter
  excl : TagFilter
  all : TodoStatus
  due : Option DateRange
  thr : Option DateRange
  recf : Option RecurrenceFlt
  pri : Option Priority
  tmr : Option Timer
  created : Option DateRange
  finished : Option DateRange

/-- `tfilter::Conf::default()`. -/
def Conf.default : Conf :=
  { range := ItemRange.None, regex := none, use_regex := false,
    incl := ⟨[], [], [], []⟩, excl := ⟨[], [], [], []⟩,
    all := TodoStatus.Active, due := none, thr := none, recf := none,
    pri := none, tmr := none, created := none, finished := none }

/-- `tfilter::str_matches`: `*x*` contains, `*x` ends-with, `x*`
starts-with, otherwise equality. -/
def str_matches (orig patt : Str) : Bool :=
  if strStarts patt ['*'] ∧ strEnds patt ['*'] then
    containsSub orig (((patt.dropWhile (fun c => c = '*')).reverse.dropWhile
      (fun c => c = '*')).reverse)
  else if strStarts patt ['*'] then strEnds orig (patt.dropWhile (fun c => c = '*'))
  else if strEnds patt ['*'] then
    strStarts orig ((patt.reverse.dropWhile (fun c => c = '*')).reverse)
  else orig = patt

/-- `tfilter::vec_match`. -/
def vec_match (task_list : List Str) (filter : List Str) : Bool :=
  if filter = [] then true
  else if filter.any (fun f => (f = NONE_TITLE ∧ task_list = []) ∨ (f = ANY_TITLE ∧ task_list ≠ []))
  then true
  else task_list.any (fun ctx => filter.any (fun tag => str_matches (strLower ctx) (strLower tag)))

/-- Task lookup by ID (IDs reaching the per-predicate passes are always in
range; `Task.default` keeps the function total). -/
def taskAt (tasks : List Task) (idx : Nat) : Task := tasks.getD idx Task.default

/-- `timer::is_timer_on`: tag `tmr` present with a value other than `off`. -/
def is_timer_on (t : Task) : Bool :=
  match tagsGet t.tags ['t', 'm', 'r'] with
  | some st => st ≠ ['o', 'f', 'f']
  | none => false

/-- `tfilter::filter_regex`.  With `use_regex` the source compiles the
pattern with the external regex crate; that engine is not embedded and the
branch is modelled as the same case-insensitive substring search used by
the plain branch (the claims proved here never set `use_regex`). -/
def filter_regex (tasks : List Task) (v : List Nat) (c : Conf) : List Nat :=
  match c.regex with
  | none => v
  | some rx =>
    let rstr := strLower rx
    v.filter (fun idx => containsSub (strLower (taskAt tasks idx).subject) rstr)

/-- `tfilter::filter_empty`. -/
def filter_empty (tasks : List Task) (v : List Nat) (c : Conf) : List Nat :=
  if c.all = TodoStatus.All then v
  else v.filter (fun idx =>
    let empty := (taskAt tasks idx).subject = []
    (empty ∧ c.all = TodoStatus.Empty) ∨ (¬ empty ∧ c.all ≠ TodoStatus.Empty))

/-- `tfilter::filter_context`. -/
def filter_context (tasks : List Task) (v : List Nat) (c : Conf) : List Nat :=
  if c.incl.contexts = [] ∧ c.excl.contexts = [] then v
  else v.filter (fun idx =>
    ¬ (c.excl.contexts ≠ [] ∧ vec_match (taskAt tasks idx).contexts c.excl.contexts) ∧
    (c.incl.contexts = [] ∨ vec_match (taskAt tasks idx).contexts c.incl.contexts))

/-- `tfilter::filter_project`. -/
def filter_project (tasks : List Task) (v : List Nat) (c : Conf) : List Nat :=
  if c.incl.projects = [] ∧ c.excl.projects = [] then v
  else v.filter (fun idx =>
    ¬ (c.excl.projects ≠ [] ∧ vec_match (taskAt tasks idx).projects c.excl.projects) ∧
    (c.incl.projects = [] ∨ vec_match (taskAt tasks idx).projects c.incl.projects))

/-- `tfilter::filter_tag` (matches against the tag names). -/
def filter_tag (tasks : List Task) (v : List Nat) (c : Conf) : List Nat :=
  if c.incl.tags = [] ∧ c.excl.tags = [] then v
  else v.filter (fun idx =>
    let tag_list := (taskAt tasks idx).tags.map (fun kv => kv.1)
    ¬ (c.excl.tags ≠ [] ∧ vec_match tag_list c.excl.tags) ∧
    (c.incl.tags = [] ∨ vec_match tag_list c.incl.tags))

/-- `tfilter::filter_hashtag`. -/
def filter_hashtag (tasks : List Task) (v : List Nat) (c : Conf) : List Nat :=
  if c.incl.hashtags = [] ∧ c.excl.hashtags = [] then v
  else v.filter (fun idx =>
    ¬ (c.excl.hashtags ≠ [] ∧ vec_match (taskAt tasks idx).hashtags c.excl.hashtags) ∧
    (c.incl.hashtags = [] ∨ vec_match (taskAt tasks idx).hashtags c.incl.hashtags))

/-- `tfilter::filter_priority`. -/
def filter_priority (tasks : List Task) (v : List Nat) (c : Conf) : List Nat :=
  match c.pri with
  | none => v
  | some p =>
    v.filter (fun idx =>
      match p.span with
      | ValueSpan.None => (taskAt tasks idx).priority = NO_PRIORITY
      | ValueSpan.Equal => p.value = (taskAt tasks idx).priority
      | ValueSpan.Lower => p.value ≤ (taskAt tasks idx).priority
      | ValueSpan.Higher => p.value ≥ (taskAt tasks idx).priority
      | ValueSpan.Any => (taskAt tasks idx).priority < NO_PRIORITY
      | _ => false)

/-- `tfilter::filter_recurrence`. -/
def filter_recurrence (tasks : List Task) (v : List Nat) (c : Conf) : List Nat :=
  match c.recf with
  | none => v
  | some r =>
    v.filter (fun idx =>
      match r.span with
      | ValueSpan.None => (taskAt tasks idx).recurrence.isNone
      | ValueSpan.Any => (taskAt tasks idx).recurrence.isSome
      | _ => false)

/-- `tfilter::date_in_range`. -/
def date_in_range (today : Date) (date : Option Date) (range : DateRange) : Bool :=
  match range.span with
  | ValueSpan.None => date.isNone
  | ValueSpan.Any => date.isSome
  | ValueSpan.Higher =>
    match date with
    | some d => toDays d - toDays today > range.days.high
    | none => range.days.low = INCLUDE_NONE
  | ValueSpan.Lower =>
    match date with
    | some d => toDays d - toDays today < range.days.low
    | none => range.days.high = INCLUDE_NONE
  | ValueSpan.Range =>
    match date with
    | some d =>
      let diff := toDays d - toDays today
      if range.days.low = INCLUDE_NONE ∧ range.days.high = INCLUDE_NONE then false
      else if range.days.low = INCLUDE_NONE then diff ≤ range.days.high
      else if range.days.high = INCLUDE_NONE then diff ≥ range.days.low
      else diff ≥ range.days.low ∧ diff ≤ range.days.high
    | none => range.days.low = INCLUDE_NONE ∨ range.days.high = INCLUDE_NONE
  | _ => false

/-- `tfilter::filter_due`. -/
def filter_due (today : Date) (tasks : List Task) (v : List Nat) (c : Conf) : List Nat :=
  match c.due with
  | none => v
  | some due => v.filter (fun idx => date_in_range today (taskAt tasks idx).due_date due)

/-- `tfilter::filter_created`. -/
def filter_created (today : Date) (tasks : List Task) (v : List Nat) (c : Conf) : List Nat :=
  match c.created with
  | none => v
  | some created => v.filter (fun idx => date_in_range today (taskAt tasks idx).create_date created)

/-- `tfilter::filter_finished`. -/
def filter_finished (today : Date) (tasks : List Task) (v : List Nat) (c : Conf) : List Nat :=
  match c.finished with
  | none => v
  | some finished => v.filter (fun idx => date_in_range today (taskAt tasks idx).finish_date finished)

/-- `tfilter::filter_threshold`: hides future-threshold tasks by default
unless the status is `All` or an explicit `thr` predicate is set. -/
def filter_threshold (today : Date) (tasks : List Task) (v : List Nat) (c : Conf) : List Nat :=
  let flt := match c.thr with
    | some thr => thr
    | none => { days := { low := INCLUDE_NONE, high := 0 }, span := ValueSpan.Range }
  v.filter (fun idx =>
    c.all = TodoStatus.All ∨ date_in_range today (taskAt tasks idx).threshold_date flt)

/-- `tfilter::filter_timer`. -/
def filter_timer (tasks : List Task) (v : List Nat) (c : Conf) : List Nat :=
  match c.tmr with
  | none => v
  | some r =>
    v.filter (fun idx =>
      match r.span with
      | ValueSpan.None => ¬ is_timer_on (taskAt tasks idx)
      | ValueSpan.Active => is_timer_on (taskAt tasks idx)
      | _ => false)

/-- `tfilter::is_status_ok`. -/
def is_status_ok (task : Task) (status : TodoStatus) : Bool :=
  ¬ ((status = TodoStatus.Active ∧ task.finished) ∨ (status = TodoStatus.Done ∧ ¬ task.finished))

/-- The initial ID vector of `tfilter::filter` (range and status stage). -/
def rangeStage (tasks : List Task) (c : Conf) : List Nat :=
  match c.range with
  | ItemRange.One i => if i < tasks.length ∧ is_status_ok (taskAt tasks i) c.all then [i] else []
  | ItemRange.Range lo hi =>
    ((List.range tasks.length).filter (fun i => lo ≤ i ∧ i ≤ hi)).filter
      (fun i => is_status_ok (taskAt tasks i) c.all)
  | ItemRange.List lst =>
    (lst.filter (fun i => i < tasks.length)).filter (fun i => is_status_ok (taskAt tasks i) c.all)
  | ItemRange.None =>
    (List.range tasks.length).filter (fun i => is_status_ok (taskAt tasks i) c.all)

/-- `tfilter::filter`: the full pipeline in source order. -/
def filter (today : Date) (tasks : List Task) (c : Conf) : List Nat :=
  let v := rangeStage tasks c
  let v := filter_empty tasks v c
  let v := filter_regex tasks v c
  let v := filter_tag tasks v c
  let v := filter_hashtag tasks v c
  let v := filter_project tasks v c
  let v := filter_context tasks v c
  let v := filter_priority tasks v c
  let v := filter_recurrence tasks v c
  let v := filter_due today tasks v c
  let v := filter_created today tasks v c
  let v := filter_finished today tasks v c
  let v := filter_threshold today tasks v c
  filter_timer tasks v c

end Tfilter

/-! ## The bulk edit engine (`src/todo.rs` and `src/timer.rs`).

These two files operate on `todo_txt::task::Extended`, the task record of
the external `todo_txt` crate (a dependency, not part of this repository).
`ExtTask` models it with the fields the engine reads and writes; the
crate's `complete`/`uncomplete`/recurrence-addition/`from_str` are
modelled next to it.  `chrono::Local::now()` is injected as the `now` /
`nowSecs` parameters. -/

namespace OldTodo

/-- `todo::INVALID_ID`. -/
def INVALID_ID : Nat := 9999999999

/-- The literal `"tmr"` (`TIMER_TAG`). -/
def TIMER_TAG : Str := ['t', 'm', 'r']

/-- The literal `"spent"` (`SPENT_TAG`). -/
def SPENT_TAG : Str := ['s', 'p', 'e', 'n', 't']

/-- The literal `"off"` (`TIMER_OFF`). -/
def TIMER_OFF : Str := ['o', 'f', 'f']

/-- Models `todo_txt::task::Extended` (the external crate's task record). -/
structure ExtTask where
  subject : Str
  priority : Nat
  finished : Bool
  create_date : Option Date
  finish_date : Option Date
  due_date : Option Date
  threshold_date : Option Date
  recurrence : Option Recurrence
  projects : List Str
  contexts : List Str
  tags : List (Str × Str)
  hashtags : List Str
deriving DecidableEq

/-- Default `ExtTask`. -/
def ExtTask.default : ExtTask :=
  { subject := [], priority := NO_PRIORITY, finished := false, create_date := none,
    finish_date := none, due_date := none, threshold_date := none, recurrence := none,
    projects := [], contexts := [], tags := [], hashtags := [] }

/-- Models the external crate's `Task::complete` (marks finished, stamps
the completion date). -/
def extComplete (now : Date) (t : ExtTask) : ExtTask :=
  { t with finished := true, finish_date := some now }

/-- Models the external crate's `Task::uncomplete`. -/
def extUncomplete (t : ExtTask) : ExtTask :=
  { t with finished := false, finish_date := none }

/-- Models the external crate's `impl Add<NaiveDate> for Recurrence`
(adds the recurrence interval to the date, like `Recurrence::next_date`). -/
def recAdd (r : Recurrence) (d : Date) : Date := r.next_date d

/-- Models the external crate's `Extended::from_str` used for wholesale
subject replacement (only the subject is tracked by the properties proved
about `edit`). -/
def extFromStr (s : Str) : Option ExtTask := some { ExtTask.default with subject := s }

/-- Models the external crate's `Display` for a recurrence (the tag text
written back by `update_recurrence`). -/
def extRecDisplay (r : Recurrence) : Str := Recurrence.display r

/-- `todo::Action`. -/
inductive Action
  | None
  | Set
  | Delete
  | Replace
  | Increase
  | Decrease
deriving DecidableEq

/-- `todo::Conf` (the old edit engine's change list). -/
structure Conf where
  done : Bool
  subject : Option Str
  priority : Nat
  priority_act : Action
  due : Option Date
  due_act : Action
  thr : Option Date
  thr_act : Action
  recurrence : Option Recurrence
  recurrence_act : Action
  projects : List Str
  project_act : Action
  contexts : List Str
  context_act : Action
  auto_create_date : Bool

/-- `todo::Conf::default()`. -/
def Conf.default : Conf :=
  { done := true, subject := none, priority := NO_PRIORITY, priority_act := Action.None,
    due := none, due_act := Action.None, thr := none, thr_act := Action.None,
    recurrence := none, recurrence_act := Action.None, projects := [],
    project_act := Action.None, contexts := [], context_act := Action.None,
    auto_create_date := false }

/-! ### `src/timer.rs` -/

/-- `timer::is_timer_on`. -/
def is_timer_on (t : ExtTask) : Bool :=
  match tagsGet t.tags TIMER_TAG with
  | some state => state ≠ TIMER_OFF
  | none => false

/-- `timer::calc_time_spent`. -/
def calc_time_spent (nowSecs : Int) (t : ExtTask) : Option Int :=
  match tagsGet t.tags TIMER_TAG with
  | none => none
  | some started =>
    match parseI64 started with
    | Except.error _ => none
    | Except.ok n =>
      let diff := nowSecs - n
      let spent : Int := match tagsGet t.tags SPENT_TAG with
        | some sp => match parseI64 sp with
          | Except.ok k => k
          | Except.error _ => 0
        | none => 0
      some (if diff > 0 then spent + diff else spent)

/-- `timer::stop_timer`. -/
def stop_timer (nowSecs : Int) (t : ExtTask) : ExtTask × Bool :=
  if ¬ is_timer_on t then (t, false)
  else match calc_time_spent nowSecs t with
    | some spent =>
      ({ t with tags := tagsUpsert (tagsUpsert t.tags SPENT_TAG (intChars spent)) TIMER_TAG TIMER_OFF },
       true)
    | none => (t, false)

/-- `timer::start_timer`. -/
def start_timer (nowSecs : Int) (t : ExtTask) : ExtTask × Bool :=
  if t.finished ∨ is_timer_on t then (t, false)
  else ({ t with tags := tagsUpsert t.tags TIMER_TAG (intChars nowSecs) }, true)

/-! ### `done` / `undone` (`todo::done_undone`) -/

/-- Fuel for the `while cnt == 0 || new_due <= now` loop (the Rust loop
terminates whenever the recurrence is at least one day; the theorems only
evaluate it on inputs well inside this bound). -/
def DUE_FUEL : Nat := 10000

/-- The due-advancing loop of `done_undone`: bump `new_due` by the
recurrence until it passes `now`, counting the steps. -/
def dueLoop (rr : Recurrence) (now : Date) : Nat → Date → Nat → Date × Nat
  | 0, d, cnt => (d, cnt)
  | fuel + 1, d, cnt =>
    if cnt = 0 ∨ dateLe d now then dueLoop rr now fuel (recAdd rr d) (cnt + 1) else (d, cnt)

/-- The per-task body of `done_undone`. -/
def oldDoneStep (now : Date) (nowSecs : Int) (doneFlag : Bool) (t0 : ExtTask) : ExtTask × Bool :=
  if doneFlag then
    let r := stop_timer nowSecs t0
    let t := r.1
    match t.recurrence, t.due_date with
    | some rr, some dd =>
      let l := dueLoop rr now DUE_FUEL dd 0
      let t1 := { t with due_date := some l.1 }
      let t2 := match t1.threshold_date with
        | some dh => { t1 with threshold_date := some (Nat.repeat (recAdd rr) l.2 dh) }
        | none => t1
      (t2, true)
    | some rr, none =>
      match t.threshold_date with
      | some dh => ({ t with threshold_date := some (recAdd rr dh) }, true)
      | none => if ¬ t.finished then (extComplete now t, true) else (t, r.2)
    | none, _ => if ¬ t.finished then (extComplete now t, true) else (t, r.2)
  else if t0.finished then (extUncomplete t0, true) else (t0, false)

/-- The ID loop of `done_undone`: out-of-range IDs are skipped with a
`false` entry. -/
def duLoop (now : Date) (nowSecs : Int) (doneFlag : Bool) :
    List ExtTask → List Nat → List ExtTask × List Bool
  | tasks, [] => (tasks, [])
  | tasks, idx :: rest =>
    if idx < tasks.length then
      let r := oldDoneStep now nowSecs doneFlag (tasks.getD idx ExtTask.default)
      let out := duLoop now nowSecs doneFlag (tasks.set idx r.1) rest
      (out.1, r.2 :: out.2)
    else
      let out := duLoop now nowSecs doneFlag tasks rest
      (out.1, false :: out.2)

/-- `todo::done_undone` (`None` IDs means all tasks; an empty task list
short-circuits to an empty result). -/
def done_undone (now : Date) (nowSecs : Int) (tasks : List ExtTask)
    (ids : Option (List Nat)) (doneFlag : Bool) : List ExtTask × List Bool :=
  if tasks = [] then (tasks, [])
  else
    let idList := match ids with
      | some v => v
      | none => List.range tasks.length
    duLoop now nowSecs doneFlag tasks idList

/-- `todo::done`. -/
def done (now : Date) (nowSecs : Int) (tasks : List ExtTask) (ids : Option (List Nat)) :
    List ExtTask × List Bool :=
  done_undone now nowSecs tasks ids true

/-- `todo::undone`. -/
def undone (now : Date) (nowSecs : Int) (tasks : List ExtTask) (ids : Option (List Nat)) :
    List ExtTask × List Bool :=
  done_undone now nowSecs tasks ids false

/-! ### `edit` and its per-field updates (`src/todo.rs`) -/

/-- `tsort::cmp_opt_dates` (absent dates sort greater). -/
def cmp_opt_dates (d1 d2 : Option Date) : Ordering :=
  match d1, d2 with
  | none, none => Ordering.eq
  | some _, none => Ordering.lt
  | none, some _ => Ordering.gt
  | some v1, some v2 =>
    if dateLt v1 v2 then Ordering.lt else if v1 = v2 then Ordering.eq else Ordering.gt

/-- `tsort::equal_opt_rec`. -/
def equal_opt_rec (r1 r2 : Option Recurrence) : Bool :=
  match r1, r2 with
  | none, none => true
  | some _, none => false
  | none, some _ => false
  | some v1, some v2 => v1 = v2

/-- `todo::update_priority`. -/
def update_priority (task : ExtTask) (c : Conf) : ExtTask × Bool :=
  match c.priority_act with
  | Action.Set =>
    if task.priority ≠ c.priority then ({ task with priority := c.priority }, true)
    else (task, false)
  | Action.Delete =>
    if task.priority ≠ NO_PRIORITY then ({ task with priority := NO_PRIORITY }, true)
    else (task, false)
  | Action.Increase =>
    if task.priority ≠ 0 then ({ task with priority := task.priority - 1 }, true)
    else (task, false)
  | Action.Decrease =>
    if task.priority ≠ NO_PRIORITY then ({ task with priority := task.priority + 1 }, true)
    else (task, false)
  | _ => (task, false)

/-- `todo::update_due_date`. -/
def update_due_date (task : ExtTask) (c : Conf) : ExtTask × Bool :=
  match c.due_act with
  | Action.Set =>
    if cmp_opt_dates task.due_date c.due ≠ Ordering.eq then ({ task with due_date := c.due }, true)
    else (task, false)
  | Action.Delete =>
    if task.due_date.isSome then ({ task with due_date := none }, true) else (task, false)
  | _ => (task, false)

/-- `todo::update_thr_date`. -/
def update_thr_date (task : ExtTask) (c : Conf) : ExtTask × Bool :=
  match c.thr_act with
  | Action.Set =>
    if cmp_opt_dates task.threshold_date c.thr ≠ Ordering.eq then
      ({ task with threshold_date := c.thr }, true)
    else (task, false)
  | Action.Delete =>
    if task.threshold_date.isSome then ({ task with threshold_date := none }, true)
    else (task, false)
  | _ => (task, false)

/-- `todo::remove_tag`: returns the position of the removed tag word and
the remaining text. -/
def remove_tag (orig patt : Str) : Option Nat × Option Str :=
  if orig = patt then (some 0, some [])
  else if strStarts orig patt then
    match findCharIdx ' ' orig with
    | none => (some 0, some [])
    | some pos => (some 0, some (orig.drop (pos + 1)))
  else
    match findSub orig (' ' :: patt) with
    | none => (none, none)
    | some start =>
      let new_orig := orig.drop (start + 1)
      let new_str := match findCharIdx ' ' new_orig with
        | none => orig.take start
        | some e => orig.take start ++ new_orig.drop e
      (some start, some new_str)

/-- `todo::replace_tag`: remove the old tag then insert the new text at its
position. -/
def replace_tag (orig old new : Str) : Option Str :=
  if old = new then none
  else
    match remove_tag orig old with
    | (some p, some st) =>
      let new_s := if p ≠ 0 then ' ' :: new
        else if st ≠ [] then new ++ [' ']
        else new
      some (st.take p ++ new_s ++ st.drop p)
    | _ => none

/-- `todo::update_recurrence` (setting a recurrence on a finished task
uncompletes it). -/
def update_recurrence (task : ExtTask) (c : Conf) : ExtTask × Bool :=
  match c.recurrence_act with
  | Action.Set =>
    if ¬ equal_opt_rec task.recurrence c.recurrence then
      let task := { task with recurrence := c.recurrence }
      match c.recurrence with
      | some nr =>
        let task := match replace_tag task.subject REC_TAG_FULL (extRecDisplay nr) with
          | some subj =>
            let task := { task with subject := subj }
            if task.finished then extUncomplete task else task
          | none => task
        (task, true)
      | none => (task, false)
    else (task, false)
  | Action.Delete =>
    if task.recurrence.isSome then
      let task := { task with recurrence := none }
      let task := match remove_tag task.subject REC_TAG_FULL with
        | (some _, some subj) => { task with subject := subj }
        | _ => task
      (task, true)
    else (task, false)
  | _ => (task, false)

/-- `todo::item_in_list` (caseless membership with the match's index). -/
def item_in_list (list : List Str) (val : Str) : Option Str × Option Nat :=
  match list.findIdx? (fun ll => default_caseless_match_str ll val) with
  | some idx => (some (list.getD idx []), some idx)
  | none => (none, none)

/-- `todo::remove_proj_ctx`: drop every whitespace word caselessly equal to
the pattern; `None` when nothing matched. -/
def remove_proj_ctx (orig patt : Str) : Option Str :=
  if orig = patt then none
  else if ¬ (strStarts patt ['@'] ∨ strStarts patt ['+']) then none
  else
    let kept := (splitWs orig).filter (fun w => ¬ default_caseless_match_str w patt)
    if kept.length = (splitWs orig).length then none
    else some (joinSpace kept)

/-- `todo::replace_proj_ctx`: substitute every whitespace word caselessly
equal to `old` by `new`; `None` when nothing matched. -/
def replace_proj_ctx (orig old new : Str) : Option Str :=
  if old = new then none
  else if ¬ (strStarts old ['@'] ∨ strStarts old ['+']) then none
  else
    if (splitWs orig).any (fun w => default_caseless_match_str w old) then
      some (joinSpace ((splitWs orig).map
        (fun w => if default_caseless_match_str w old then new else w)))
    else none

/-- `todo::update_projects`: fold of the `Set`/`Delete`/`Replace` actions
over the configured project list. -/
def update_projects_one (act : Action) (tb : ExtTask × Bool) (new_p : Str) : ExtTask × Bool :=
  let task := tb.1
  let changed := tb.2
  match act with
  | Action.Set =>
    match (item_in_list task.projects new_p).1 with
    | none =>
      ({ task with subject := task.subject ++ ' ' :: '+' :: new_p,
                   projects := task.projects ++ [new_p] }, true)
    | some _ => (task, changed)
  | Action.Delete =>
    match item_in_list task.projects new_p with
    | (some prj, some pos) =>
      (match remove_proj_ctx task.subject ('+' :: prj) with
       | some new_subj =>
         ({ task with subject := new_subj, projects := task.projects.eraseIdx pos }, true)
       | none => (task, changed))
    | _ => (task, changed)
  | Action.Replace =>
    let pair := splitTerm '+' new_p
    if pair.length = 2 ∧ pair.getD 0 [] ≠ pair.getD 1 [] ∧ pair.getD 0 [] ≠ [] ∧
        pair.getD 1 [] ≠ [] then
      match item_in_list task.projects (pair.getD 0 []) with
      | (some prj, some pos) =>
        (match replace_proj_ctx task.subject ('+' :: prj) ('+' :: pair.getD 1 []) with
         | some new_subj =>
           ({ task with subject := new_subj,
                        projects := task.projects.set pos ('+' :: pair.getD 1 []) }, true)
         | none => (task, changed))
      | _ => (task, changed)
    else (task, changed)
  | _ => (task, changed)

def update_projects (task : ExtTask) (c : Conf) : ExtTask × Bool :=
  c.projects.foldl (update_projects_one c.project_act) (task, false)

/-- `todo::update_contexts` (same shape as `update_projects`, `@` sigil). -/
def update_contexts_one (act : Action) (tb : ExtTask × Bool) (new_c : Str) : ExtTask × Bool :=
  let task := tb.1
  let changed := tb.2
  match act with
  | Action.Set =>
    match (item_in_list task.contexts new_c).1 with
    | none =>
      ({ task with subject := task.subject ++ ' ' :: '@' :: new_c,
                   contexts := task.contexts ++ [new_c] }, true)
    | some _ => (task, changed)
  | Action.Delete =>
    match item_in_list task.contexts new_c with
    | (some ctx, some pos) =>
      (match remove_proj_ctx task.subject ('@' :: ctx) with
       | some new_subj =>
         ({ task with subject := new_subj, contexts := task.contexts.eraseIdx pos }, true)
       | none => (task, changed))
    | _ => (task, changed)
  | Action.Replace =>
    let pair := splitTerm '@' new_c
    if pair.length = 2 ∧ pair.getD 0 [] ≠ pair.getD 1 [] ∧ pair.getD 0 [] ≠ [] ∧
        pair.getD 1 [] ≠ [] then
      match item_in_list task.contexts (pair.getD 0 []) with
      | (some ctx, some pos) =>
        (match replace_proj_ctx task.subject ('@' :: ctx) ('@' :: pair.getD 1 []) with
         | some new_subj =>
           ({ task with subject := new_subj,
                        contexts := task.contexts.set pos ('@' :: pair.getD 1 []) }, true)
         | none => (task, changed))
      | _ => (task, changed)
    else (task, changed)
  | _ => (task, changed)

def update_contexts (task : ExtTask) (c : Conf) : ExtTask × Bool :=
  c.contexts.foldl (update_contexts_one c.context_act) (task, false)

/-- The non-subject body of one `edit` iteration: the six field updates,
or-ing the change flags. -/
def editTask (c : Conf) (t0 : ExtTask) : ExtTask × Bool :=
  let r1 := update_priority t0 c
  let r2 := update_due_date r1.1 c
  let r3 := update_thr_date r2.1 c
  let r4 := update_recurrence r3.1 c
  let r5 := update_projects r4.1 c
  let r6 := update_contexts r5.1 c
  (r6.1, r1.2 || r2.2 || r3.2 || r4.2 || r5.2 || r6.2)

/-- The ID loop of `edit`: a subject replacement applies to the first
in-range ID only and stops the loop (remaining entries stay `false`). -/
def editLoop (c : Conf) : List ExtTask → List Nat → List ExtTask × List Bool
  | tasks, [] => (tasks, [])
  | tasks, idx :: rest =>
    if idx < tasks.length then
      match c.subject with
      | some subj =>
        (match extFromStr subj with
         | some t2 =>
           let old := tasks.getD idx ExtTask.default
           let t2 := if t2.create_date = none ∧ old.create_date.isSome then
               { t2 with create_date := old.create_date }
             else t2
           (tasks.set idx t2, true :: List.replicate rest.length false)
         | none => (tasks, false :: List.replicate rest.length false))
      | none =>
        let r := editTask c (tasks.getD idx ExtTask.default)
        let out := editLoop c (tasks.set idx r.1) rest
        (out.1, r.2 :: out.2)
    else
      let out := editLoop c tasks rest
      (out.1, false :: out.2)

/-- `todo::edit`. -/
def edit (tasks : List ExtTask) (ids : Option (List Nat)) (c : Conf) :
    List ExtTask × List Bool :=
  if tasks = [] then (tasks, [])
  else
    let idList := match ids with
      | some v => v
      | none => List.range tasks.length
    editLoop c tasks idList

/-- The ID loop of `start`. -/
def startLoop (nowSecs : Int) : List ExtTask → List Nat → List ExtTask × List Bool
  | tasks, [] => (tasks, [])
  | tasks, idx :: rest =>
    if idx < tasks.length then
      let r := start_timer nowSecs (tasks.getD idx ExtTask.default)
      let out := startLoop nowSecs (tasks.set idx r.1) rest
      (out.1, r.2 :: out.2)
    else
      let out := startLoop nowSecs tasks rest
      (out.1, false :: out.2)

/-- `todo::start`. -/
def start (nowSecs : Int) (tasks : List ExtTask) (ids : Option (List Nat)) :
    List ExtTask × List Bool :=
  if tasks = [] then (tasks, [])
  else
    let idList := match ids with
      | some v => v
      | none => List.range tasks.length
    startLoop nowSecs tasks idList

/-- The ID loop of `stop`. -/
def stopLoop (nowSecs : Int) : List ExtTask → List Nat → List ExtTask × List Bool
  | tasks, [] => (tasks, [])
  | tasks, idx :: rest =>
    if idx < tasks.length then
      let r := stop_timer nowSecs (tasks.getD idx ExtTask.default)
      let out := stopLoop nowSecs (tasks.set idx r.1) rest
      (out.1, r.2 :: out.2)
    else
      let out := stopLoop nowSecs tasks rest
      (out.1, false :: out.2)

/-- `todo::stop`. -/
def stop (nowSecs : Int) (tasks : List ExtTask) (ids : Option (List Nat)) :
    List ExtTask × List Bool :=
  if tasks = [] then (tasks, [])
  else
    let idList := match ids with
      | some v => v
      | none => List.range tasks.length
    stopLoop nowSecs tasks idList

end OldTodo

/-! ## Basic string lemmas -/

theorem strStarts_refl_append (s r : Str) : strStarts (s ++ r) s = true := by
  induction s with
  | nil => cases r <;> rfl
  | cons c cs ih => simp [strStarts, ih]

theorem strStarts_iff (s p : Str) : strStarts s p = true ↔ ∃ r, s = p ++ r := by
  induction p generalizing s with
  | nil =>
    constructor
    · intro _; exact ⟨s, rfl⟩
    · intro _; cases s <;> rfl
  | cons c cs ih =>
    cases s with
    | nil =>
      constructor
      · intro h; cases h
      · rintro ⟨r, hr⟩; cases hr
    | cons a as =>
      simp only [strStarts, Bool.and_eq_true, decide_eq_true_eq, ih, List.cons_append,
        List.cons.injEq]
      constructor
      · rintro ⟨rfl, r, rfl⟩; exact ⟨r, rfl, rfl⟩
      · rintro ⟨r, rfl, rfl⟩; exact ⟨rfl, r, rfl⟩

theorem splitChar_word_append (sep : Char) (w r : Str) (hw : ∀ c ∈ w, c ≠ sep) :
    splitChar sep (w ++ sep :: r) = w :: splitChar sep r := by
  induction w with
  | nil => simp [splitChar]
  | cons c cs ih =>
    have hc : c ≠ sep := hw c (List.mem_cons_self c cs)
    have ihh := ih (fun x hx => hw x (List.mem_cons_of_mem c hx))
    simp only [List.cons_append, splitChar, if_neg hc]
    rw [List.append_eq, ihh]

theorem splitChar_ne_nil (sep : Char) (s : Str) : splitChar sep s ≠ [] := by
  cases s with
  | nil => simp [splitChar]
  | cons c cs =>
    simp only [splitChar]
    split
    · simp
    · split
      · simp
      · simp

theorem splitChar_nosep (sep : Char) (w : Str) (hw : ∀ c ∈ w, c ≠ sep) :
    splitChar sep w = [w] := by
  induction w with
  | nil => rfl
  | cons c cs ih =>
    have hc : c ≠ sep := hw c (List.mem_cons_self c cs)
    have ihh := ih (fun x hx => hw x (List.mem_cons_of_mem c hx))
    simp only [splitChar, if_neg hc, ihh]

theorem ws_space : rustIsWs ' ' = true := by decide

theorem rustTrim_append_space (s : Str) : rustTrim (s ++ [' ']) = rustTrim s := by
  induction s with
  | nil => rfl
  | cons c cs ih =>
    by_cases hc : rustIsWs c
    · simp only [List.cons_append, rustTrim, List.dropWhile_cons, hc, if_true] at ih ⊢
      exact ih
    · simp only [List.cons_append, rustTrim, List.dropWhile_cons, hc, Bool.false_eq_true,
        if_false]
      have hrev : (c :: (cs ++ [' '])).reverse = ' ' :: (c :: cs).reverse := by
        simp
      rw [hrev, List.dropWhile_cons, ws_space]
      simp

theorem rustTrim_space_cons (s : Str) : rustTrim (' ' :: s) = rustTrim s := by
  simp only [rustTrim, List.dropWhile_cons, ws_space, if_true]

/-- A string with non-whitespace first and last chars is unchanged by
`trim`. -/
theorem rustTrim_id (s : Str) (h1 : ∀ c, s.head? = some c → rustIsWs c = false)
    (h2 : ∀ c, s.getLast? = some c → rustIsWs c = false) : rustTrim s = s := by
  cases s with
  | nil => rfl
  | cons c cs =>
    have hc : rustIsWs c = false := h1 c rfl
    simp only [rustTrim, List.dropWhile_cons, hc, Bool.false_eq_true, if_false]
    cases hrev : (c :: cs).reverse with
    | nil => exact absurd (congrArg List.length hrev) (by simp)
    | cons e es =>
      have he : (c :: cs).getLast? = some e := by
        rw [← List.head?_reverse, hrev, List.head?_cons]
      have hee : rustIsWs e = false := h2 e he
      have hd : List.dropWhile rustIsWs (e :: es) = e :: es := by
        rw [List.dropWhile_cons, hee]
        simp
      rw [hd, ← hrev, List.reverse_reverse]

theorem findCharIdx_word (ch : Char) (w r : Str) (hw : ∀ c ∈ w, c ≠ ch) :
    findCharIdx ch (w ++ ch :: r) = some w.length := by
  induction w with
  | nil => simp [findCharIdx]
  | cons c cs ih =>
    have hc : c ≠ ch := hw c (List.mem_cons_self c cs)
    have ihh := ih (fun x hx => hw x (List.mem_cons_of_mem c hx))
    simp only [List.cons_append, findCharIdx, if_neg hc]
    rw [List.append_eq, ihh]
    rfl

theorem findCharIdx_word_space (w r : Str) (hw : ∀ c ∈ w, c ≠ ' ') :
    findCharIdx ' ' (w ++ ' ' :: r) = some w.length := findCharIdx_word ' ' w r hw

theorem findCharIdx_none (ch : Char) (w : Str) (hw : ∀ c ∈ w, c ≠ ch) :
    findCharIdx ch w = none := by
  induction w with
  | nil => rfl
  | cons c cs ih =>
    have hc : c ≠ ch := hw c (List.mem_cons_self c cs)
    have ihh := ih (fun x hx => hw x (List.mem_cons_of_mem c hx))
    simp only [findCharIdx, if_neg hc, ihh]
    rfl

theorem next_word_of_space (w r : Str) (hw : ∀ c ∈ w, c ≠ ' ') :
    next_word (w ++ ' ' :: r) = w := by
  have hne : w ++ ' ' :: r ≠ [] := by simp
  have ht : List.take w.length (w ++ ' ' :: r) = w := List.take_left w (' ' :: r)
  simp only [next_word, if_neg hne, findCharIdx_word_space w r hw, ht]

theorem next_word_nospace (w : Str) (hw : ∀ c ∈ w, c ≠ ' ') : next_word w = w := by
  by_cases h : w = []
  · simp [next_word, h]
  · simp only [next_word, if_neg h, findCharIdx_none ' ' w hw]

/-! ## Decimal digit lemmas -/

/-- The numeric value of a digit string (the fold used by
`parseUnsigned`). -/
def digitsToNat (s : Str) : Nat := s.foldl (fun acc c => acc * 10 + digitVal c) 0

theorem digitChr_toNat (n : Nat) (h : n < 10) : (digitChr n).toNat = 48 + n := by
  interval_cases n <;> decide

theorem digitChr_isDigit (n : Nat) (h : n < 10) : isAsciiDigit (digitChr n) = true := by
  interval_cases n <;> decide

theorem digitVal_digitChr (n : Nat) (h : n < 10) : digitVal (digitChr n) = n := by
  interval_cases n <;> decide

theorem isAsciiDigit_toNat (c : Char) (h : isAsciiDigit c = true) :
    48 ≤ c.toNat ∧ c.toNat ≤ 57 := by
  simp only [isAsciiDigit, Bool.and_eq_true, decide_eq_true_eq] at h
  obtain ⟨h1, h2⟩ := h
  exact ⟨h1, h2⟩

theorem digit_ne (c ch : Char) (h : isAsciiDigit c = true)
    (hch : ch.toNat < 48 ∨ 57 < ch.toNat) : c ≠ ch := by
  intro heq
  subst heq
  have := isAsciiDigit_toNat c h
  omega

theorem foldDigits_append_one (xs : Str) (c : Char) :
    digitsToNat (xs ++ [c]) = digitsToNat xs * 10 + digitVal c := by
  simp [digitsToNat, List.foldl_append]

theorem natCharsAux_spec (fuel : Nat) : ∀ n, n < fuel →
    (natCharsAux fuel n).all isAsciiDigit = true ∧ natCharsAux fuel n ≠ [] ∧
    digitsToNat (natCharsAux fuel n) = n := by
  induction fuel with
  | zero => intro n h; omega
  | succ f ih =>
    intro n h
    by_cases hn : n < 10
    · refine ⟨?_, ?_, ?_⟩
      · simp [natCharsAux, hn, digitChr_isDigit n hn]
      · simp [natCharsAux, hn]
      · simp [natCharsAux, hn, digitsToNat, digitVal_digitChr n hn]
    · have hdiv : n / 10 < f := by omega
      obtain ⟨ha, hne, hv⟩ := ih (n / 10) hdiv
      refine ⟨?_, ?_, ?_⟩
      · simp only [natCharsAux, if_neg hn, List.all_append, ha, Bool.true_and, List.all_cons,
          List.all_nil, Bool.and_true]
        exact digitChr_isDigit (n % 10) (Nat.mod_lt n (by omega))
      · simp [natCharsAux, hn]
      · simp only [natCharsAux, if_neg hn]
        rw [foldDigits_append_one, hv, digitVal_digitChr (n % 10) (Nat.mod_lt n (by omega))]
        omega

theorem natChars_spec (n : Nat) :
    (natChars n).all isAsciiDigit = true ∧ natChars n ≠ [] ∧ digitsToNat (natChars n) = n :=
  natCharsAux_spec (n + 1) n (Nat.lt_succ_self n)

theorem padZeros_all_digits (w : Nat) (xs : Str) (h : xs.all isAsciiDigit = true) :
    (padZeros w xs).all isAsciiDigit = true := by
  simp only [padZeros, List.all_append, h, Bool.and_true]
  have : ∀ k, (List.replicate k '0').all isAsciiDigit = true := by
    intro k
    induction k with
    | zero => rfl
    | succ m ihm => simp [List.replicate, ihm]; decide
  exact this _

theorem padZeros_value (w : Nat) (xs : Str) :
    digitsToNat (padZeros w xs) = digitsToNat xs := by
  simp only [padZeros, digitsToNat, List.foldl_append]
  have : ∀ k, (List.replicate k '0').foldl (fun acc c => acc * 10 + digitVal c) 0 = 0 := by
    intro k
    induction k with
    | zero => rfl
    | succ m ihm => simpa [List.replicate] using ihm
  rw [this]

theorem padZeros_ne_nil (w : Nat) (xs : Str) (h : xs ≠ []) : padZeros w xs ≠ [] := by
  simp [padZeros, h]

/-- `plusStrip` keeps a string whose first char is not `+`. -/
theorem plusStrip_eq (ds : Str) (h : ds.head? ≠ some '+') : plusStrip ds = ds := by
  cases ds with
  | nil => rfl
  | cons c rest =>
    have hc : c ≠ '+' := by
      intro heq
      exact h (by rw [heq]; rfl)
    unfold plusStrip
    split
    · rename_i heq
      injection heq with h1 h2
      exact absurd h1 hc
    · rfl

/-- `parseUnsigned` on a non-empty all-digit string in range. -/
theorem parseUnsigned_digits (maxVal : Nat) (ds : Str) (ha : ds.all isAsciiDigit = true)
    (hne : ds ≠ []) (hv : digitsToNat ds ≤ maxVal) :
    parseUnsigned maxVal ds = Except.ok (digitsToNat ds) := by
  have hhead : ds.head? ≠ some '+' := by
    cases ds with
    | nil => simp
    | cons c rest =>
      have hc : isAsciiDigit c = true := by
        simp only [List.all_cons, Bool.and_eq_true] at ha
        exact ha.1
      have := digit_ne c '+' hc (by left; decide)
      simp only [List.head?_cons, ne_eq, Option.some.injEq]
      exact this
  simp only [parseUnsigned, plusStrip_eq ds hhead]
  rw [if_neg, if_neg]
  · rfl
  · simp only [gt_iff_lt, not_lt]
    exact hv
  · simp [hne, ha]

theorem days_in_month_le (y : Int) (m : Nat) : days_in_month y m ≤ 31 := by
  unfold days_in_month
  split <;> first
    | omega
    | (split <;> first
        | omega
        | (split <;> omega))

theorem days_in_month_pos (y : Int) (m : Nat) : 1 ≤ days_in_month y m := by
  unfold days_in_month
  split <;> first
    | omega
    | (split <;> first
        | omega
        | (split <;> omega))

/-- Validity of a date as the parser and formatter see it: positive year in
chrono's range, calendar-valid month and day. -/
def dateOk (dt : Date) : Prop :=
  1 ≤ dt.y ∧ dt.y ≤ MAX_YEAR ∧ 1 ≤ dt.m ∧ dt.m ≤ 12 ∧ 1 ≤ dt.d ∧
    dt.d ≤ days_in_month dt.y dt.m

instance (dt : Date) : Decidable (dateOk dt) := by unfold dateOk; infer_instance

theorem format_date_eq (dt : Date) (h : 1 ≤ dt.y) :
    format_date dt = padZeros 4 (natChars dt.y.toNat) ++ '-' :: padZeros 2 (natChars dt.m)
      ++ '-' :: padZeros 2 (natChars dt.d) := by
  simp only [format_date, if_neg (by omega : ¬ dt.y < 0)]

theorem format_date_chars (dt : Date) (h : 1 ≤ dt.y) :
    ∀ c ∈ format_date dt, isAsciiDigit c = true ∨ c = '-' := by
  rw [format_date_eq dt h]
  intro c hc
  simp only [List.mem_append, List.mem_cons] at hc
  have hy := padZeros_all_digits 4 _ (natChars_spec dt.y.toNat).1
  have hm := padZeros_all_digits 2 _ (natChars_spec dt.m).1
  have hd := padZeros_all_digits 2 _ (natChars_spec dt.d).1
  simp only [List.all_eq_true] at hy hm hd
  rcases hc with (h1 | rfl | h2) | (rfl | h3)
  · exact Or.inl (hy c h1)
  · exact Or.inr rfl
  · exact Or.inl (hm c h2)
  · exact Or.inr rfl
  · exact Or.inl (hd c h3)

theorem head?_mem (s : Str) (c : Char) (h : s.head? = some c) : c ∈ s := by
  cases s with
  | nil => cases h
  | cons a as =>
    simp only [List.head?_cons, Option.some.injEq] at h
    exact h ▸ List.mem_cons_self a as

theorem getLast?_mem (s : Str) (c : Char) (h : s.getLast? = some c) : c ∈ s := by
  have hrev : s.reverse.head? = some c := by rw [List.head?_reverse]; exact h
  have := head?_mem s.reverse c hrev
  exact List.mem_reverse.mp this

theorem digit_not_ws (c : Char) (h : isAsciiDigit c = true) : rustIsWs c = false := by
  obtain ⟨h1, h2⟩ := isAsciiDigit_toNat c h
  simp only [rustIsWs, Bool.or_eq_false_iff, Bool.and_eq_false_iff,
    decide_eq_false_iff_not, not_le]
  omega

theorem dash_not_ws : rustIsWs '-' = false := by decide

/-- Parsing the canonical text of a valid date returns the date, for every
base. -/
theorem parse_date_format (dt : Date) (h : dateOk dt) (base : Date) :
    parse_date (format_date dt) base = Except.ok dt := by
  obtain ⟨hy1, hy2, hm1, hm2, hd1, hd2⟩ := h
  have hy2n : dt.y ≤ 262143 := by simpa [MAX_YEAR] using hy2
  have h31 := days_in_month_le dt.y dt.m
  have hfd := format_date_eq dt hy1
  have hchars := format_date_chars dt hy1
  set y4 := padZeros 4 (natChars dt.y.toNat) with hy4
  set m2 := padZeros 2 (natChars dt.m) with hm2d
  set d2 := padZeros 2 (natChars dt.d) with hd2d
  obtain ⟨hya, hyne, hyv⟩ := natChars_spec dt.y.toNat
  obtain ⟨hma, hmne, hmv⟩ := natChars_spec dt.m
  obtain ⟨hda, hdne, hdv⟩ := natChars_spec dt.d
  have hy4a : y4.all isAsciiDigit = true := padZeros_all_digits _ _ hya
  have hm2a : m2.all isAsciiDigit = true := padZeros_all_digits _ _ hma
  have hd2a : d2.all isAsciiDigit = true := padZeros_all_digits _ _ hda
  have hy4nd : ∀ c ∈ y4, c ≠ '-' := by
    intro c hc
    exact digit_ne c '-' (by simpa using (List.all_eq_true.mp hy4a) c hc) (by left; decide)
  have hm2nd : ∀ c ∈ m2, c ≠ '-' := by
    intro c hc
    exact digit_ne c '-' (by simpa using (List.all_eq_true.mp hm2a) c hc) (by left; decide)
  have hd2nd : ∀ c ∈ d2, c ≠ '-' := by
    intro c hc
    exact digit_ne c '-' (by simpa using (List.all_eq_true.mp hd2a) c hc) (by left; decide)
  have hassoc : format_date dt = y4 ++ '-' :: (m2 ++ '-' :: d2) := by
    rw [hfd]
    simp [List.append_assoc]
  have hfind : findCharIdx '-' (format_date dt) = some y4.length := by
    rw [hassoc]
    exact findCharIdx_word '-' y4 (m2 ++ '-' :: d2) hy4nd
  have htrim : rustTrim (format_date dt) = format_date dt := by
    apply rustTrim_id
    · intro c hc
      rcases hchars c (head?_mem _ c hc) with hdg | rfl
      · exact digit_not_ws c hdg
      · exact dash_not_ws
    · intro c hc
      rcases hchars c (getLast?_mem _ c hc) with hdg | rfl
      · exact digit_not_ws c hdg
      · exact dash_not_ws
  have hsplit : splitChar '-' (format_date dt) = [y4, m2, d2] := by
    rw [hassoc, splitChar_word_append '-' y4 _ hy4nd, splitChar_word_append '-' m2 _ hm2nd,
      splitChar_nosep '-' d2 hd2nd]
  have hyval : digitsToNat y4 = dt.y.toNat := by rw [hy4, padZeros_value, hyv]
  have hmval : digitsToNat m2 = dt.m := by rw [hm2d, padZeros_value, hmv]
  have hdval : digitsToNat d2 = dt.d := by rw [hd2d, padZeros_value, hdv]
  have hylt : dt.y.toNat ≤ 2 ^ 32 - 1 := by
    have : dt.y ≤ 262143 := hy2
    omega
  have hpy : parseUnsigned (2 ^ 32 - 1) y4 = Except.ok dt.y.toNat := by
    rw [parseUnsigned_digits _ _ hy4a (padZeros_ne_nil _ _ hyne) (by rw [hyval]; omega), hyval]
  have hpm : parseUnsigned (2 ^ 32 - 1) m2 = Except.ok dt.m := by
    rw [parseUnsigned_digits _ _ hm2a (padZeros_ne_nil _ _ hmne) (by rw [hmval]; omega), hmval]
  have hpd : parseUnsigned (2 ^ 32 - 1) d2 = Except.ok dt.d := by
    have h31 := days_in_month_le dt.y dt.m
    rw [parseUnsigned_digits _ _ hd2a (padZeros_ne_nil _ _ hdne) (by rw [hdval]; omega), hdval]
  have hasI32 : asI32 dt.y.toNat = dt.y := by
    simp only [asI32]
    rw [if_pos (by omega)]
    omega
  unfold parse_date
  rw [htrim, hfind]
  simp only [Option.isNone_some, Bool.false_eq_true, if_false, hsplit]
  simp only [List.mapM_cons, List.mapM_nil, hpy, hpm, hpd, Except.toOption, Option.pure_def,
    Option.bind_eq_bind, Option.bind_some, Option.some_bind]
  simp only [List.length_cons, List.length_nil, List.headD, List.drop, hasI32]
  rw [if_neg (by omega), if_neg (by omega), if_neg (by omega), if_neg (by omega)]
  have hclamp : ¬ dt.d > days_in_month dt.y dt.m := by omega
  rw [if_neg hclamp]
  simp only [from_ymd_opt]
  rw [if_pos ⟨by unfold MIN_YEAR; omega, by unfold MAX_YEAR at hy2 ⊢; omega, hm1, hm2, hd1, hd2⟩]

/-! ## Word-level characterisation of the extractors -/

/-- The item (sigil stripped) of every word starting with the sigil, in
order, duplicates and empties kept. -/
def wordItems (sig : Char) (s : Str) : List Str :=
  (splitChar ' ' s).filterMap (fun w =>
    match w with
    | c :: t => if c = sig then some t else none
    | [] => none)

/-- The accumulator step of `extract_anything`: push when non-empty and
unseen. -/
def pushUniqueNE (acc : List Str) (w : Str) : List Str :=
  if w ≠ [] ∧ ¬ acc.contains w then acc ++ [w] else acc

theorem takeWhile_append_all (p : Char → Bool) (a b : Str) (h : ∀ c ∈ a, p c = true) :
    (a ++ b).takeWhile p = a ++ b.takeWhile p := by
  induction a with
  | nil => rfl
  | cons c cs ih =>
    have hc := h c (List.mem_cons_self c cs)
    simp only [List.cons_append, List.takeWhile_cons, hc, if_true,
      ih (fun x hx => h x (List.mem_cons_of_mem c hx))]

theorem dropWhile_append_all (p : Char → Bool) (a b : Str) (h : ∀ c ∈ a, p c = true) :
    (a ++ b).dropWhile p = b.dropWhile p := by
  induction a with
  | nil => rfl
  | cons c cs ih =>
    have hc := h c (List.mem_cons_self c cs)
    simp only [List.cons_append, List.dropWhile_cons, hc, if_true,
      ih (fun x hx => h x (List.mem_cons_of_mem c hx))]

theorem takeWhile_append_stop (p : Char → Bool) (a : Str) (d : Char) (r : Str)
    (h : ∀ c ∈ a, p c = true) (hd : p d = false) : (a ++ d :: r).takeWhile p = a := by
  rw [takeWhile_append_all p a (d :: r) h, List.takeWhile_cons, hd]
  simp

theorem dropWhile_append_stop (p : Char → Bool) (a : Str) (d : Char) (r : Str)
    (h : ∀ c ∈ a, p c = true) (hd : p d = false) : (a ++ d :: r).dropWhile p = d :: r := by
  rw [dropWhile_append_all p a (d :: r) h, List.dropWhile_cons, hd]
  simp

theorem extractScan_nil (sig : Char) (items : List Str) : extractScan sig [] items = items := by
  simp [extractScan]

theorem extractScan_one (sig : Char) (c : Char) (items : List Str) :
    extractScan sig [c] items = items := by
  simp [extractScan]

theorem extractScan_step_skip (sig a : Char) (rest : Str) (items : List Str) (ha : a ≠ ' ') :
    extractScan sig (a :: rest) items = extractScan sig rest items := by
  cases rest with
  | nil => rw [extractScan_one, extractScan_nil]
  | cons b r2 =>
    simp only [extractScan]
    rw [if_neg (fun h => ha h.1)]

theorem extractScan_step_nomatch (sig c : Char) (rest : Str) (items : List Str) (hc : c ≠ sig) :
    extractScan sig (' ' :: c :: rest) items = extractScan sig (c :: rest) items := by
  simp only [extractScan]
  rw [if_neg (fun h => hc h.2)]

theorem extractScan_step_match (sig : Char) (rest : Str) (items : List Str) :
    extractScan sig (' ' :: sig :: rest) items
      = extractScan sig (rest.dropWhile (fun x => x ≠ ' '))
          (pushUniqueNE items (rest.takeWhile (fun x => x ≠ ' '))) := by
  simp only [extractScan]
  rw [if_pos (by simp)]
  rfl

theorem extractScan_skip_word (sig : Char) (u : Str) (hu : ∀ c ∈ u, c ≠ ' ') :
    ∀ r items, extractScan sig (u ++ r) items = extractScan sig r items := by
  induction u with
  | nil => intro r items; rfl
  | cons a u' ih =>
    intro r items
    have ha : a ≠ ' ' := hu a (List.mem_cons_self a u')
    rw [List.cons_append, extractScan_step_skip sig a (u' ++ r) items ha]
    exact ih (fun x hx => hu x (List.mem_cons_of_mem a hx)) r items

theorem dropWhile_head_false (p : Char → Bool) (l : Str) (d : Char) (r : Str)
    (h : l.dropWhile p = d :: r) : p d = false := by
  induction l with
  | nil => cases h
  | cons a l' ih =>
    rw [List.dropWhile_cons] at h
    by_cases hp : p a = true
    · rw [if_pos hp] at h
      exact ih h
    · rw [if_neg hp] at h
      rw [List.cons.injEq] at h
      rw [← h.1]
      cases hpa : p a
      · rfl
      · exact absurd hpa hp

/-- The scanning loop of `extract_anything`, word by word: scanning
`" s "` folds `pushUniqueNE` over the sigil-marked words of `s`. -/
theorem extractScan_words (sig : Char) (hs : sig ≠ ' ') (s : Str) :
    ∀ items, extractScan sig (' ' :: s ++ [' ']) items
      = (wordItems sig s).foldl pushUniqueNE items := by
  intro items
  cases s with
  | nil =>
    rw [show ' ' :: ([] : Str) ++ [' '] = ' ' :: ' ' :: ([] : Str) from rfl]
    rw [extractScan_step_nomatch sig ' ' [] items (Ne.symm hs), extractScan_one]
    simp [wordItems, splitChar]
  | cons c s' =>
    by_cases hc : c = ' '
    · subst hc
      rw [show ' ' :: (' ' :: s') ++ [' '] = ' ' :: ' ' :: (s' ++ [' ']) from rfl]
      rw [extractScan_step_nomatch sig ' ' (s' ++ [' ']) items (Ne.symm hs)]
      rw [show ' ' :: (s' ++ [' ']) = ' ' :: s' ++ [' '] from rfl]
      rw [extractScan_words sig hs s' items]
      simp [wordItems, splitChar]
    · have hsplit := List.takeWhile_append_dropWhile
        (p := fun x => x ≠ ' ') (l := s')
      have hwp : ∀ x ∈ s'.takeWhile (fun x => x ≠ ' '), decide (x ≠ ' ') = true := by
        intro x hx
        simpa using List.mem_takeWhile_imp hx
      have hwns : ∀ x ∈ s'.takeWhile (fun x => x ≠ ' '), x ≠ ' ' := by
        intro x hx
        have := hwp x hx
        simpa using this
      cases hrest : s'.dropWhile (fun x => x ≠ ' ') with
      | nil =>
        -- the whole of s' is one word
        have hall : ∀ x ∈ s', decide (x ≠ ' ') = true :=
          List.dropWhile_eq_nil_iff.mp hrest
        have hallns : ∀ x ∈ s', x ≠ ' ' := by
          intro x hx
          have := hall x hx
          simpa using this
        have hsw : splitChar ' ' (c :: s') = [c :: s'] := by
          apply splitChar_nosep
          intro x hx
          rcases List.mem_cons.mp hx with rfl | hx2
          · exact hc
          · exact hallns x hx2
        by_cases hcsig : c = sig
        · subst hcsig
          rw [show ' ' :: (c :: s') ++ [' '] = ' ' :: c :: (s' ++ [' ']) from rfl]
          rw [extractScan_step_match c (s' ++ [' ']) items]
          rw [takeWhile_append_stop _ s' ' ' [] hall (by simp),
            dropWhile_append_stop _ s' ' ' [] hall (by simp)]
          rw [extractScan_one]
          simp [wordItems, hsw, pushUniqueNE]
        · rw [show ' ' :: (c :: s') ++ [' '] = ' ' :: c :: (s' ++ [' ']) from rfl]
          rw [extractScan_step_nomatch sig c (s' ++ [' ']) items hcsig]
          rw [show c :: (s' ++ [' ']) = (c :: s') ++ [' '] from rfl]
          rw [extractScan_skip_word sig (c :: s')
            (fun x hx => by
              rcases List.mem_cons.mp hx with rfl | hx2
              · exact hc
              · exact hallns x hx2) [' '] items]
          rw [extractScan_one]
          simp [wordItems, hsw, hcsig]
      | cons d r' =>
        have hd : decide (d ≠ ' ') = false :=
          dropWhile_head_false _ s' d r' hrest
        have hdsp : d = ' ' := by
          by_contra hne
          simp [hne] at hd
        subst hdsp
        have hsw : s' = s'.takeWhile (fun x => x ≠ ' ') ++ ' ' :: r' := by
          rw [← hrest]
          exact hsplit.symm
        have hlen : r'.length < (c :: s').length := by
          have := congrArg List.length hsw
          simp only [List.length_append, List.length_cons] at this
          simp only [List.length_cons, this]
          omega
        have hsplitw : splitChar ' ' (c :: s')
            = (c :: s'.takeWhile (fun x => x ≠ ' ')) :: splitChar ' ' r' := by
          conv_lhs => rw [hsw]
          rw [show c :: (s'.takeWhile (fun x => x ≠ ' ') ++ ' ' :: r')
            = (c :: s'.takeWhile (fun x => x ≠ ' ')) ++ ' ' :: r' from rfl]
          apply splitChar_word_append
          intro x hx
          rcases List.mem_cons.mp hx with rfl | hx2
          · exact hc
          · exact hwns x hx2
        by_cases hcsig : c = sig
        · subst hcsig
          rw [show ' ' :: (c :: s') ++ [' '] = ' ' :: c :: (s' ++ [' ']) from rfl]
          rw [extractScan_step_match c (s' ++ [' ']) items]
          rw [show s' ++ [' ']
            = s'.takeWhile (fun x => x ≠ ' ') ++ ' ' :: (r' ++ [' ']) from by
              conv_lhs => rw [hsw]
              simp]
          rw [takeWhile_append_stop _ _ ' ' _ hwp (by simp),
            dropWhile_append_stop _ _ ' ' _ hwp (by simp)]
          rw [show ' ' :: (r' ++ [' ']) = ' ' :: r' ++ [' '] from rfl]
          rw [extractScan_words c hs r' (pushUniqueNE items (s'.takeWhile (fun x => x ≠ ' ')))]
          simp [wordItems, hsplitw]
        · rw [show ' ' :: (c :: s') ++ [' '] = ' ' :: c :: (s' ++ [' ']) from rfl]
          rw [extractScan_step_nomatch sig c (s' ++ [' ']) items hcsig]
          rw [show c :: (s' ++ [' '])
            = (c :: s'.takeWhile (fun x => x ≠ ' ')) ++ (' ' :: r' ++ [' ']) from by
              conv_lhs => rw [show c :: (s' ++ [' ']) = (c :: s') ++ [' '] from rfl, hsw]
              simp]
          rw [extractScan_skip_word sig (c :: s'.takeWhile (fun x => x ≠ ' '))
            (fun x hx => by
              rcases List.mem_cons.mp hx with rfl | hx2
              · exact hc
              · exact hwns x hx2) (' ' :: r' ++ [' ']) items]
          rw [extractScan_words sig hs r' items]
          simp [wordItems, hsplitw, hcsig]
termination_by s.length

/-- `extract_projects`, word by word. -/
theorem extract_projects_words (s : Str) :
    extract_projects s = (wordItems '+' s).foldl pushUniqueNE [] :=
  extractScan_words '+' (by decide) s []

/-- `extract_contexts`, word by word. -/
theorem extract_contexts_words (s : Str) :
    extract_contexts s = (wordItems '@' s).foldl pushUniqueNE [] :=
  extractScan_words '@' (by decide) s []

/-! ## Prefix transparency: the `x`, priority and date words that `format`
prints in front of the subject contribute nothing to any extractor. -/

theorem head?_append_left (a b : Str) (h : a ≠ []) : (a ++ b).head? = a.head? := by
  cases a with
  | nil => exact absurd rfl h
  | cons c cs => rfl

theorem wordItems_word_cons (sig : Char) (w r : Str) (hw : ∀ c ∈ w, c ≠ ' ')
    (hhead : w.head? ≠ some sig) : wordItems sig (w ++ ' ' :: r) = wordItems sig r := by
  unfold wordItems
  rw [splitChar_word_append ' ' w r hw]
  cases w with
  | nil => simp
  | cons c t =>
    have hc : c ≠ sig := by
      intro h
      exact hhead (by rw [h]; rfl)
    simp [List.filterMap_cons, hc]

theorem extract_tags_word_cons (w r : Str) (hw : ∀ c ∈ w, c ≠ ' ')
    (ht : split_tag w = none) : extract_tags (w ++ ' ' :: r) = extract_tags r := by
  unfold extract_tags
  rw [splitChar_word_append ' ' w r hw]
  simp only [List.foldl_cons]
  cases hww : w with
  | nil => simp
  | cons c t =>
    rw [if_neg (by simp), ← hww, ht]

theorem extract_hashtags_word_cons (w r : Str) (hw : ∀ c ∈ w, c ≠ ' ')
    (hh : w.head? ≠ some '#') : extract_hashtags (w ++ ' ' :: r) = extract_hashtags r := by
  unfold extract_hashtags
  rw [splitChar_word_append ' ' w r hw]
  simp only [List.foldl_cons]
  cases w with
  | nil => simp
  | cons c t =>
    have hc : c ≠ '#' := by
      intro h
      exact hh (by rw [h]; rfl)
    congr 1
    split
    · rename_i heq
      rw [List.cons.injEq] at heq
      exact absurd heq.1 hc
    · rfl

theorem extract_projects_word_cons (w r : Str) (hw : ∀ c ∈ w, c ≠ ' ')
    (hh : w.head? ≠ some '+') : extract_projects (w ++ ' ' :: r) = extract_projects r := by
  rw [extract_projects_words, extract_projects_words, wordItems_word_cons '+' w r hw hh]

theorem extract_contexts_word_cons (w r : Str) (hw : ∀ c ∈ w, c ≠ ' ')
    (hh : w.head? ≠ some '@') : extract_contexts (w ++ ' ' :: r) = extract_contexts r := by
  rw [extract_contexts_words, extract_contexts_words, wordItems_word_cons '@' w r hw hh]

/-- The bundle: one prefix word is invisible to all extractors. -/
theorem extracts_word_cons (w r : Str) (hw : ∀ c ∈ w, c ≠ ' ') (ht : split_tag w = none)
    (hp : w.head? ≠ some '+') (hc : w.head? ≠ some '@') (hh : w.head? ≠ some '#') :
    extract_projects (w ++ ' ' :: r) = extract_projects r ∧
    extract_contexts (w ++ ' ' :: r) = extract_contexts r ∧
    extract_tags (w ++ ' ' :: r) = extract_tags r ∧
    extract_hashtags (w ++ ' ' :: r) = extract_hashtags r :=
  ⟨extract_projects_word_cons w r hw hp, extract_contexts_word_cons w r hw hc,
   extract_tags_word_cons w r hw ht, extract_hashtags_word_cons w r hw hh⟩

theorem priChar_toNat (p : Nat) (h : p < 26) : (Char.ofNat (65 + p)).toNat = 65 + p := by
  interval_cases p <;> decide

/-- The word `(P)` printed for a priority `p < 26` is extractor-neutral. -/
theorem priWord_neutral (p : Nat) (h : p < 26) :
    let w := ['('] ++ [Char.ofNat (65 + p)] ++ [')']
    (∀ c ∈ w, c ≠ ' ') ∧ split_tag w = none ∧ w.head? = some '(' := by
  intro w
  have htn := priChar_toNat p h
  have hchne : ∀ x : Char, x.toNat ≠ (Char.ofNat (65 + p)).toNat → Char.ofNat (65 + p) ≠ x := by
    intro x hx heq
    exact hx (by rw [heq])
  refine ⟨?_, ?_, rfl⟩
  · intro c hc
    simp only [w, List.mem_append, List.mem_singleton] at hc
    rcases hc with (rfl | rfl) | rfl
    · decide
    · exact hchne ' ' (by
        rw [htn]
        have h32 : (' ' : Char).toNat = 32 := rfl
        omega)
    · decide
  · unfold split_tag
    rw [if_neg (by simp [w])]
    have : findCharIdx ':' w = none := by
      apply findCharIdx_none
      intro c hc
      simp only [w, List.mem_append, List.mem_singleton] at hc
      rcases hc with (rfl | rfl) | rfl
      · decide
      · exact hchne ':' (by
          rw [htn]
          have h58 : (':' : Char).toNat = 58 := rfl
          omega)
      · decide
    rw [this]

/-- The date word printed by `format` is extractor-neutral and starts with
a digit. -/
theorem dateWord_neutral (dt : Date) (h : dateOk dt) :
    (∀ c ∈ format_date dt, c ≠ ' ') ∧ split_tag (format_date dt) = none ∧
    (∃ c, (format_date dt).head? = some c ∧ isAsciiDigit c = true) := by
  have hy1 : 1 ≤ dt.y := h.1
  have hchars := format_date_chars dt hy1
  have hns : ∀ c ∈ format_date dt, c ≠ ' ' := by
    intro c hc
    rcases hchars c hc with hdg | rfl
    · exact digit_ne c ' ' hdg (by left; decide)
    · decide
  refine ⟨hns, ?_, ?_⟩
  · unfold split_tag
    rw [if_neg ?hne]
    case hne =>
      rw [format_date_eq dt hy1]
      simp [padZeros_ne_nil 4 _ (natChars_spec dt.y.toNat).2.1]
    have : findCharIdx ':' (format_date dt) = none := by
      apply findCharIdx_none
      intro c hc
      rcases hchars c hc with hdg | rfl
      · exact digit_ne c ':' hdg (by right; decide)
      · decide
    rw [this]
  · have hy4 := padZeros_all_digits 4 _ (natChars_spec dt.y.toNat).1
    have hy4ne := padZeros_ne_nil 4 _ (natChars_spec dt.y.toNat).2.1
    rw [format_date_eq dt hy1]
    cases hpz : padZeros 4 (natChars dt.y.toNat) with
    | nil => exact absurd hpz hy4ne
    | cons c cs =>
      refine ⟨c, by simp, ?_⟩
      rw [hpz] at hy4
      simp only [List.all_cons, Bool.and_eq_true] at hy4
      exact hy4.1

/-! ## Claim C6: month recurrence and the end-of-month clamp -/

/-- Target year after adding `count` months (the source's overflow
normalisation in `Recurrence::next_date`). -/
def monthTargetY (r : Recurrence) (base : Date) : Int :=
  if base.m + r.count > 12 then base.y + (((base.m + r.count - 1) / 12 : Nat) : Int) else base.y

/-- Target month after adding `count` months. -/
def monthTargetM (r : Recurrence) (base : Date) : Nat :=
  if base.m + r.count > 12 then (base.m + r.count - 1) % 12 + 1 else base.m + r.count

/-- Claim C6: advancing a date by a month recurrence adds `count` months
and clamps to the target month's last day exactly when the base was the
last day of its month or the target month is shorter; in particular
2020-01-31 + 1m = 2020-02-29 and 2020-02-29 + 1m = 2020-03-31. -/
theorem claim_C6_month_clamp :
    (∀ (r : Recurrence) (base : Date), r.period = Period.Month → dateOk base →
      MIN_YEAR ≤ monthTargetY r base → monthTargetY r base ≤ MAX_YEAR →
      r.next_date base =
        ⟨monthTargetY r base, monthTargetM r base,
         if base.d = days_in_month base.y base.m
             ∨ days_in_month (monthTargetY r base) (monthTargetM r base) < base.d
         then days_in_month (monthTargetY r base) (monthTargetM r base)
         else base.d⟩) ∧
    Recurrence.next_date ⟨Period.Month, 1, true⟩ ⟨2020, 1, 31⟩ = ⟨2020, 2, 29⟩ ∧
    Recurrence.next_date ⟨Period.Month, 1, false⟩ ⟨2020, 2, 29⟩ = ⟨2020, 3, 31⟩ := by
  refine ⟨?_, by decide, by decide⟩
  intro r base hper hok hylo hyhi
  obtain ⟨hy1, hy2, hm1, hm2, hd1, hd2⟩ := hok
  have hmx1 := days_in_month_pos (monthTargetY r base) (monthTargetM r base)
  have hmx31 := days_in_month_le (monthTargetY r base) (monthTargetM r base)
  unfold Recurrence.next_date
  rw [hper]
  simp only
  have hyeq : (if base.m + r.count > 12
      then base.y + (((base.m + r.count - 1) / 12 : Nat) : Int) else base.y)
      = monthTargetY r base := rfl
  have hmeq : (if base.m + r.count > 12
      then (base.m + r.count - 1) % 12 + 1 else base.m + r.count) = monthTargetM r base := rfl
  rw [hyeq, hmeq]
  have hmrange : 1 ≤ monthTargetM r base ∧ monthTargetM r base ≤ 12 := by
    unfold monthTargetM
    split
    · have := Nat.mod_lt (base.m + r.count - 1) (y := 12) (by omega)
      omega
    · omega
  set mx := days_in_month (monthTargetY r base) (monthTargetM r base) with hmxd
  by_cases hlast : base.d = days_in_month base.y base.m
  · by_cases hshort : mx < base.d
    · rw [if_pos (Or.inl ⟨hlast, by omega⟩), if_pos (Or.inl hlast)]
      unfold from_ymd_opt
      rw [if_pos ⟨hylo, hyhi, hmrange.1, hmrange.2, by omega, by omega⟩]
    · by_cases hmxeq : mx = base.d
      · rw [if_neg (by
          push_neg
          constructor
          · intro hl
            omega
          · omega)]
        rw [if_pos (Or.inl hlast)]
        unfold from_ymd_opt
        rw [if_pos ⟨hylo, hyhi, hmrange.1, hmrange.2, by omega, by omega⟩]
        rw [Date.mk.injEq]
        refine ⟨rfl, rfl, by omega⟩
      · rw [if_pos (Or.inl ⟨hlast, by omega⟩), if_pos (Or.inl hlast)]
        unfold from_ymd_opt
        rw [if_pos ⟨hylo, hyhi, hmrange.1, hmrange.2, by omega, by omega⟩]
  · by_cases hshort : mx < base.d
    · rw [if_pos (Or.inr hshort), if_pos (Or.inr hshort)]
      unfold from_ymd_opt
      rw [if_pos ⟨hylo, hyhi, hmrange.1, hmrange.2, by omega, by omega⟩]
    · rw [if_neg (by
        push_neg
        constructor
        · intro hl
          exact absurd hl hlast
        · omega)]
      rw [if_neg (by
        push_neg
        refine ⟨hlast, by omega⟩)]
      unfold from_ymd_opt
      rw [if_pos ⟨hylo, hyhi, hmrange.1, hmrange.2, by omega, by omega⟩]

/-- Witness for C6: the general clamp statement applied at 2020-01-31 with
a one-month recurrence. -/
theorem claim_C6_month_clamp_witness :
    Recurrence.next_date ⟨Period.Month, 1, true⟩ ⟨2020, 1, 31⟩
      = ⟨monthTargetY ⟨Period.Month, 1, true⟩ ⟨2020, 1, 31⟩,
         monthTargetM ⟨Period.Month, 1, true⟩ ⟨2020, 1, 31⟩, 29⟩ :=
  (claim_C6_month_clamp.1 ⟨Period.Month, 1, true⟩ ⟨2020, 1, 31⟩ rfl (by decide)
    (by decide) (by decide)).trans (by decide)

/-! ## Claim C7: completion idempotence and the finish-date rule -/

/-- Claim C7: `complete_with_config` on a finished task returns `false`
changing nothing; `uncomplete` on an unfinished task returns `false`
changing nothing; completing an unfinished task stamps `finish_date` with
the supplied date exactly when a creation date is present or the date mode
is `AlwaysSet` (otherwise `finish_date` is left as it was). -/
theorem claim_C7_completion :
    ∀ (t : Task) (date : Date) (conf : CompletionConfig) (m : CompletionMode),
    (t.finished = true → t.complete_with_config date conf = (t, false)) ∧
    (t.finished = false → t.uncomplete m = (t, false)) ∧
    (t.finished = false →
      (t.complete_with_config date conf).1.finish_date =
        (if t.create_date.isSome ∨ conf.completion_date_mode = CompletionDateMode.AlwaysSet
         then some date else t.finish_date)) := by
  intro t date conf m
  refine ⟨?_, ?_, ?_⟩
  · intro h
    unfold Task.complete_with_config
    rw [if_pos h]
  · intro h
    unfold Task.uncomplete
    rw [if_pos (by rw [h]; exact Bool.false_ne_true)]
  · intro h
    unfold Task.complete_with_config
    rw [if_neg (by rw [h]; exact Bool.false_ne_true)]
    by_cases hdate : t.create_date.isSome ∨ conf.completion_date_mode = CompletionDateMode.AlwaysSet
    · rw [if_pos hdate]
      simp only [if_pos hdate]
      cases conf.completion_mode <;> simp <;> split <;> rfl
    · rw [if_neg hdate]
      simp only [if_neg hdate]
      cases conf.completion_mode <;> simp <;> split <;> rfl

/-- Witness for C7 at concrete tasks. -/
theorem claim_C7_completion_witness :
    ({ Task.default with finished := true } : Task).complete_with_config ⟨2020, 1, 1⟩
        ⟨CompletionMode.JustMark, CompletionDateMode.WhenCreationDateIsPresent⟩
      = ({ Task.default with finished := true }, false) ∧
    Task.default.uncomplete CompletionMode.JustMark = (Task.default, false) ∧
    (Task.default.complete_with_config ⟨2020, 1, 1⟩
        ⟨CompletionMode.JustMark, CompletionDateMode.AlwaysSet⟩).1.finish_date
      = some ⟨2020, 1, 1⟩ := by
  refine ⟨(claim_C7_completion _ ⟨2020, 1, 1⟩ _ CompletionMode.JustMark).1 rfl,
    (claim_C7_completion Task.default ⟨2020, 1, 1⟩
      ⟨CompletionMode.JustMark, CompletionDateMode.WhenCreationDateIsPresent⟩
      CompletionMode.JustMark).2.1 rfl, ?_⟩
  have h := (claim_C7_completion Task.default ⟨2020, 1, 1⟩
    ⟨CompletionMode.JustMark, CompletionDateMode.AlwaysSet⟩ CompletionMode.JustMark).2.2 rfl
  rw [h]
  decide

/-! ## Claim C10: priority bump semantics of the edit engine -/

/-- Claim C10: under `Increase` a task without priority gets `Z` (25) and
only a task at `A` (0) is left unchanged; under `Decrease` a task at `Z`
loses its priority (becomes `NO_PRIORITY` = 26) and a task without
priority is left unchanged. -/
theorem claim_C10_priority_bump :
    ∀ (task : OldTodo.ExtTask) (c : OldTodo.Conf),
    (c.priority_act = OldTodo.Action.Increase → task.priority = NO_PRIORITY →
      OldTodo.update_priority task c = ({ task with priority := 25 }, true)) ∧
    (c.priority_act = OldTodo.Action.Increase → task.priority = 0 →
      OldTodo.update_priority task c = (task, false)) ∧
    (c.priority_act = OldTodo.Action.Increase → task.priority ≠ 0 →
      OldTodo.update_priority task c
        = ({ task with priority := task.priority - 1 }, true)) ∧
    (c.priority_act = OldTodo.Action.Decrease → task.priority = 25 →
      OldTodo.update_priority task c = ({ task with priority := NO_PRIORITY }, true)) ∧
    (c.priority_act = OldTodo.Action.Decrease → task.priority = NO_PRIORITY →
      OldTodo.update_priority task c = (task, false)) := by
  intro task c
  refine ⟨?_, ?_, ?_, ?_, ?_⟩
  · intro hact hp
    unfold OldTodo.update_priority
    rw [hact]
    simp only
    rw [if_pos (by rw [hp]; unfold NO_PRIORITY; omega), hp]
    rfl
  · intro hact hp
    unfold OldTodo.update_priority
    rw [hact]
    simp only
    rw [if_neg (by rw [hp]; omega)]
  · intro hact hp
    unfold OldTodo.update_priority
    rw [hact]
    simp only
    rw [if_pos hp]
  · intro hact hp
    unfold OldTodo.update_priority
    rw [hact]
    simp only
    rw [if_pos (by rw [hp]; unfold NO_PRIORITY; omega), hp]
    rfl
  · intro hact hp
    unfold OldTodo.update_priority
    rw [hact]
    simp only
    rw [if_neg (by rw [hp]; simp)]

/-- Witness for C10 at a concrete task and configuration. -/
theorem claim_C10_priority_bump_witness :
    OldTodo.update_priority { OldTodo.ExtTask.default with priority := 26 }
        { OldTodo.Conf.default with priority_act := OldTodo.Action.Increase }
      = ({ OldTodo.ExtTask.default with priority := 25 }, true) ∧
    OldTodo.update_priority { OldTodo.ExtTask.default with priority := 25 }
        { OldTodo.Conf.default with priority_act := OldTodo.Action.Decrease }
      = ({ OldTodo.ExtTask.default with priority := 26 }, true) := by
  constructor
  · have h := (claim_C10_priority_bump { OldTodo.ExtTask.default with priority := 26 }
      { OldTodo.Conf.default with priority_act := OldTodo.Action.Increase }).1 rfl rfl
    exact h
  · have h := (claim_C10_priority_bump { OldTodo.ExtTask.default with priority := 25 }
      { OldTodo.Conf.default with priority_act := OldTodo.Action.Decrease }).2.2.2.1 rfl rfl
    exact h

/-! ## Claim C9: the hashtag extractor -/

/-- The behaviour the claim asserts for the hashtag extractor (the spec's
words): words with the `#` sigil at a space boundary and non-empty
remainder, each distinct hashtag once, in order of first occurrence. -/
def hashtagsClaimed (s : Str) : List Str :=
  ((splitChar ' ' s).filterMap (fun w =>
    match w with
    | '#' :: t => some t
    | _ => none)).foldl pushUniqueNE []

/-- Counterexample to C9: on `"#a #a"` the extractor keeps the duplicate,
while the claim demands each distinct hashtag once. -/
theorem claim_C9_counterexample :
    extract_hashtags (( "#a #a" ).toList) = [['a'], ['a']] ∧
    hashtagsClaimed (( "#a #a" ).toList) = [['a']] ∧
    extract_hashtags (( "#a #a" ).toList) ≠ hashtagsClaimed (( "#a #a" ).toList) := by
  refine ⟨by decide, by decide, by decide⟩

/-- Claim C9 as amended: the extractor returns, for every word starting
with `#`, that word with all leading `#` chars stripped, in order of
occurrence, keeping duplicates and empty remainders. -/
theorem claim_C9_hashtags_amended (s : Str) :
    extract_hashtags s = (splitChar ' ' s).filterMap (fun w =>
      match w with
      | '#' :: _ => some (w.dropWhile (fun c => c = '#'))
      | _ => none) := by
  unfold extract_hashtags
  have key : ∀ (ws : List (List Char)) (acc : List Str),
      ws.foldl (fun acc word =>
        match word with
        | '#' :: _ => acc ++ [word.dropWhile (fun c => c = '#')]
        | _ => acc) acc
      = acc ++ ws.filterMap (fun w =>
        match w with
        | '#' :: _ => some (w.dropWhile (fun c => c = '#'))
        | _ => none) := by
    intro ws
    induction ws with
    | nil => intro acc; simp
    | cons w ws ih =>
      intro acc
      simp only [List.foldl_cons, List.filterMap_cons]
      cases w with
      | nil => simpa using ih acc
      | cons c t =>
        by_cases hc : c = '#'
        · subst hc
          simp only []
          rw [ih]
          simp
        · have h1 : (match c :: t with
              | '#' :: _ => acc ++ [(c :: t).dropWhile (fun c => c = '#')]
              | _ => acc) = acc := by
            split
            · rename_i heq
              rw [List.cons.injEq] at heq
              exact absurd heq.1 hc
            · rfl
          have h2 : (match c :: t with
              | '#' :: _ => some ((c :: t).dropWhile (fun c => c = '#'))
              | _ => none) = (none : Option Str) := by
            split
            · rename_i heq
              rw [List.cons.injEq] at heq
              exact absurd heq.1 hc
            · rfl
          rw [h1, h2, ih]
  simpa using key (splitChar ' ' s) []

/-! ## Claim C8: the S6 priority filter scenario -/

/-- The four tasks of scenario S6 (parsed with a fixed `today`; none of the
lines contains a relative date, so the date is irrelevant). -/
def s6tasks : List Task :=
  [ Task.parse (( "call mother +family @parents" ).toList) ⟨2020, 1, 1⟩,
    Task.parse (( "x (C) 2018-10-05 2018-10-01 call to car service +car @repair" ).toList)
      ⟨2020, 1, 1⟩,
    Task.parse (( "(B) 2018-10-15 repair family car +Car @repair due:2018-12-01" ).toList)
      ⟨2020, 1, 1⟩,
    Task.parse (( "(A) Kid art school +Family @Kids due:2018-11-10 rec:1w" ).toList)
      ⟨2020, 1, 1⟩ ]

/-- The S6 filter configuration: priority `Higher(B)`, status `All`,
everything else unset. -/
def s6conf : Tfilter.Conf :=
  { Tfilter.Conf.default with
    all := Tfilter.TodoStatus.All
    pri := some ⟨1, Tfilter.ValueSpan.Higher⟩ }

/-- Claim C8: on the S6 list (no priority; finished with C; B; A) the
`Higher(B)`/`All` filter returns exactly `[2, 3]`. -/
theorem claim_C8_s6_filter :
    Tfilter.filter ⟨2020, 1, 1⟩ s6tasks s6conf = [2, 3] ∧
    s6tasks.map (fun t => t.priority) = [NO_PRIORITY, 2, 1, 0] ∧
    s6tasks.map (fun t => t.finished) = [false, true, false, false] := by
  refine ⟨by decide, by decide, by decide⟩

/-! ## Claim C1: what `done` does to a recurring task with a due date -/

/-- The failing input of claim C1: an unfinished task with a strict monthly
recurrence and a due date (scenario S3's task). -/
def c1task : OldTodo.ExtTask :=
  { OldTodo.ExtTask.default with
    subject := ( "test rec:+1m due:2020-03-01" ).toList
    recurrence := some ⟨Period.Month, 1, true⟩
    due_date := some ⟨2020, 3, 1⟩ }

/-- Claim C1, evaluated on the failing input: `done` keeps the list at one
task, leaves it unfinished, and advances the due date in place to
2020-04-01 — it neither marks the task completed nor appends a clone, as
the claim (and the repository's own test suite) requires. -/
theorem claim_C1_code_eval :
    (OldTodo.done ⟨2020, 2, 2⟩ 0 [c1task] (some [0])).1.length = 1 ∧
    (OldTodo.done ⟨2020, 2, 2⟩ 0 [c1task] (some [0])).2 = [true] ∧
    ((OldTodo.done ⟨2020, 2, 2⟩ 0 [c1task] (some [0])).1.getD 0
      OldTodo.ExtTask.default).finished = false ∧
    ((OldTodo.done ⟨2020, 2, 2⟩ 0 [c1task] (some [0])).1.getD 0
      OldTodo.ExtTask.default).due_date = some ⟨2020, 4, 1⟩ := by
  refine ⟨by decide, by decide, by decide, by decide⟩

/-! ## Claim C5: shape of the per-ID result vectors -/

theorem duLoop_bools_length (now : Date) (ns : Int) (f : Bool) :
    ∀ (ids : List Nat) (tasks : List OldTodo.ExtTask),
      ((OldTodo.duLoop now ns f tasks ids).2).length = ids.length := by
  intro ids
  induction ids with
  | nil => intro tasks; rfl
  | cons idx rest ih =>
    intro tasks
    unfold OldTodo.duLoop
    by_cases h : idx < tasks.length
    · simp only [if_pos h, List.length_cons, ih]
    · simp only [if_neg h, List.length_cons, ih]

theorem editLoop_bools_length (c : OldTodo.Conf) :
    ∀ (ids : List Nat) (tasks : List OldTodo.ExtTask),
      ((OldTodo.editLoop c tasks ids).2).length = ids.length := by
  intro ids
  induction ids with
  | nil => intro tasks; rfl
  | cons idx rest ih =>
    intro tasks
    unfold OldTodo.editLoop
    by_cases h : idx < tasks.length
    · simp only [if_pos h]
      cases c.subject with
      | none => simp only [List.length_cons, ih]
      | some subj =>
        cases h2 : OldTodo.extFromStr subj with
        | none => simp [h2]
        | some t2 => simp [h2]
    · simp only [if_neg h, List.length_cons, ih]

theorem startLoop_bools_length (ns : Int) :
    ∀ (ids : List Nat) (tasks : List OldTodo.ExtTask),
      ((OldTodo.startLoop ns tasks ids).2).length = ids.length := by
  intro ids
  induction ids with
  | nil => intro tasks; rfl
  | cons idx rest ih =>
    intro tasks
    unfold OldTodo.startLoop
    by_cases h : idx < tasks.length
    · simp only [if_pos h, List.length_cons, ih]
    · simp only [if_neg h, List.length_cons, ih]

theorem stopLoop_bools_length (ns : Int) :
    ∀ (ids : List Nat) (tasks : List OldTodo.ExtTask),
      ((OldTodo.stopLoop ns tasks ids).2).length = ids.length := by
  intro ids
  induction ids with
  | nil => intro tasks; rfl
  | cons idx rest ih =>
    intro tasks
    unfold OldTodo.stopLoop
    by_cases h : idx < tasks.length
    · simp only [if_pos h, List.length_cons, ih]
    · simp only [if_neg h, List.length_cons, ih]

/-- Counterexample to C5: on an empty task list `stop` (like every bulk
operation) returns an empty vector even for a non-empty ID list, so the
result does not have `ids.len()` entries. -/
theorem claim_C5_counterexample :
    (OldTodo.stop 0 [] (some [0])).2.length = 0 ∧
    ¬ (OldTodo.stop 0 [] (some [0])).2.length = ([0] : List Nat).length ∧
    (OldTodo.done ⟨2020, 1, 1⟩ 0 [] (some [0, 1])).2 = [] := by
  refine ⟨by decide, by decide, by decide⟩

/-- Claim C5 as amended: for a NON-EMPTY task list every bulk operation
returns one boolean per requested ID in order; an out-of-range ID is
skipped — its loop step leaves the task list unchanged and records
`false`; an empty task list short-circuits to an empty vector. -/
theorem claim_C5_amended :
    ∀ (now : Date) (ns : Int) (tasks : List OldTodo.ExtTask) (ids : List Nat)
      (c : OldTodo.Conf) (idx : Nat) (rest : List Nat),
    (tasks ≠ [] →
      (OldTodo.done now ns tasks (some ids)).2.length = ids.length ∧
      (OldTodo.undone now ns tasks (some ids)).2.length = ids.length ∧
      (OldTodo.edit tasks (some ids) c).2.length = ids.length ∧
      (OldTodo.start ns tasks (some ids)).2.length = ids.length ∧
      (OldTodo.stop ns tasks (some ids)).2.length = ids.length) ∧
    (tasks.length ≤ idx →
      OldTodo.duLoop now ns true tasks (idx :: rest)
        = ((OldTodo.duLoop now ns true tasks rest).1,
           false :: (OldTodo.duLoop now ns true tasks rest).2) ∧
      OldTodo.duLoop now ns false tasks (idx :: rest)
        = ((OldTodo.duLoop now ns false tasks rest).1,
           false :: (OldTodo.duLoop now ns false tasks rest).2) ∧
      OldTodo.editLoop c tasks (idx :: rest)
        = ((OldTodo.editLoop c tasks rest).1, false :: (OldTodo.editLoop c tasks rest).2) ∧
      OldTodo.startLoop ns tasks (idx :: rest)
        = ((OldTodo.startLoop ns tasks rest).1, false :: (OldTodo.startLoop ns tasks rest).2) ∧
      OldTodo.stopLoop ns tasks (idx :: rest)
        = ((OldTodo.stopLoop ns tasks rest).1, false :: (OldTodo.stopLoop ns tasks rest).2)) ∧
    ((OldTodo.done now ns [] (some ids)).2 = [] ∧
     (OldTodo.undone now ns [] (some ids)).2 = [] ∧
     (OldTodo.edit [] (some ids) c).2 = [] ∧
     (OldTodo.start ns [] (some ids)).2 = [] ∧
     (OldTodo.stop ns [] (some ids)).2 = []) := by
  intro now ns tasks ids c idx rest
  refine ⟨?_, ?_, ?_⟩
  · intro hne
    refine ⟨?_, ?_, ?_, ?_, ?_⟩
    · unfold OldTodo.done OldTodo.done_undone
      rw [if_neg hne]
      exact duLoop_bools_length now ns true ids tasks
    · unfold OldTodo.undone OldTodo.done_undone
      rw [if_neg hne]
      exact duLoop_bools_length now ns false ids tasks
    · unfold OldTodo.edit
      rw [if_neg hne]
      exact editLoop_bools_length c ids tasks
    · unfold OldTodo.start
      rw [if_neg hne]
      exact startLoop_bools_length ns ids tasks
    · unfold OldTodo.stop
      rw [if_neg hne]
      exact stopLoop_bools_length ns ids tasks
  · intro hge
    have hnl : ¬ idx < tasks.length := by omega
    refine ⟨?_, ?_, ?_, ?_, ?_⟩
    · conv_lhs => unfold OldTodo.duLoop
      rw [if_neg hnl]
    · conv_lhs => unfold OldTodo.duLoop
      rw [if_neg hnl]
    · conv_lhs => unfold OldTodo.editLoop
      rw [if_neg hnl]
    · conv_lhs => unfold OldTodo.startLoop
      rw [if_neg hnl]
    · conv_lhs => unfold OldTodo.stopLoop
      rw [if_neg hnl]
  · exact ⟨rfl, rfl, rfl, rfl, rfl⟩

/-- Witness for C5 at concrete inputs: a one-task list with IDs `[0, 5]`
and an out-of-range skip at ID 3. -/
theorem claim_C5_amended_witness :
    (OldTodo.stop 7 [OldTodo.ExtTask.default] (some [0, 5])).2.length = 2 ∧
    OldTodo.stopLoop 7 [OldTodo.ExtTask.default] [3]
      = ((OldTodo.stopLoop 7 [OldTodo.ExtTask.default] []).1,
         false :: (OldTodo.stopLoop 7 [OldTodo.ExtTask.default] []).2) := by
  constructor
  · exact ((claim_C5_amended ⟨2020, 1, 1⟩ 7 [OldTodo.ExtTask.default] [0, 5]
      OldTodo.Conf.default 3 []).1 (by decide)).2.2.2.2
  · exact ((claim_C5_amended ⟨2020, 1, 1⟩ 7 [OldTodo.ExtTask.default] [0, 5]
      OldTodo.Conf.default 3 []).2.1 (by decide)).2.2.2.2

/-! ## Claim C4: the recurrence grammar -/

theorem strEnds_concat_singleton (a : Str) (u c : Char) :
    strEnds (a ++ [u]) [c] = true ↔ u = c := by
  unfold strEnds
  rw [List.reverse_append]
  simp only [List.reverse_singleton, List.singleton_append, strStarts, Bool.and_eq_true,
    decide_eq_true_eq]
  constructor
  · intro h
    exact h.1
  · intro h
    exact ⟨h, by cases a.reverse <;> trivial⟩

theorem strEnds_singleton_ex (s : Str) (c : Char) (h : strEnds s [c] = true) :
    ∃ a, s = a ++ [c] := by
  unfold strEnds at h
  obtain ⟨r, hr⟩ := (strStarts_iff s.reverse [c].reverse).mp h
  refine ⟨r.reverse, ?_⟩
  have := congrArg List.reverse hr
  rw [List.reverse_reverse] at this
  rw [this]
  simp

theorem plusStrip_plus (t : Str) : plusStrip ('+' :: t) = t := rfl

theorem plusStrip_cases (t : Str) : t = '+' :: plusStrip t ∨ plusStrip t = t := by
  cases t with
  | nil => exact Or.inr rfl
  | cons c rest =>
    by_cases hc : c = '+'
    · subst hc
      exact Or.inl rfl
    · right
      exact plusStrip_eq (c :: rest) (by simpa using hc)

theorem parseUnsigned_isOk_iff (maxVal : Nat) (t : Str) :
    (parseUnsigned maxVal t).isOk = true ↔
      plusStrip t ≠ [] ∧ (plusStrip t).all isAsciiDigit = true ∧
        digitsToNat (plusStrip t) ≤ maxVal := by
  unfold parseUnsigned
  by_cases h1 : plusStrip t = [] ∨ ¬ (plusStrip t).all isAsciiDigit = true
  · rw [if_pos h1]
    simp only [Except.isOk, Except.toBool, Bool.false_eq_true, false_iff]
    rintro ⟨hne, hall, _⟩
    rcases h1 with h1 | h1
    · exact hne h1
    · exact h1 hall
  · rw [if_neg h1]
    push_neg at h1
    show (if digitsToNat (plusStrip t) > maxVal then
        (Except.error "number too large" : Except String Nat)
      else Except.ok (digitsToNat (plusStrip t))).isOk = true ↔ _
    by_cases h2 : digitsToNat (plusStrip t) > maxVal
    · rw [if_pos h2]
      simp only [Except.isOk, Except.toBool, Bool.false_eq_true, false_iff]
      rintro ⟨_, _, hle⟩
      omega
    · rw [if_neg h2]
      simp only [Except.isOk, Except.toBool, true_iff]
      exact ⟨h1.1, h1.2, by omega⟩

/-- The claim's grammar, as stated: `[+]N<unit>` with `N` between 1 and
255 and `unit ∈ {d, w, m, y, b}`. -/
def recSpecClaimed (s : Str) : Prop :=
  ∃ (plus : Bool) (num : Str) (u : Char),
    s = (if plus then ['+'] else []) ++ num ++ [u] ∧ num ≠ [] ∧
    num.all isAsciiDigit = true ∧ 1 ≤ digitsToNat num ∧ digitsToNat num ≤ 255 ∧
    u ∈ (['d', 'w', 'm', 'y', 'b'] : List Char)

/-- The grammar the code actually accepts: an optional literal `rec:`
prefix, an optional `+`, a non-empty digit string with value at most 255
(zero allowed), and a unit among `d`, `w`, `m`, `y` (no `b`). -/
def recSpecAmended (s : Str) : Prop :=
  ∃ (pre plus : Bool) (num : Str) (u : Char),
    s = (if pre then REC_TAG_FULL else []) ++ (if plus then ['+'] else []) ++ num ++ [u] ∧
    num ≠ [] ∧ num.all isAsciiDigit = true ∧ digitsToNat num ≤ 255 ∧
    u ∈ (['d', 'w', 'm', 'y'] : List Char)

/-- Counterexample to C4: the claim's grammar accepts `"1b"`, which the
parser rejects (there is no business-day unit), and rejects `"0d"`, which
the parser accepts (`u8` parsing allows zero). -/
theorem claim_C4_counterexample :
    recSpecClaimed (( "1b" ).toList) ∧ (Recurrence.parse (( "1b" ).toList)).isOk = false ∧
    ¬ recSpecClaimed (( "0d" ).toList) ∧ (Recurrence.parse (( "0d" ).toList)).isOk = true := by
  refine ⟨⟨false, ['1'], 'b', rfl, by decide, by decide, by decide, by decide, by decide⟩,
    by decide, ?_, by decide⟩
  rintro ⟨plus, num, u, heq, hne, hdig, h1, h255, hu⟩
  cases plus with
  | true =>
    rw [if_pos rfl] at heq
    have hh := congrArg List.head? heq
    simp at hh
  | false =>
    rw [if_neg (by simp)] at heq
    simp only [List.nil_append] at heq
    cases num with
    | nil => exact hne rfl
    | cons a t =>
      have : ( "0d" ).toList = a :: (t ++ [u]) := by simpa using heq
      have hh := congrArg List.head? this
      simp only [List.head?_cons, Option.some.injEq] at hh
      have htail := congrArg List.tail this
      simp only [List.tail_cons] at htail
      cases t with
      | nil =>
        have hu' : ['d'] = [u] := by simpa using htail
        have ha : a = '0' := by
          have : ('0' : Char) = a := by simpa using hh
          exact this.symm
        subst ha
        simp [digitsToNat, digitVal] at h1
      | cons b t2 =>
        have := congrArg List.length htail
        simp at this

/-- Claim C4 as amended: `Recurrence::parse` succeeds on exactly the
strings `[rec:][+]N<unit>` with a non-empty digit string `N` of value at
most 255 (zero allowed) and `unit` among `d`, `w`, `m`, `y`; every other
string (in particular any `b` unit) is rejected. -/
theorem claim_C4_amended (s : Str) :
    (Recurrence.parse s).isOk = true ↔ recSpecAmended s := by
  constructor
  · intro h
    unfold Recurrence.parse at h
    set s1 := if strStarts s REC_TAG_FULL then s.drop 4 else s with hs1
    have hper : (strEnds s1 ['d'] = true ∨ strEnds s1 ['w'] = true ∨
        strEnds s1 ['m'] = true ∨ strEnds s1 ['y'] = true) ∧
        (parseUnsigned 255 s1.dropLast).isOk = true := by
      by_cases hd : strEnds s1 ['d'] = true
      · simp only [hd, if_true] at h
        refine ⟨Or.inl hd, ?_⟩
        cases hp : parseUnsigned 255 s1.dropLast with
        | error e => rw [hp] at h; cases h
        | ok n => rfl
      · simp only [hd, Bool.false_eq_true, if_false] at h
        by_cases hw : strEnds s1 ['w'] = true
        · simp only [hw, if_true] at h
          refine ⟨Or.inr (Or.inl hw), ?_⟩
          cases hp : parseUnsigned 255 s1.dropLast with
          | error e => rw [hp] at h; cases h
          | ok n => rfl
        · simp only [hw, Bool.false_eq_true, if_false] at h
          by_cases hm : strEnds s1 ['m'] = true
          · simp only [hm, if_true] at h
            refine ⟨Or.inr (Or.inr (Or.inl hm)), ?_⟩
            cases hp : parseUnsigned 255 s1.dropLast with
            | error e => rw [hp] at h; cases h
            | ok n => rfl
          · simp only [hm, Bool.false_eq_true, if_false] at h
            by_cases hy : strEnds s1 ['y'] = true
            · simp only [hy, if_true] at h
              refine ⟨Or.inr (Or.inr (Or.inr hy)), ?_⟩
              cases hp : parseUnsigned 255 s1.dropLast with
              | error e => rw [hp] at h; cases h
              | ok n => rfl
            · simp only [hy, Bool.false_eq_true, if_false] at h
              cases h
    obtain ⟨hends, hnum⟩ := hper
    have hu : ∃ u, u ∈ (['d', 'w', 'm', 'y'] : List Char) ∧ strEnds s1 [u] = true := by
      rcases hends with h | h | h | h
      · exact ⟨'d', by decide, h⟩
      · exact ⟨'w', by decide, h⟩
      · exact ⟨'m', by decide, h⟩
      · exact ⟨'y', by decide, h⟩
    obtain ⟨u, humem, huend⟩ := hu
    obtain ⟨a, ha⟩ := strEnds_singleton_ex s1 u huend
    have hdl : s1.dropLast = a := by rw [ha, List.dropLast_concat]
    rw [hdl] at hnum
    obtain ⟨hne, hall, hle⟩ := (parseUnsigned_isOk_iff 255 a).mp hnum
    rcases plusStrip_cases a with hplus | hplus
    all_goals generalize hg : plusStrip a = n at hne hall hle hplus
    · cases hb : strStarts s REC_TAG_FULL with
      | true =>
        obtain ⟨r, hr⟩ := (strStarts_iff s REC_TAG_FULL).mp hb
        have hs1r : s1 = r := by
          rw [hs1, if_pos hb, hr]
          exact List.drop_left REC_TAG_FULL r
        refine ⟨true, true, n, u, ?_, hne, hall, hle, humem⟩
        rw [hr, ← hs1r, ha, hplus]
        simp
      | false =>
        have hs1r : s1 = s := by
          rw [hs1, if_neg (by simp [hb])]
        refine ⟨false, true, n, u, ?_, hne, hall, hle, humem⟩
        rw [← hs1r, ha, hplus]
        simp
    · rw [hplus] at hne hall hle
      cases hb : strStarts s REC_TAG_FULL with
      | true =>
        obtain ⟨r, hr⟩ := (strStarts_iff s REC_TAG_FULL).mp hb
        have hs1r : s1 = r := by
          rw [hs1, if_pos hb, hr]
          exact List.drop_left REC_TAG_FULL r
        refine ⟨true, false, a, u, ?_, hne, hall, hle, humem⟩
        rw [hr, ← hs1r, ha]
        simp
      | false =>
        have hs1r : s1 = s := by
          rw [hs1, if_neg (by simp [hb])]
        refine ⟨false, false, a, u, ?_, hne, hall, hle, humem⟩
        rw [← hs1r, ha]
        simp
  · rintro ⟨pre, plus, num, u, heq, hne, hall, hle, humem⟩
    have hnumhead : ∀ c, num.head? = some c → isAsciiDigit c = true := by
      intro c hc
      exact (List.all_eq_true.mp hall) c (head?_mem num c hc)
    have heq2 : s = (if pre then REC_TAG_FULL else []) ++
        (((if plus then ['+'] else []) ++ num) ++ [u]) := by
      rw [heq]
      simp [List.append_assoc]
    have hbodyne : (if plus then ['+'] else []) ++ num ≠ [] := by
      cases plus with
      | true => simp
      | false =>
        simp only [Bool.false_eq_true, if_false, List.nil_append]
        exact hne
    have hnostart : strStarts (((if plus then ['+'] else []) ++ num) ++ [u])
        REC_TAG_FULL = false := by
      cases plus with
      | true =>
        simp only [if_pos rfl, List.cons_append]
        simp [strStarts, REC_TAG_FULL]
      | false =>
        simp only [Bool.false_eq_true, if_false, List.nil_append]
        cases num with
        | nil => exact absurd rfl hne
        | cons c t =>
          have hcd : isAsciiDigit c = true := hnumhead c rfl
          have hcr : c ≠ 'r' := by
            intro hcon
            rw [hcon] at hcd
            exact absurd hcd (by decide)
          simp [List.cons_append, REC_TAG_FULL, strStarts, hcr]
    have hpre : strStarts s REC_TAG_FULL = pre := by
      cases pre with
      | true =>
        rw [heq2, if_pos rfl]
        exact strStarts_refl_append REC_TAG_FULL _
      | false =>
        rw [heq2, if_neg (by decide)]
        rw [List.nil_append]
        exact hnostart
    have hs1 : (if strStarts s REC_TAG_FULL then s.drop 4 else s)
        = ((if plus then ['+'] else []) ++ num) ++ [u] := by
      rw [hpre]
      cases pre with
      | true =>
        rw [if_pos rfl]
        rw [heq2, if_pos rfl]
        have h4 : REC_TAG_FULL.length = 4 := rfl
        rw [← h4]
        exact List.drop_left _ _
      | false =>
        rw [if_neg (by decide)]
        rw [heq2, if_neg (by decide), List.nil_append]
    have hdrop : (((if plus then ['+'] else []) ++ num) ++ [u]).dropLast
        = (if plus then ['+'] else []) ++ num := List.dropLast_concat
    have hpu : (parseUnsigned 255 ((if plus then ['+'] else []) ++ num)).isOk = true := by
      rw [parseUnsigned_isOk_iff]
      have hps : plusStrip ((if plus then ['+'] else []) ++ num) = num := by
        cases plus with
        | true =>
          rw [if_pos rfl]
          exact plusStrip_plus num
        | false =>
          rw [if_neg (by decide), List.nil_append]
          apply plusStrip_eq
          cases num with
          | nil => simp
          | cons c t =>
            simp only [List.head?_cons, ne_eq, Option.some.injEq]
            intro hcon
            have := hnumhead c rfl
            exact absurd (hcon ▸ this) (by decide)
      rw [hps]
      exact ⟨hne, hall, hle⟩
    have hends : ∀ c : Char, strEnds (((if plus then ['+'] else []) ++ num) ++ [u]) [c]
        = true ↔ u = c := fun c => strEnds_concat_singleton _ u c
    unfold Recurrence.parse
    rw [hs1]
    simp only [hdrop]
    fin_cases humem
    · rw [if_pos ((hends 'd').mpr rfl)]
      cases hp : parseUnsigned 255 ((if plus then ['+'] else []) ++ num) with
      | error e => rw [hp] at hpu; cases hpu
      | ok n => rfl
    · rw [if_neg (by rw [hends 'd']; decide), if_pos ((hends 'w').mpr rfl)]
      cases hp : parseUnsigned 255 ((if plus then ['+'] else []) ++ num) with
      | error e => rw [hp] at hpu; cases hpu
      | ok n => rfl
    · rw [if_neg (by rw [hends 'd']; decide), if_neg (by rw [hends 'w']; decide),
        if_pos ((hends 'm').mpr rfl)]
      cases hp : parseUnsigned 255 ((if plus then ['+'] else []) ++ num) with
      | error e => rw [hp] at hpu; cases hpu
      | ok n => rfl
    · rw [if_neg (by rw [hends 'd']; decide), if_neg (by rw [hends 'w']; decide),
        if_neg (by rw [hends 'm']; decide), if_pos ((hends 'y').mpr rfl)]
      cases hp : parseUnsigned 255 ((if plus then ['+'] else []) ++ num) with
      | error e => rw [hp] at hpu; cases hpu
      | ok n => rfl

/-! ## Claim C3: `replace_project` versus re-extraction -/

theorem joinSpace_cons (w : Str) (ws : List Str) (h : ws ≠ []) :
    joinSpace (w :: ws) = w ++ ' ' :: joinSpace ws := by
  cases ws with
  | nil => exact absurd rfl h
  | cons x xs => rfl

theorem joinSpace_append (xs ys : List Str) (hx : xs ≠ []) (hy : ys ≠ []) :
    joinSpace (xs ++ ys) = joinSpace xs ++ ' ' :: joinSpace ys := by
  induction xs with
  | nil => exact absurd rfl hx
  | cons w xs' ih =>
    cases xs' with
    | nil =>
      rw [List.singleton_append, joinSpace_cons w ys hy]
      rfl
    | cons x2 xs2 =>
      rw [List.cons_append, joinSpace_cons w (x2 :: xs2 ++ ys) (by simp),
        joinSpace_cons w (x2 :: xs2) (by simp), ih (by simp)]
      simp

theorem strStarts_word_iff (v : Str) (hv : ∀ c ∈ v, c ≠ ' ') :
    ∀ (w r : Str), (∀ c ∈ w, c ≠ ' ') →
      (strStarts (w ++ ' ' :: r) (v ++ [' ']) = true ↔ w = v) := by
  induction v with
  | nil =>
    intro w r hw
    cases w with
    | nil => simp [strStarts]
    | cons c t =>
      have hc : c ≠ ' ' := hw c (List.mem_cons_self c t)
      simp [strStarts, hc]
  | cons a v' ih =>
    have ha : a ≠ ' ' := hv a (List.mem_cons_self a v')
    intro w r hw
    cases w with
    | nil =>
      simp only [List.nil_append, List.cons_append, strStarts, Bool.and_eq_true,
        decide_eq_true_eq]
      constructor
      · rintro ⟨h1, _⟩
        exact absurd h1.symm ha
      · intro h
        exact absurd h (by simp)
    | cons c t =>
      have iht := ih (fun x hx => hv x (List.mem_cons_of_mem a hx)) t r
        (fun x hx => hw x (List.mem_cons_of_mem c hx))
      simp only [List.cons_append, strStarts, Bool.and_eq_true, decide_eq_true_eq,
        List.cons.injEq, List.append_eq]
      rw [iht]

theorem strStarts_word_single (v : Str) (hv : ∀ c ∈ v, c ≠ ' ') :
    ∀ (w : Str), (∀ c ∈ w, c ≠ ' ') → strStarts w (v ++ [' ']) = false := by
  induction v with
  | nil =>
    intro w hw
    cases w with
    | nil => rfl
    | cons c t =>
      have hc : c ≠ ' ' := hw c (List.mem_cons_self c t)
      simp [strStarts, hc]
  | cons a v' ih =>
    intro w hw
    cases w with
    | nil => rfl
    | cons c t =>
      have iht := ih (fun x hx => hv x (List.mem_cons_of_mem a hx)) t
        (fun x hx => hw x (List.mem_cons_of_mem c hx))
      simp [strStarts, iht]

theorem strStarts_join_iff (v : Str) (hv : ∀ c ∈ v, c ≠ ' ') (ws : List Str)
    (hws : ∀ w ∈ ws, ∀ c ∈ w, c ≠ ' ') :
    (strStarts (joinSpace ws) (v ++ [' ']) = true ↔ ∃ rest, ws = v :: rest ∧ rest ≠ []) := by
  cases ws with
  | nil =>
    constructor
    · intro h
      cases v with
      | nil => exact absurd h (by simp [joinSpace, strStarts])
      | cons a v' => exact absurd h (by simp [joinSpace, strStarts])
    · rintro ⟨rest, h, _⟩
      exact absurd h (by simp)
  | cons w ws' =>
    cases ws' with
    | nil =>
      rw [show joinSpace [w] = w from rfl,
        strStarts_word_single v hv w (hws w (List.mem_cons_self w []))]
      simp
    | cons w2 ws2 =>
      rw [joinSpace_cons w (w2 :: ws2) (by simp),
        strStarts_word_iff v hv w (joinSpace (w2 :: ws2))
          (hws w (List.mem_cons_self w (w2 :: ws2)))]
      constructor
      · intro h
        exact ⟨w2 :: ws2, by rw [h], by simp⟩
      · rintro ⟨rest, h, _⟩
        rw [List.cons.injEq] at h
        exact h.1

theorem reverse_joinSpace (ws : List Str) :
    (joinSpace ws).reverse = joinSpace ((ws.map List.reverse).reverse) := by
  induction ws with
  | nil => rfl
  | cons w ws' ih =>
    cases ws' with
    | nil => simp [joinSpace]
    | cons w2 ws2 =>
      rw [joinSpace_cons w (w2 :: ws2) (by simp)]
      rw [List.reverse_append, List.reverse_cons]
      rw [show (w :: w2 :: ws2).map List.reverse = w.reverse :: (w2 :: ws2).map List.reverse
        from rfl]
      rw [List.reverse_cons, joinSpace_append ((w2 :: ws2).map List.reverse).reverse
        [w.reverse] (by simp) (by simp)]
      rw [← ih]
      simp [joinSpace]

theorem strEnds_join_iff (v : Str) (hv : ∀ c ∈ v, c ≠ ' ') (ws : List Str)
    (hws : ∀ w ∈ ws, ∀ c ∈ w, c ≠ ' ') :
    (strEnds (joinSpace ws) (' ' :: v) = true ↔ ∃ ini, ws = ini ++ [v] ∧ ini ≠ []) := by
  unfold strEnds
  rw [reverse_joinSpace, List.reverse_cons]
  rw [strStarts_join_iff v.reverse (fun c hc => hv c (List.mem_reverse.mp hc))
    ((ws.map List.reverse).reverse)
    (by
      intro w hw c hc
      rw [List.mem_reverse, List.mem_map] at hw
      obtain ⟨w0, hw0, hrev⟩ := hw
      exact hws w0 hw0 c (List.mem_reverse.mp (hrev ▸ hc)))]
  constructor
  · rintro ⟨rest, heq, hne⟩
    refine ⟨(rest.map List.reverse).reverse, ?_, by simpa using hne⟩
    have h2 := congrArg (fun l => (List.map List.reverse l).reverse) heq
    simp only [List.map_reverse, List.reverse_reverse, List.map_map] at h2
    have hid : ∀ l : List Str, l.map (List.reverse ∘ List.reverse) = l := by
      intro l
      simp
    rw [hid] at h2
    rw [h2]
    simp [List.map_reverse]
  · rintro ⟨ini, heq, hne⟩
    refine ⟨(ini.map List.reverse).reverse, ?_, by simpa using hne⟩
    rw [heq]
    simp [List.map_reverse]

theorem replaceSub_nil (pat rep : Str) : replaceSub pat rep [] = [] := by
  conv_lhs => unfold replaceSub

theorem replaceSub_cons (pat rep : Str) (c : Char) (rest : Str) :
    replaceSub pat rep (c :: rest)
      = if pat ≠ [] ∧ strStarts (c :: rest) pat = true then
          rep ++ replaceSub pat rep ((c :: rest).drop pat.length)
        else c :: replaceSub pat rep rest := by
  conv_lhs => unfold replaceSub

theorem replaceSub_word_skip (pt rep : Str) :
    ∀ (w t : Str), (∀ c ∈ w, c ≠ ' ') →
      replaceSub (' ' :: pt) rep (w ++ t) = w ++ replaceSub (' ' :: pt) rep t := by
  intro w
  induction w with
  | nil => intro t _; rfl
  | cons c w' ih =>
    intro t hw
    have hc : c ≠ ' ' := hw c (List.mem_cons_self c w')
    rw [List.cons_append, replaceSub_cons]
    rw [if_neg (by
      rintro ⟨_, hst⟩
      simp only [strStarts, Bool.and_eq_true, decide_eq_true_eq] at hst
      exact hc hst.1)]
    rw [ih t (fun x hx => hw x (List.mem_cons_of_mem c hx))]
    rfl

theorem replaceSub_join_id (v rep : Str) (hv : ∀ c ∈ v, c ≠ ' ') :
    ∀ (ws : List Str), (∀ w ∈ ws, ∀ c ∈ w, c ≠ ' ') → v ∉ ws →
      replaceSub (' ' :: (v ++ [' '])) rep (joinSpace ws) = joinSpace ws := by
  intro ws
  induction ws with
  | nil =>
    intro _ _
    exact replaceSub_nil _ _
  | cons w ws' ih =>
    intro hws hnot
    have hw : ∀ c ∈ w, c ≠ ' ' := hws w (List.mem_cons_self w ws')
    cases ws' with
    | nil =>
      rw [show joinSpace [w] = w from rfl, show w = w ++ [] from by simp,
        replaceSub_word_skip (v ++ [' ']) rep w [] hw, replaceSub_nil]
    | cons w2 ws2 =>
      rw [joinSpace_cons w (w2 :: ws2) (by simp)]
      rw [replaceSub_word_skip (v ++ [' ']) rep w (' ' :: joinSpace (w2 :: ws2)) hw]
      rw [replaceSub_cons]
      rw [if_neg (by
        rintro ⟨_, hst⟩
        simp only [strStarts, Bool.and_eq_true, decide_eq_true_eq] at hst
        have hj := (strStarts_join_iff v hv (w2 :: ws2)
          (fun x hx => hws x (List.mem_cons_of_mem w hx))).mp hst.2
        obtain ⟨rest, hrest, _⟩ := hj
        apply hnot
        rw [hrest]
        exact List.mem_cons_of_mem w (List.mem_cons_self v rest))]
      rw [ih (fun x hx => hws x (List.mem_cons_of_mem w hx))
        (fun hx => hnot (List.mem_cons_of_mem w hx))]

theorem replaceSub_join_skip (v rep t : Str) (hv : ∀ c ∈ v, c ≠ ' ') :
    ∀ (ws : List Str), ws ≠ [] → (∀ w ∈ ws, ∀ c ∈ w, c ≠ ' ') → v ∉ ws →
      replaceSub (' ' :: (v ++ [' '])) rep (joinSpace ws ++ ' ' :: t)
        = joinSpace ws ++ replaceSub (' ' :: (v ++ [' '])) rep (' ' :: t) := by
  intro ws
  induction ws with
  | nil => intro h _ _; exact absurd rfl h
  | cons w ws' ih =>
    intro _ hws hnot
    have hw : ∀ c ∈ w, c ≠ ' ' := hws w (List.mem_cons_self w ws')
    cases ws' with
    | nil =>
      rw [show joinSpace [w] = w from rfl,
        replaceSub_word_skip (v ++ [' ']) rep w (' ' :: t) hw]
    | cons w2 ws2 =>
      rw [joinSpace_cons w (w2 :: ws2) (by simp), List.append_assoc, List.cons_append,
        replaceSub_word_skip (v ++ [' ']) rep w (' ' :: (joinSpace (w2 :: ws2) ++ ' ' :: t)) hw]
      rw [replaceSub_cons]
      rw [if_neg (by
        rintro ⟨_, hst⟩
        simp only [strStarts, Bool.and_eq_true, decide_eq_true_eq] at hst
        have hst2 := hst.2
        have hw2 : ∀ c ∈ w2, c ≠ ' ' :=
          hws w2 (List.mem_cons_of_mem w (List.mem_cons_self w2 ws2))
        have hw2v : w2 = v := by
          cases ws2 with
          | nil =>
            rw [show joinSpace [w2] = w2 from rfl] at hst2
            exact (strStarts_word_iff v hv w2 t hw2).mp hst2
          | cons w3 ws3 =>
            rw [joinSpace_cons w2 (w3 :: ws3) (by simp), List.append_assoc,
              List.cons_append] at hst2
            exact (strStarts_word_iff v hv w2 (joinSpace (w3 :: ws3) ++ ' ' :: t) hw2).mp hst2
        apply hnot
        rw [← hw2v]
        exact List.mem_cons_of_mem w (List.mem_cons_self w2 ws2))]
      rw [ih (by simp) (fun x hx => hws x (List.mem_cons_of_mem w hx))
        (fun hx => hnot (List.mem_cons_of_mem w hx))]
      simp [List.append_assoc]

theorem replaceSub_join_mid (v nv : Str) (hv : ∀ c ∈ v, c ≠ ' ') (q : List Str)
    (hq : ∀ w ∈ q, ∀ c ∈ w, c ≠ ' ') (hqv : v ∉ q) :
    replaceSub (' ' :: (v ++ [' '])) (' ' :: (nv ++ [' '])) (' ' :: (v ++ ' ' :: joinSpace q))
      = ' ' :: (nv ++ ' ' :: joinSpace q) := by
  have hs : strStarts (' ' :: (v ++ ' ' :: joinSpace q)) (' ' :: (v ++ [' '])) = true := by
    have h1 : strStarts (v ++ ' ' :: joinSpace q) (v ++ [' ']) = true := by
      rw [show v ++ ' ' :: joinSpace q = (v ++ [' ']) ++ joinSpace q from by simp]
      exact strStarts_refl_append _ _
    simp [strStarts, h1]
  rw [replaceSub_cons, if_pos ⟨by simp, hs⟩]
  have hdrop : (' ' :: (v ++ ' ' :: joinSpace q)).drop (' ' :: (v ++ [' '])).length
      = joinSpace q := by
    rw [show ' ' :: (v ++ ' ' :: joinSpace q) = (' ' :: (v ++ [' '])) ++ joinSpace q
      from by simp]
    exact List.drop_left _ _
  rw [hdrop, replaceSub_join_id v (' ' :: (nv ++ [' '])) hv q hq hqv]
  simp

theorem replace_word_words (ov nv : Str) (hov : ∀ c ∈ ov, c ≠ ' ')
    (hnvne : nv ≠ []) (hnv : ∀ c ∈ nv, c ≠ ' ') (hne : ov ≠ nv) :
    ∀ (p q : List Str), (∀ w ∈ p, ∀ c ∈ w, c ≠ ' ') → (∀ w ∈ q, ∀ c ∈ w, c ≠ ' ') →
      ov ∉ p → ov ∉ q →
      replace_word (joinSpace (p ++ ov :: q)) ov nv = joinSpace (p ++ nv :: q) := by
  intro p q hp hq hpo hqo
  rcases p with _ | ⟨pw, pr⟩
  · rcases q with _ | ⟨qw, qr⟩
    · -- the subject is the single word `ov`
      unfold replace_word
      rw [if_neg hne, show joinSpace ([] ++ [ov]) = ov from rfl, if_pos rfl]
      rfl
    · -- occurrence at the front: `ov w₁ … wₙ`
      have hqne : (qw :: qr : List Str) ≠ [] := by simp
      have hs0 : joinSpace ([] ++ ov :: qw :: qr) = ov ++ ' ' :: joinSpace (qw :: qr) := by
        rw [List.nil_append, joinSpace_cons ov (qw :: qr) hqne]
      rw [hs0]
      unfold replace_word
      rw [if_neg hne]
      rw [if_neg (by
        intro h
        have := congrArg List.length h
        simp at this)]
      have hstart : strStarts (ov ++ ' ' :: joinSpace (qw :: qr)) (ov ++ [' ']) = true :=
        (strStarts_word_iff ov hov ov (joinSpace (qw :: qr)) hov).mpr rfl
      simp only [hstart, if_true, if_neg hnvne]
      rw [List.drop_left ov (' ' :: joinSpace (qw :: qr))]
      have hs1 : nv ++ ' ' :: joinSpace (qw :: qr) = joinSpace (nv :: qw :: qr) :=
        (joinSpace_cons nv (qw :: qr) hqne).symm
      rw [hs1]
      have hends : strEnds (joinSpace (nv :: qw :: qr)) (' ' :: ov) = false := by
        rw [Bool.eq_false_iff]
        intro h
        obtain ⟨ini, heq, _⟩ := (strEnds_join_iff ov hov (nv :: qw :: qr) (by
          intro w hw
          rcases List.mem_cons.mp hw with h1 | h2
          · exact h1 ▸ hnv
          · exact hq w h2)).mp h
        have hovmem : ov ∈ nv :: qw :: qr := by
          rw [heq]
          exact List.mem_append_right ini (List.mem_cons_self ov [])
        rcases List.mem_cons.mp hovmem with h1 | h2
        · exact hne h1
        · exact hqo h2
      simp only [hends, Bool.false_eq_true, if_false, if_neg hnvne]
      exact replaceSub_join_id ov (' ' :: (nv ++ [' '])) hov (nv :: qw :: qr)
        (by
          intro w hw
          rcases List.mem_cons.mp hw with h1 | h2
          · exact h1 ▸ hnv
          · exact hq w h2)
        (by
          intro h
          rcases List.mem_cons.mp h with h1 | h2
          · exact hne h1
          · exact hqo h2)
  · rcases q with _ | ⟨qw, qr⟩
    · -- occurrence at the end: `w₁ … wₙ ov`
      have hpne : (pw :: pr : List Str) ≠ [] := by simp
      have hs0 : joinSpace ((pw :: pr) ++ [ov])
          = joinSpace (pw :: pr) ++ ' ' :: ov :=
        joinSpace_append (pw :: pr) [ov] hpne (by simp)
      rw [hs0]
      unfold replace_word
      rw [if_neg hne]
      rw [if_neg (by
        intro h
        have := congrArg List.length h
        simp at this
        omega)]
      have hstart : strStarts (joinSpace (pw :: pr) ++ ' ' :: ov) (ov ++ [' ']) = false := by
        rw [← hs0, Bool.eq_false_iff]
        intro h
        obtain ⟨rest, heq, _⟩ := (strStarts_join_iff ov hov ((pw :: pr) ++ [ov]) (by
          intro w hw
          rcases List.mem_append.mp hw with h1 | h2
          · exact hp w h1
          · rw [List.mem_singleton.mp h2]
            exact hov)).mp h
        rw [List.cons_append, List.cons.injEq] at heq
        exact hpo (heq.1 ▸ List.mem_cons_self pw pr)
      simp only [hstart, Bool.false_eq_true, if_false]
      have hends : strEnds (joinSpace (pw :: pr) ++ ' ' :: ov) (' ' :: ov) = true := by
        rw [← hs0]
        exact (strEnds_join_iff ov hov ((pw :: pr) ++ [ov]) (by
          intro w hw
          rcases List.mem_append.mp hw with h1 | h2
          · exact hp w h1
          · rw [List.mem_singleton.mp h2]
            exact hov)).mpr ⟨pw :: pr, rfl, hpne⟩
      simp only [hends, if_true, if_neg hnvne]
      have htake : (joinSpace (pw :: pr) ++ ' ' :: ov).take
          ((joinSpace (pw :: pr) ++ ' ' :: ov).length - ov.length)
          = joinSpace (pw :: pr) ++ [' '] := by
        rw [show joinSpace (pw :: pr) ++ ' ' :: ov = (joinSpace (pw :: pr) ++ [' ']) ++ ov
          from by simp]
        rw [show ((joinSpace (pw :: pr) ++ [' ']) ++ ov).length - ov.length
          = (joinSpace (pw :: pr) ++ [' ']).length from by
            simp only [List.length_append, List.length_cons, List.length_nil]
            omega]
        exact List.take_left _ _
      rw [htake]
      have hs2 : (joinSpace (pw :: pr) ++ [' ']) ++ nv = joinSpace ((pw :: pr) ++ [nv]) := by
        rw [joinSpace_append (pw :: pr) [nv] hpne (by simp),
          show joinSpace [nv] = nv from rfl]
        simp
      rw [hs2]
      exact replaceSub_join_id ov (' ' :: (nv ++ [' '])) hov ((pw :: pr) ++ [nv])
        (by
          intro w hw
          rcases List.mem_append.mp hw with h1 | h2
          · exact hp w h1
          · rw [List.mem_singleton.mp h2]
            exact hnv)
        (by
          intro h
          rcases List.mem_append.mp h with h1 | h2
          · exact hpo h1
          · exact hne (List.mem_singleton.mp h2))
    · -- occurrence in the middle
      have hpne : (pw :: pr : List Str) ≠ [] := by simp
      have hqne : (qw :: qr : List Str) ≠ [] := by simp
      have hwords : ∀ w ∈ (pw :: pr) ++ ov :: qw :: qr, ∀ c ∈ w, c ≠ ' ' := by
        intro w hw
        rcases List.mem_append.mp hw with h1 | h2
        · exact hp w h1
        · rcases List.mem_cons.mp h2 with h3 | h4
          · exact h3 ▸ hov
          · exact hq w h4
      have hs0 : joinSpace ((pw :: pr) ++ ov :: qw :: qr)
          = joinSpace (pw :: pr) ++ ' ' :: (ov ++ ' ' :: joinSpace (qw :: qr)) := by
        rw [joinSpace_append (pw :: pr) (ov :: qw :: qr) hpne (by simp),
          joinSpace_cons ov (qw :: qr) hqne]
      rw [hs0]
      unfold replace_word
      rw [if_neg hne]
      rw [if_neg (by
        intro h
        have := congrArg List.length h
        simp at this
        omega)]
      have hstart : strStarts (joinSpace (pw :: pr) ++ ' ' :: (ov ++ ' ' ::
          joinSpace (qw :: qr))) (ov ++ [' ']) = false := by
        rw [← hs0, Bool.eq_false_iff]
        intro h
        obtain ⟨rest, heq, _⟩ :=
          (strStarts_join_iff ov hov ((pw :: pr) ++ ov :: qw :: qr) hwords).mp h
        rw [List.cons_append, List.cons.injEq] at heq
        exact hpo (heq.1 ▸ List.mem_cons_self pw pr)
      simp only [hstart, Bool.false_eq_true, if_false]
      have hends : strEnds (joinSpace (pw :: pr) ++ ' ' :: (ov ++ ' ' ::
          joinSpace (qw :: qr))) (' ' :: ov) = false := by
        rw [← hs0, Bool.eq_false_iff]
        intro h
        obtain ⟨ini, heq, _⟩ :=
          (strEnds_join_iff ov hov ((pw :: pr) ++ ov :: qw :: qr) hwords).mp h
        have hlast := congrArg List.getLast? heq
        rw [List.getLast?_concat] at hlast
        rw [show (pw :: pr) ++ ov :: qw :: qr = ((pw :: pr) ++ [ov]) ++ qw :: qr
          from by simp] at hlast
        rw [List.getLast?_append_of_ne_nil _ hqne] at hlast
        exact hqo (List.mem_of_mem_getLast? hlast)
      simp only [hends, Bool.false_eq_true, if_false, if_neg hnvne]
      rw [List.cons_append ' ' ov [' '], List.cons_append ' ' nv [' ']]
      rw [replaceSub_join_skip ov (' ' :: (nv ++ [' '])) (ov ++ ' ' :: joinSpace (qw :: qr))
        hov (pw :: pr) hpne hp hpo]
      rw [replaceSub_join_mid ov nv hov (qw :: qr) hq hqo]
      rw [joinSpace_append (pw :: pr) (nv :: qw :: qr) hpne (by simp),
        joinSpace_cons nv (qw :: qr) hqne]

/-- The per-word step of `wordItems`, as a named function. -/
def sigItem (sig : Char) (w : Str) : Option Str :=
  match w with
  | c :: t => if c = sig then some t else none
  | [] => none

theorem wordItems_eq (sig : Char) (s : Str) :
    wordItems sig s = (splitChar ' ' s).filterMap (sigItem sig) := rfl

theorem sigItem_some (sig : Char) (w x : Str) :
    sigItem sig w = some x ↔ w = sig :: x := by
  cases w with
  | nil => simp [sigItem]
  | cons c t =>
    by_cases hc : c = sig
    · subst hc
      simp [sigItem]
    · simp [sigItem, hc, Ne.symm hc]

theorem splitChar_joinSpace (ws : List Str) (hws : ∀ w ∈ ws, ∀ c ∈ w, c ≠ ' ')
    (hne : ws ≠ []) : splitChar ' ' (joinSpace ws) = ws := by
  induction ws with
  | nil => exact absurd rfl hne
  | cons w ws' ih =>
    cases ws' with
    | nil => exact splitChar_nosep ' ' w (hws w (List.mem_cons_self w []))
    | cons w2 ws2 =>
      rw [joinSpace_cons w (w2 :: ws2) (by simp),
        splitChar_word_append ' ' w (joinSpace (w2 :: ws2))
          (hws w (List.mem_cons_self w (w2 :: ws2))),
        ih (fun x hx => hws x (List.mem_cons_of_mem w hx)) (by simp)]

theorem extract_projects_join (ws : List Str) (hws : ∀ w ∈ ws, ∀ c ∈ w, c ≠ ' ')
    (hne : ws ≠ []) :
    extract_projects (joinSpace ws)
      = (ws.filterMap (sigItem '+')).foldl pushUniqueNE [] := by
  rw [extract_projects_words, wordItems_eq, splitChar_joinSpace ws hws hne]

theorem pushUniqueNE_push (acc : List Str) (w : Str) (hw : w ≠ []) (hnm : w ∉ acc) :
    pushUniqueNE acc w = acc ++ [w] := by
  unfold pushUniqueNE
  rw [if_pos ⟨hw, fun hcon => hnm (by simpa using hcon)⟩]

theorem foldl_push_mem : ∀ (L acc : List Str) (x : Str),
    x ∈ List.foldl pushUniqueNE acc L → x ∈ acc ∨ x ∈ L := by
  intro L
  induction L with
  | nil =>
    intro acc x hx
    exact Or.inl hx
  | cons w L' ih =>
    intro acc x hx
    rw [List.foldl_cons] at hx
    rcases ih (pushUniqueNE acc w) x hx with h | h
    · unfold pushUniqueNE at h
      by_cases hc : w ≠ [] ∧ ¬ acc.contains w = true
      · rw [if_pos hc] at h
        rcases List.mem_append.mp h with h1 | h2
        · exact Or.inl h1
        · exact Or.inr (by rw [List.mem_singleton.mp h2]; exact List.mem_cons_self w L')
      · rw [if_neg hc] at h
        exact Or.inl h
    · exact Or.inr (List.mem_cons_of_mem w h)

theorem foldl_push_pair : ∀ (Q A R : List Str) (x y : Str),
    x ∉ Q → y ∉ Q →
    ∃ R2, List.foldl pushUniqueNE (A ++ x :: R) Q = A ++ x :: R2 ∧
      List.foldl pushUniqueNE (A ++ y :: R) Q = A ++ y :: R2 ∧
      ∀ w ∈ R2, w ∈ R ∨ w ∈ Q := by
  intro Q
  induction Q with
  | nil =>
    intro A R x y _ _
    exact ⟨R, rfl, rfl, fun w hw => Or.inl hw⟩
  | cons s Q' ih =>
    intro A R x y hx hy
    have hsx : s ≠ x := fun h => hx (by rw [← h]; exact List.mem_cons_self s Q')
    have hsy : s ≠ y := fun h => hy (by rw [← h]; exact List.mem_cons_self s Q')
    have hx' : x ∉ Q' := fun h => hx (List.mem_cons_of_mem s h)
    have hy' : y ∉ Q' := fun h => hy (List.mem_cons_of_mem s h)
    rw [List.foldl_cons, List.foldl_cons]
    by_cases hs0 : s = []
    · have e1 : pushUniqueNE (A ++ x :: R) s = A ++ x :: R := by
        unfold pushUniqueNE
        rw [if_neg (fun h => h.1 hs0)]
      have e2 : pushUniqueNE (A ++ y :: R) s = A ++ y :: R := by
        unfold pushUniqueNE
        rw [if_neg (fun h => h.1 hs0)]
      rw [e1, e2]
      obtain ⟨R2, f1, f2, hsub⟩ := ih A R x y hx' hy'
      exact ⟨R2, f1, f2, fun w hw => (hsub w hw).imp id (List.mem_cons_of_mem s)⟩
    · by_cases hmem : s ∈ A ∨ s ∈ R
      · have m1 : s ∈ A ++ x :: R := by
          rcases hmem with h | h
          · exact List.mem_append_left _ h
          · exact List.mem_append_right _ (List.mem_cons_of_mem x h)
        have m2 : s ∈ A ++ y :: R := by
          rcases hmem with h | h
          · exact List.mem_append_left _ h
          · exact List.mem_append_right _ (List.mem_cons_of_mem y h)
        have e1 : pushUniqueNE (A ++ x :: R) s = A ++ x :: R := by
          unfold pushUniqueNE
          rw [if_neg (fun h => h.2 (by simpa using m1))]
        have e2 : pushUniqueNE (A ++ y :: R) s = A ++ y :: R := by
          unfold pushUniqueNE
          rw [if_neg (fun h => h.2 (by simpa using m2))]
        rw [e1, e2]
        obtain ⟨R2, f1, f2, hsub⟩ := ih A R x y hx' hy'
        exact ⟨R2, f1, f2, fun w hw => (hsub w hw).imp id (List.mem_cons_of_mem s)⟩
      · have hmA : s ∉ A := fun h => hmem (Or.inl h)
        have hmR : s ∉ R := fun h => hmem (Or.inr h)
        have e1 : pushUniqueNE (A ++ x :: R) s = A ++ x :: (R ++ [s]) := by
          unfold pushUniqueNE
          rw [if_pos ⟨hs0, by
            intro hcon
            have : s ∈ A ++ x :: R := by simpa using hcon
            rcases List.mem_append.mp this with h | h
            · exact hmA h
            · rcases List.mem_cons.mp h with h1 | h2
              · exact hsx h1
              · exact hmR h2⟩]
          simp
        have e2 : pushUniqueNE (A ++ y :: R) s = A ++ y :: (R ++ [s]) := by
          unfold pushUniqueNE
          rw [if_pos ⟨hs0, by
            intro hcon
            have : s ∈ A ++ y :: R := by simpa using hcon
            rcases List.mem_append.mp this with h | h
            · exact hmA h
            · rcases List.mem_cons.mp h with h1 | h2
              · exact hsy h1
              · exact hmR h2⟩]
          simp
        rw [e1, e2]
        obtain ⟨R2, f1, f2, hsub⟩ := ih A (R ++ [s]) x y hx' hy'
        refine ⟨R2, f1, f2, ?_⟩
        intro w hw
        rcases hsub w hw with h | h
        · rcases List.mem_append.mp h with h1 | h2
          · exact Or.inl h1
          · exact Or.inr (by rw [List.mem_singleton.mp h2]; exact List.mem_cons_self s Q')
        · exact Or.inr (List.mem_cons_of_mem s h)

/-- Claim C3 as amended: for a task whose subject is a space-joined word
list with exactly one `+old` token and whose projects agree with
re-extraction, `replace_project(+old, +new)` removes `old` from the
structured list and appends `new` at the END, while the subject keeps the
new token at the old token's position; re-extraction therefore reproduces
the projects as the same set of tokens — a permutation — but not, in
general, in the same order. -/
theorem claim_C3_amended (t : Task) (ws p q : List Str) (old new : Str)
    (hsub : t.subject = joinSpace ws)
    (hws : ws = p ++ ('+' :: old) :: q)
    (hwords : ∀ w ∈ ws, ∀ c ∈ w, c ≠ ' ')
    (hold_ne : old ≠ []) (hnew_ne : new ≠ [])
    (hnewsp : ∀ c ∈ new, c ≠ ' ')
    (hne : old ≠ new)
    (hpold : ('+' :: old) ∉ p) (hqold : ('+' :: old) ∉ q)
    (hfresh : ('+' :: new) ∉ ws)
    (hI1 : t.projects = extract_projects t.subject) :
    (Task.replace_project t ('+' :: old) ('+' :: new)).projects
        = t.projects.filter (fun x => x ≠ old) ++ [new] ∧
    (Task.replace_project t ('+' :: old) ('+' :: new)).subject
        = joinSpace (p ++ ('+' :: new) :: q) ∧
    (extract_projects (Task.replace_project t ('+' :: old) ('+' :: new)).subject).Perm
        (Task.replace_project t ('+' :: old) ('+' :: new)).projects := by
  have hovw : ('+' :: old) ∈ ws := by
    rw [hws]
    exact List.mem_append_right p (List.mem_cons_self _ q)
  have hovsp : ∀ c ∈ ('+' :: old), c ≠ ' ' := hwords _ hovw
  have hnvsp : ∀ c ∈ ('+' :: new), c ≠ ' ' := by
    intro c hc
    rcases List.mem_cons.mp hc with h | h
    · rw [h]
      decide
    · exact hnewsp c h
  have hpsp : ∀ w ∈ p, ∀ c ∈ w, c ≠ ' ' := fun w hw =>
    hwords w (by rw [hws]; exact List.mem_append_left _ hw)
  have hqsp : ∀ w ∈ q, ∀ c ∈ w, c ≠ ' ' := fun w hw =>
    hwords w (by rw [hws]; exact List.mem_append_right _ (List.mem_cons_of_mem _ hw))
  have hovnv : ('+' :: old) ≠ ('+' :: new) := by
    intro h
    rw [List.cons.injEq] at h
    exact hne h.2
  have hfp : ('+' :: new) ∉ p := fun h =>
    hfresh (by rw [hws]; exact List.mem_append_left _ h)
  have hfq : ('+' :: new) ∉ q := fun h =>
    hfresh (by rw [hws]; exact List.mem_append_right _ (List.mem_cons_of_mem _ h))
  have hwords2 : ∀ w ∈ p ++ ('+' :: new) :: q, ∀ c ∈ w, c ≠ ' ' := by
    intro w hw
    rcases List.mem_append.mp hw with h | h
    · exact hpsp w h
    · rcases List.mem_cons.mp h with h1 | h2
      · exact h1 ▸ hnvsp
      · exact hqsp w h2
  have ht2 : Task.replace_project t ('+' :: old) ('+' :: new)
      = { t with projects := t.projects.filter (fun proj => proj ≠ old) ++ [new]
                 subject := replace_word t.subject ('+' :: old) ('+' :: new) } := by
    simp only [Task.replace_project]
    rw [if_neg hold_ne, if_pos hnew_ne]
  have hsubj : replace_word t.subject ('+' :: old) ('+' :: new)
      = joinSpace (p ++ ('+' :: new) :: q) := by
    rw [hsub, hws]
    exact replace_word_words ('+' :: old) ('+' :: new) hovsp (by simp) hnvsp hovnv
      p q hpsp hqsp hpold hqold
  have hitem_old : sigItem '+' ('+' :: old) = some old := by simp [sigItem]
  have hitem_new : sigItem '+' ('+' :: new) = some new := by simp [sigItem]
  have hnotP_old : old ∉ p.filterMap (sigItem '+') := by
    intro h
    obtain ⟨w, hwp, hsome⟩ := List.mem_filterMap.mp h
    rw [sigItem_some] at hsome
    exact hpold (hsome ▸ hwp)
  have hnotQ_old : old ∉ q.filterMap (sigItem '+') := by
    intro h
    obtain ⟨w, hwp, hsome⟩ := List.mem_filterMap.mp h
    rw [sigItem_some] at hsome
    exact hqold (hsome ▸ hwp)
  have hnotP_new : new ∉ p.filterMap (sigItem '+') := by
    intro h
    obtain ⟨w, hwp, hsome⟩ := List.mem_filterMap.mp h
    rw [sigItem_some] at hsome
    exact hfp (hsome ▸ hwp)
  have hnotQ_new : new ∉ q.filterMap (sigItem '+') := by
    intro h
    obtain ⟨w, hwp, hsome⟩ := List.mem_filterMap.mp h
    rw [sigItem_some] at hsome
    exact hfq (hsome ▸ hwp)
  have hD_sub : ∀ w ∈ (p.filterMap (sigItem '+')).foldl pushUniqueNE [],
      w ∈ p.filterMap (sigItem '+') := by
    intro w hw
    rcases foldl_push_mem _ [] w hw with h | h
    · simp at h
    · exact h
  have hold_nD : old ∉ (p.filterMap (sigItem '+')).foldl pushUniqueNE [] :=
    fun h => hnotP_old (hD_sub old h)
  have hnew_nD : new ∉ (p.filterMap (sigItem '+')).foldl pushUniqueNE [] :=
    fun h => hnotP_new (hD_sub new h)
  have hpush_old : pushUniqueNE ((p.filterMap (sigItem '+')).foldl pushUniqueNE []) old
      = (p.filterMap (sigItem '+')).foldl pushUniqueNE [] ++ [old] :=
    pushUniqueNE_push _ _ hold_ne hold_nD
  have hpush_new : pushUniqueNE ((p.filterMap (sigItem '+')).foldl pushUniqueNE []) new
      = (p.filterMap (sigItem '+')).foldl pushUniqueNE [] ++ [new] :=
    pushUniqueNE_push _ _ hnew_ne hnew_nD
  obtain ⟨R2, f1, f2, hR2⟩ := foldl_push_pair (q.filterMap (sigItem '+'))
    ((p.filterMap (sigItem '+')).foldl pushUniqueNE []) [] old new hnotQ_old hnotQ_new
  have hE2 : extract_projects t.subject
      = (p.filterMap (sigItem '+')).foldl pushUniqueNE [] ++ old :: R2 := by
    rw [hsub, hws, extract_projects_join (p ++ ('+' :: old) :: q) (hws ▸ hwords) (by simp)]
    rw [List.filterMap_append, List.filterMap_cons_some hitem_old]
    rw [List.foldl_append, List.foldl_cons, hpush_old]
    exact f1
  have hE3 : extract_projects (joinSpace (p ++ ('+' :: new) :: q))
      = (p.filterMap (sigItem '+')).foldl pushUniqueNE [] ++ new :: R2 := by
    rw [extract_projects_join (p ++ ('+' :: new) :: q) hwords2 (by simp)]
    rw [List.filterMap_append, List.filterMap_cons_some hitem_new]
    rw [List.foldl_append, List.foldl_cons, hpush_new]
    exact f2
  have hfilter : (((p.filterMap (sigItem '+')).foldl pushUniqueNE [] ++ old :: R2).filter
      (fun x => x ≠ old)) = (p.filterMap (sigItem '+')).foldl pushUniqueNE [] ++ R2 := by
    rw [List.filter_append, List.filter_cons]
    rw [if_neg (by simp)]
    rw [List.filter_eq_self.mpr (fun w hw => decide_eq_true
      (show w ≠ old from fun hcon => hnotP_old (hcon ▸ hD_sub w hw)))]
    rw [List.filter_eq_self.mpr (fun w hw => decide_eq_true
      (show w ≠ old from fun hcon => hnotQ_old (hcon ▸ by
        rcases hR2 w hw with h | h
        · simp at h
        · exact h)))]
  refine ⟨by rw [ht2], by rw [ht2]; exact hsubj, ?_⟩
  rw [ht2]
  show (extract_projects (replace_word t.subject ('+' :: old) ('+' :: new))).Perm
    (t.projects.filter (fun proj => proj ≠ old) ++ [new])
  rw [hsubj, hE3, hI1, hE2, hfilter, List.append_assoc]
  exact List.Perm.append_left _ ((List.perm_append_singleton new R2).symm)

/-- A concrete task for exercising `replace_project`: subject
`do +a +b` with projects `["a", "b"]` (satisfying invariant I1). -/
def c3Task : Task :=
  { Task.default with
    subject := ( "do +a +b" ).toList
    projects := [( "a" ).toList, ( "b" ).toList] }

/-- Counterexample to C3: on the task `do +a +b` (projects `a, b`),
`replace_project(+a, +c)` yields the structured list `[b, c]` (old filtered
out, new appended at the end) but the subject `do +c +b`, whose re-extraction
gives `[c, b]` — same tokens, different order, so the lists are not equal. -/
theorem claim_C3_counterexample :
    c3Task.projects = extract_projects c3Task.subject ∧
    (Task.replace_project c3Task (( "+a" ).toList) (( "+c" ).toList)).projects
      = [( "b" ).toList, ( "c" ).toList] ∧
    extract_projects (Task.replace_project c3Task (( "+a" ).toList) (( "+c" ).toList)).subject
      = [( "c" ).toList, ( "b" ).toList] ∧
    (Task.replace_project c3Task (( "+a" ).toList) (( "+c" ).toList)).projects
      ≠ extract_projects
          (Task.replace_project c3Task (( "+a" ).toList) (( "+c" ).toList)).subject := by
  have h1 : (Task.replace_project c3Task (( "+a" ).toList) (( "+c" ).toList)).subject
      = replace_word (( "do +a +b" ).toList) (( "+a" ).toList) (( "+c" ).toList) := rfl
  have hsubj : (Task.replace_project c3Task (( "+a" ).toList) (( "+c" ).toList)).subject
      = joinSpace ([( "do" ).toList] ++ (( "+c" ).toList) :: [( "+b" ).toList]) := by
    rw [h1, show ( "do +a +b" ).toList
      = joinSpace ([( "do" ).toList] ++ (( "+a" ).toList) :: [( "+b" ).toList]) from rfl]
    exact replace_word_words (( "+a" ).toList) (( "+c" ).toList) (by decide) (by decide)
      (by decide) (by decide) [( "do" ).toList] [( "+b" ).toList]
      (by decide) (by decide) (by decide) (by decide)
  refine ⟨by rw [extract_projects_words]; decide, by decide, ?_, ?_⟩
  · rw [hsubj, extract_projects_words]
    decide
  · rw [hsubj, extract_projects_words]
    decide

theorem claim_C3_amended_witness :
    (Task.replace_project c3Task (( "+a" ).toList) (( "+c" ).toList)).projects
        = c3Task.projects.filter (fun x => x ≠ ( "a" ).toList) ++ [( "c" ).toList] ∧
    (Task.replace_project c3Task (( "+a" ).toList) (( "+c" ).toList)).subject
        = joinSpace ([( "do" ).toList] ++ (( "+c" ).toList) :: [( "+b" ).toList]) ∧
    (extract_projects
        (Task.replace_project c3Task (( "+a" ).toList) (( "+c" ).toList)).subject).Perm
      (Task.replace_project c3Task (( "+a" ).toList) (( "+c" ).toList)).projects :=
  claim_C3_amended c3Task [( "do" ).toList, ( "+a" ).toList, ( "+b" ).toList]
    [( "do" ).toList] [( "+b" ).toList] (( "a" ).toList) (( "c" ).toList)
    (by decide) (by decide) (by decide) (by decide) (by decide) (by decide) (by decide)
    (by decide) (by decide) (by decide) (by rw [extract_projects_words]; decide)

/-! ## Claim C2: the parse/format round trip -/

theorem rustTrim_len (s : Str) :
    (rustTrim s).length ≤ (s.dropWhile rustIsWs).length := by
  unfold rustTrim
  rw [List.length_reverse]
  calc ((s.dropWhile rustIsWs).reverse.dropWhile rustIsWs).length
      ≤ (s.dropWhile rustIsWs).reverse.length := (List.dropWhile_sublist _).length_le
    _ = (s.dropWhile rustIsWs).length := List.length_reverse _

theorem rustTrim_head (s : Str) (h : rustTrim s = s) :
    ∀ c, s.head? = some c → rustIsWs c = false := by
  intro c hc
  by_contra hws
  rw [Bool.not_eq_false] at hws
  cases s with
  | nil => cases hc
  | cons a rest =>
    rw [List.head?_cons, Option.some.injEq] at hc
    subst hc
    have h1 : ((a :: rest).dropWhile rustIsWs).length ≤ rest.length := by
      rw [List.dropWhile_cons, hws]
      simpa using (List.dropWhile_sublist (p := rustIsWs) (l := rest)).length_le
    have h2 := rustTrim_len (a :: rest)
    have h3 := congrArg List.length h
    simp only [List.length_cons] at h3
    omega

theorem rustTrim_last (s : Str) (h : rustTrim s = s) :
    ∀ c, s.getLast? = some c → rustIsWs c = false := by
  intro c hc
  by_contra hws
  rw [Bool.not_eq_false] at hws
  have hlen := congrArg List.length h
  cases hu : s.dropWhile rustIsWs with
  | nil =>
    have hz : rustTrim s = [] := by
      unfold rustTrim
      rw [hu]
      rfl
    rw [h] at hz
    rw [hz] at hc
    cases hc
  | cons u0 urest =>
    have hune : s.dropWhile rustIsWs ≠ [] := by rw [hu]; simp
    have hsplit : s.takeWhile rustIsWs ++ s.dropWhile rustIsWs = s :=
      List.takeWhile_append_dropWhile rustIsWs s
    have hlast : (s.dropWhile rustIsWs).getLast? = some c := by
      rw [← hsplit] at hc
      rwa [List.getLast?_append_of_ne_nil _ hune] at hc
    have hrevhead : (s.dropWhile rustIsWs).reverse.head? = some c := by
      rw [List.head?_reverse]
      exact hlast
    cases hrev : (s.dropWhile rustIsWs).reverse with
    | nil =>
      rw [hrev] at hrevhead
      cases hrevhead
    | cons r0 rrest =>
      have hr0 : r0 = c := by
        rw [hrev, List.head?_cons, Option.some.injEq] at hrevhead
        exact hrevhead
      have htlen : (rustTrim s).length ≤ rrest.length := by
        unfold rustTrim
        rw [List.length_reverse, hrev, List.dropWhile_cons, hr0, hws]
        simpa using (List.dropWhile_sublist (p := rustIsWs) (l := rrest)).length_le
      have hulen : (s.dropWhile rustIsWs).length = rrest.length + 1 := by
        rw [← List.length_reverse, hrev]
        simp
      have hslen : (s.dropWhile rustIsWs).length ≤ s.length :=
        (List.dropWhile_sublist _).length_le
      omega

theorem drop_word (w r : Str) : (w ++ ' ' :: r).drop (w.length + 1) = r := by
  rw [show w ++ ' ' :: r = (w ++ [' ']) ++ r from by simp,
    show w.length + 1 = (w ++ [' ']).length from by simp]
  exact List.drop_left _ _

theorem format_date_ne_nil (dt : Date) (h : dateOk dt) : format_date dt ≠ [] := by
  obtain ⟨_, _, ⟨c, hhead, _⟩⟩ := dateWord_neutral dt h
  intro hcon
  rw [hcon] at hhead
  cases hhead

theorem try_read_date_word (dt : Date) (h : dateOk dt) (r : Str) (base : Date) :
    try_read_date (format_date dt ++ ' ' :: r) base = some dt := by
  obtain ⟨hns, _, ⟨c, hhead, hdig⟩⟩ := dateWord_neutral dt h
  unfold try_read_date
  rw [head?_append_left _ _ (format_date_ne_nil dt h), hhead]
  simp only [hdig, if_true]
  rw [next_word_of_space (format_date dt) r hns, parse_date_format dt h base]
  rfl

theorem parse_priority_format (p : Nat) (h : p < 26) :
    parse_priority ['(', Char.ofNat (65 + p), ')'] = Except.ok p := by
  interval_cases p <;> rfl

theorem format_priority_eq (p : Nat) (h : p < 26) :
    format_priority p = ['(', Char.ofNat (65 + p), ')'] := by
  unfold format_priority priority_to_char
  rw [if_neg (by simp only [NO_PRIORITY]; omega), if_neg (by simp only [NO_PRIORITY]; omega)]
  rfl

theorem tagsUpsert_keys_mem (m : List (Str × Str)) (k v : Str) :
    ∀ a ∈ (tagsUpsert m k v).map Prod.fst, a ∈ m.map Prod.fst ∨ a = k := by
  induction m with
  | nil =>
    intro a ha
    simp only [tagsUpsert, List.map_cons, List.map_nil, List.mem_singleton] at ha
    exact Or.inr ha
  | cons kv rest ih =>
    intro a ha
    obtain ⟨k0, v0⟩ := kv
    unfold tagsUpsert at ha
    by_cases hk : k0 = k
    · rw [if_pos hk] at ha
      simp only [List.map_cons, List.mem_cons] at ha
      rcases ha with h | h
      · exact Or.inr h
      · exact Or.inl (by simp only [List.map_cons, List.mem_cons]; exact Or.inr h)
    · rw [if_neg hk] at ha
      simp only [List.map_cons, List.mem_cons] at ha
      rcases ha with h | h
      · exact Or.inl (by simp only [List.map_cons, List.mem_cons]; exact Or.inl h)
      · rcases ih a h with h2 | h2
        · exact Or.inl (by simp only [List.map_cons, List.mem_cons]; exact Or.inr h2)
        · exact Or.inr h2

theorem tagsUpsert_keys_nodup (m : List (Str × Str)) (k v : Str)
    (h : (m.map Prod.fst).Nodup) : ((tagsUpsert m k v).map Prod.fst).Nodup := by
  induction m with
  | nil => simp [tagsUpsert]
  | cons kv rest ih =>
    obtain ⟨k0, v0⟩ := kv
    simp only [List.map_cons, List.nodup_cons] at h
    unfold tagsUpsert
    by_cases hk : k0 = k
    · rw [if_pos hk]
      simp only [List.map_cons, List.nodup_cons]
      exact ⟨hk ▸ h.1, h.2⟩
    · rw [if_neg hk]
      simp only [List.map_cons, List.nodup_cons]
      refine ⟨?_, ih h.2⟩
      intro hcon
      rcases tagsUpsert_keys_mem rest k v k0 hcon with h2 | h2
      · exact h.1 h2
      · exact hk h2

theorem extract_tags_keys_nodup (s : Str) : ((extract_tags s).map Prod.fst).Nodup := by
  unfold extract_tags
  have base : (([] : List (Str × Str)).map Prod.fst).Nodup := by simp
  generalize hacc : ([] : List (Str × Str)) = acc at base ⊢
  clear hacc
  induction splitChar ' ' s generalizing acc with
  | nil => exact base
  | cons w rest ih =>
    rw [List.foldl_cons]
    apply ih
    by_cases hw : w = []
    · rw [if_pos hw]
      exact base
    · rw [if_neg hw]
      cases hst : split_tag w with
      | none => exact base
      | some nv => exact tagsUpsert_keys_nodup acc nv.1 nv.2 base

theorem mem_tagsGet (m : List (Str × Str)) (h : (m.map Prod.fst).Nodup) (k v : Str)
    (hm : (k, v) ∈ m) : tagsGet m k = some v := by
  induction m with
  | nil => cases hm
  | cons kv rest ih =>
    obtain ⟨k0, v0⟩ := kv
    simp only [List.map_cons, List.nodup_cons] at h
    rcases List.mem_cons.mp hm with heq | hmem
    · rw [Prod.mk.injEq] at heq
      unfold tagsGet
      rw [if_pos heq.1.symm, heq.2]
    · have hk0 : k0 ≠ k := by
        intro hcon
        apply h.1
        rw [hcon]
        exact List.mem_map.mpr ⟨(k, v), hmem, rfl⟩
      unfold tagsGet
      rw [if_neg hk0]
      exact ih h.2 hmem

/-- Recurrence field produced by the `parse_special_tags` scan. -/
def pstRecF (cur : Option Recurrence) : List (Str × Str) → Option Recurrence
  | [] => cur
  | (n, v) :: rest =>
    pstRecF (if n = strRec then
        match Recurrence.parse v with
        | Except.ok r => some r
        | Except.error _ => cur
      else cur) rest

/-- Due-date field produced by the `parse_special_tags` scan. -/
def pstDueF (base : Date) (cur : Option Date) : List (Str × Str) → Option Date
  | [] => cur
  | (n, v) :: rest =>
    pstDueF base (if n = strDue then
        match parse_date v base with
        | Except.ok d => some d
        | Except.error _ => cur
      else cur) rest

/-- Threshold field produced by the `parse_special_tags` scan. -/
def pstThrF (base : Date) (cur : Option Date) : List (Str × Str) → Option Date
  | [] => cur
  | (n, v) :: rest =>
    pstThrF base (if n = strT then
        match parse_date v base with
        | Except.ok d => some d
        | Except.error _ => cur
      else cur) rest

theorem pstEntry_eq (base : Date) (t : Task) (pairs : List (Str × Str)) (n v : Str)
    (hcanon : (n = strT ∨ n = strDue ∨ n = strUntil) →
      ∃ d, parse_date v base = Except.ok d ∧ v = format_date d) :
    pstEntry base (t, pairs) (n, v)
      = ({ t with
           recurrence := if n = strRec then
               (match Recurrence.parse v with
                | Except.ok r => some r
                | Except.error _ => t.recurrence)
             else t.recurrence
           threshold_date := if n = strT then
               (match parse_date v base with
                | Except.ok d => some d
                | Except.error _ => t.threshold_date)
             else t.threshold_date
           due_date := if n = strDue then
               (match parse_date v base with
                | Except.ok d => some d
                | Except.error _ => t.due_date)
             else t.due_date }, pairs) := by
  by_cases h1 : n = strRec
  · subst h1
    simp only [pstEntry, if_pos rfl, if_neg (show strRec ≠ strT from by decide),
      if_neg (show strRec ≠ strDue from by decide),
      if_neg (show strRec ≠ strUntil from by decide)]
    cases hp : Recurrence.parse v with
    | ok r => rfl
    | error e => rfl
  · by_cases h2 : n = strT
    · subst h2
      obtain ⟨d, hok, hfmt⟩ := hcanon (Or.inl rfl)
      simp only [pstEntry, if_neg h1, if_pos rfl,
        if_neg (show strT ≠ strDue from by decide),
        if_neg (show strT ≠ strUntil from by decide), hok]
      rw [if_neg (show ¬ (strT ++ ':' :: v ≠ strT ++ ':' :: format_date d) from by
        rw [← hfmt]
        simp)]
      simp
    · by_cases h3 : n = strDue
      · subst h3
        obtain ⟨d, hok, hfmt⟩ := hcanon (Or.inr (Or.inl rfl))
        simp only [pstEntry, if_neg h1, if_neg h2, if_pos rfl,
          if_neg (show strDue ≠ strUntil from by decide), hok]
        rw [if_neg (show ¬ (strDue ++ ':' :: v ≠ strDue ++ ':' :: format_date d) from by
          rw [← hfmt]
          simp)]
        simp
      · by_cases h4 : n = strUntil
        · subst h4
          obtain ⟨d, hok, hfmt⟩ := hcanon (Or.inr (Or.inr rfl))
          simp only [pstEntry, if_neg h1, if_neg h2, if_neg h3, if_pos rfl, hok]
          rw [if_neg (show ¬ (strUntil ++ ':' :: v ≠ strUntil ++ ':' :: format_date d) from by
            rw [← hfmt]
            simp)]
          simp
        · simp only [pstEntry, if_neg h1, if_neg h2, if_neg h3, if_neg h4]

theorem pst_fold (base : Date) : ∀ (tags : List (Str × Str)) (t : Task)
    (pairs : List (Str × Str)),
    (∀ nv ∈ tags, (nv.1 = strT ∨ nv.1 = strDue ∨ nv.1 = strUntil) →
      ∃ d, parse_date nv.2 base = Except.ok d ∧ nv.2 = format_date d) →
    tags.foldl (pstEntry base) (t, pairs)
      = ({ t with
           recurrence := pstRecF t.recurrence tags
           threshold_date := pstThrF base t.threshold_date tags
           due_date := pstDueF base t.due_date tags }, pairs) := by
  intro tags
  induction tags with
  | nil =>
    intro t pairs _
    rfl
  | cons nv rest ih =>
    intro t pairs hcanon
    obtain ⟨n, v⟩ := nv
    rw [List.foldl_cons,
      pstEntry_eq base t pairs n v (hcanon (n, v) (List.mem_cons_self _ rest)),
      ih _ _ (fun x hx => hcanon x (List.mem_cons_of_mem _ hx))]
    rfl

theorem pstRecF_skip (tags : List (Str × Str)) (cur : Option Recurrence)
    (h : strRec ∉ tags.map Prod.fst) : pstRecF cur tags = cur := by
  induction tags generalizing cur with
  | nil => rfl
  | cons nv rest ih =>
    obtain ⟨n, v⟩ := nv
    have hn : n ≠ strRec := by
      intro hcon
      exact h (by rw [← hcon]; exact List.mem_cons_self _ _)
    unfold pstRecF
    rw [if_neg hn]
    exact ih cur (fun hcon => h (List.mem_cons_of_mem _ hcon))

theorem pstDueF_skip (base : Date) (tags : List (Str × Str)) (cur : Option Date)
    (h : strDue ∉ tags.map Prod.fst) : pstDueF base cur tags = cur := by
  induction tags generalizing cur with
  | nil => rfl
  | cons nv rest ih =>
    obtain ⟨n, v⟩ := nv
    have hn : n ≠ strDue := by
      intro hcon
      exact h (by rw [← hcon]; exact List.mem_cons_self _ _)
    unfold pstDueF
    rw [if_neg hn]
    exact ih cur (fun hcon => h (List.mem_cons_of_mem _ hcon))

theorem pstThrF_skip (base : Date) (tags : List (Str × Str)) (cur : Option Date)
    (h : strT ∉ tags.map Prod.fst) : pstThrF base cur tags = cur := by
  induction tags generalizing cur with
  | nil => rfl
  | cons nv rest ih =>
    obtain ⟨n, v⟩ := nv
    have hn : n ≠ strT := by
      intro hcon
      exact h (by rw [← hcon]; exact List.mem_cons_self _ _)
    unfold pstThrF
    rw [if_neg hn]
    exact ih cur (fun hcon => h (List.mem_cons_of_mem _ hcon))

theorem pstRecF_get (tags : List (Str × Str)) (cur : Option Recurrence)
    (h : (tags.map Prod.fst).Nodup) :
    pstRecF cur tags = match tagsGet tags strRec with
      | some v => (match Recurrence.parse v with
        | Except.ok r => some r
        | Except.error _ => cur)
      | none => cur := by
  induction tags generalizing cur with
  | nil => rfl
  | cons nv rest ih =>
    obtain ⟨n, v⟩ := nv
    simp only [List.map_cons, List.nodup_cons] at h
    by_cases hn : n = strRec
    · subst hn
      unfold pstRecF tagsGet
      rw [if_pos rfl, if_pos rfl]
      cases hp : Recurrence.parse v with
      | ok r =>
        simp only [hp]
        exact pstRecF_skip rest _ h.1
      | error e =>
        simp only [hp]
        exact pstRecF_skip rest _ h.1
    · unfold pstRecF tagsGet
      rw [if_neg hn, if_neg hn]
      exact ih cur h.2

theorem pstDueF_get (base : Date) (tags : List (Str × Str)) (cur : Option Date)
    (h : (tags.map Prod.fst).Nodup) :
    pstDueF base cur tags = match tagsGet tags strDue with
      | some v => (match parse_date v base with
        | Except.ok d => some d
        | Except.error _ => cur)
      | none => cur := by
  induction tags generalizing cur with
  | nil => rfl
  | cons nv rest ih =>
    obtain ⟨n, v⟩ := nv
    simp only [List.map_cons, List.nodup_cons] at h
    by_cases hn : n = strDue
    · subst hn
      unfold pstDueF tagsGet
      rw [if_pos rfl, if_pos rfl]
      cases hp : parse_date v base with
      | ok d =>
        simp only [hp]
        exact pstDueF_skip base rest _ h.1
      | error e =>
        simp only [hp]
        exact pstDueF_skip base rest _ h.1
    · unfold pstDueF tagsGet
      rw [if_neg hn, if_neg hn]
      exact ih cur h.2

theorem pstThrF_get (base : Date) (tags : List (Str × Str)) (cur : Option Date)
    (h : (tags.map Prod.fst).Nodup) :
    pstThrF base cur tags = match tagsGet tags strT with
      | some v => (match parse_date v base with
        | Except.ok d => some d
        | Except.error _ => cur)
      | none => cur := by
  induction tags generalizing cur with
  | nil => rfl
  | cons nv rest ih =>
    obtain ⟨n, v⟩ := nv
    simp only [List.map_cons, List.nodup_cons] at h
    by_cases hn : n = strT
    · subst hn
      unfold pstThrF tagsGet
      rw [if_pos rfl, if_pos rfl]
      cases hp : parse_date v base with
      | ok d =>
        simp only [hp]
        exact pstThrF_skip base rest _ h.1
      | error e =>
        simp only [hp]
        exact pstThrF_skip base rest _ h.1
    · unfold pstThrF tagsGet
      rw [if_neg hn, if_neg hn]
      exact ih cur h.2

theorem rustTrim_word_pre (w r : Str) (hwne : w ≠ [])
    (hwhead : ∀ c, w.head? = some c → rustIsWs c = false)
    (hrne : r ≠ []) (hr : rustTrim r = r) :
    rustTrim (w ++ ' ' :: r) = w ++ ' ' :: r := by
  apply rustTrim_id
  · intro c hc
    rw [head?_append_left _ _ hwne] at hc
    exact hwhead c hc
  · intro c hc
    rw [show w ++ ' ' :: r = w ++ ([' '] ++ r) from by simp,
      List.getLast?_append_of_ne_nil _ (show ([' '] ++ r : Str) ≠ [] from by simp),
      List.getLast?_append_of_ne_nil _ hrne] at hc
    exact rustTrim_last r hr c hc

theorem validateDates_none (t0 : Task) (s : Str) (base : Date)
    (h : try_read_date s base = none) :
    validateDates t0 s base = { t0 with subject := s } := by
  unfold validateDates
  rw [h]

theorem validateDates_create (t0 : Task) (dt : Date) (hdt : dateOk dt) (r : Str) (base : Date)
    (hfin : t0.finished = false) (hr : rustTrim r = r) :
    validateDates t0 (format_date dt ++ ' ' :: r) base
      = { t0 with create_date := some dt, subject := r } := by
  unfold validateDates
  rw [try_read_date_word dt hdt r base]
  rw [findCharIdx_word_space (format_date dt) r (dateWord_neutral dt hdt).1]
  simp only [hfin, Bool.false_eq_true, if_false, not_false_eq_true, if_true,
    drop_word, hr]

theorem validateDates_fin1 (t0 : Task) (dt : Date) (hdt : dateOk dt) (r : Str) (base : Date)
    (hfin : t0.finished = true) (hr : rustTrim r = r)
    (hnd : try_read_date r base = none) :
    validateDates t0 (format_date dt ++ ' ' :: r) base
      = { t0 with finish_date := some dt, subject := r } := by
  unfold validateDates
  rw [try_read_date_word dt hdt r base]
  rw [findCharIdx_word_space (format_date dt) r (dateWord_neutral dt hdt).1]
  simp only [hfin, if_true, drop_word, hr, hnd, not_true_eq_false, if_false]

theorem validateDates_fin2 (t0 : Task) (dt dt2 : Date) (hdt : dateOk dt) (hdt2 : dateOk dt2)
    (r : Str) (base : Date) (hfin : t0.finished = true) (hrne : r ≠ [])
    (hr : rustTrim r = r) :
    validateDates t0 (format_date dt ++ ' ' :: (format_date dt2 ++ ' ' :: r)) base
      = { t0 with finish_date := some dt, create_date := some dt2, subject := r } := by
  have htrim2 : rustTrim (format_date dt2 ++ ' ' :: r) = format_date dt2 ++ ' ' :: r := by
    apply rustTrim_word_pre _ _ (format_date_ne_nil dt2 hdt2) _ hrne hr
    intro c hc
    obtain ⟨_, _, ⟨c2, hc2, hdig⟩⟩ := dateWord_neutral dt2 hdt2
    rw [hc2, Option.some.injEq] at hc
    exact digit_not_ws c (hc ▸ hdig)
  unfold validateDates
  rw [try_read_date_word dt hdt _ base]
  rw [findCharIdx_word_space (format_date dt) _ (dateWord_neutral dt hdt).1]
  simp only [hfin, if_true, drop_word, htrim2, not_true_eq_false, if_false]
  rw [try_read_date_word dt2 hdt2 r base]
  rw [findCharIdx_word_space (format_date dt2) r (dateWord_neutral dt2 hdt2).1]
  simp only [drop_word, hr]

theorem validatePri_pri (t0 : Task) (p : Nat) (hp : p < 26) (r : Str) (base : Date)
    (hr : rustTrim r = r) :
    validatePri t0 (format_priority p ++ ' ' :: r) base
      = validateDates { t0 with priority := p } r base := by
  rw [format_priority_eq p hp]
  unfold validatePri
  have hw : ∀ c ∈ (['(', Char.ofNat (65 + p), ')'] : Str), c ≠ ' ' :=
    (priWord_neutral p hp).1
  rw [if_pos (show ((['(', Char.ofNat (65 + p), ')'] : Str) ++ ' ' :: r).head? = some '('
    from rfl)]
  rw [next_word_of_space _ r hw, parse_priority_format p hp]
  rw [show (['(', Char.ofNat (65 + p), ')'] : Str).length = 3 from rfl]
  rw [show ((['(', Char.ofNat (65 + p), ')'] : Str) ++ ' ' :: r).drop 3 = ' ' :: r from rfl]
  rw [rustTrim_space_cons, hr]

theorem validatePri_nopri (t0 : Task) (s : Str) (base : Date) (h : s.head? ≠ some '(') :
    validatePri t0 s base = validateDates t0 s base := by
  unfold validatePri
  rw [if_neg h]

theorem parse_special_tags_eq (tv : Task) (base : Date)
    (hcanon : ∀ nv ∈ tv.tags, (nv.1 = strT ∨ nv.1 = strDue ∨ nv.1 = strUntil) →
      ∃ d, parse_date nv.2 base = Except.ok d ∧ nv.2 = format_date d) :
    Task.parse_special_tags tv base
      = { tv with
          recurrence := pstRecF tv.recurrence tv.tags
          threshold_date := pstThrF base tv.threshold_date tv.tags
          due_date := pstDueF base tv.due_date tv.tags } := by
  unfold Task.parse_special_tags
  rw [pst_fold base tv.tags tv [] hcanon]
  rfl

theorem extracts_x (r : Str) :
    extract_projects ('x' :: ' ' :: r) = extract_projects r ∧
    extract_contexts ('x' :: ' ' :: r) = extract_contexts r ∧
    extract_tags ('x' :: ' ' :: r) = extract_tags r ∧
    extract_hashtags ('x' :: ' ' :: r) = extract_hashtags r :=
  extracts_word_cons ['x'] r (by decide) (by decide) (by decide) (by decide) (by decide)

theorem extracts_pri (p : Nat) (hp : p < 26) (r : Str) :
    extract_projects (format_priority p ++ ' ' :: r) = extract_projects r ∧
    extract_contexts (format_priority p ++ ' ' :: r) = extract_contexts r ∧
    extract_tags (format_priority p ++ ' ' :: r) = extract_tags r ∧
    extract_hashtags (format_priority p ++ ' ' :: r) = extract_hashtags r := by
  obtain ⟨hsp, hst, hhead⟩ := priWord_neutral p hp
  rw [format_priority_eq p hp]
  refine extracts_word_cons _ r hsp hst ?_ ?_ ?_ <;>
    · intro hcon
      simp at hcon

theorem extracts_date (dt : Date) (h : dateOk dt) (r : Str) :
    extract_projects (format_date dt ++ ' ' :: r) = extract_projects r ∧
    extract_contexts (format_date dt ++ ' ' :: r) = extract_contexts r ∧
    extract_tags (format_date dt ++ ' ' :: r) = extract_tags r ∧
    extract_hashtags (format_date dt ++ ' ' :: r) = extract_hashtags r := by
  obtain ⟨hsp, hst, ⟨c, hhead, hdig⟩⟩ := dateWord_neutral dt h
  refine extracts_word_cons _ r hsp hst ?_ ?_ ?_ <;>
    · intro hcon
      rw [hhead, Option.some.injEq] at hcon
      subst hcon
      exact absurd hdig (by decide)

theorem pst_final (tv : Task) (base : Date) (tgs : List (Str × Str))
    (dda tda : Option Date) (rca : Option Recurrence)
    (htv : tv.tags = tgs) (hdd : tv.due_date = none) (htd : tv.threshold_date = none)
    (hrc : tv.recurrence = none)
    (hkeys : (tgs.map Prod.fst).Nodup)
    (hrecm : match tagsGet tgs strRec with
      | some v => ∃ r, rca = some r ∧ Recurrence.parse v = Except.ok r
      | none => rca = none)
    (hduem : match tagsGet tgs strDue with
      | some v => ∃ d, dda = some d ∧ v = format_date d ∧ dateOk d
      | none => dda = none)
    (hthrm : match tagsGet tgs strT with
      | some v => ∃ d, tda = some d ∧ v = format_date d ∧ dateOk d
      | none => tda = none)
    (huntm : match tagsGet tgs strUntil with
      | some v => ∃ d, v = format_date d ∧ dateOk d
      | none => True) :
    Task.parse_special_tags tv base
      = { tv with recurrence := rca, due_date := dda, threshold_date := tda } := by
  have hcanon : ∀ nv ∈ tv.tags, (nv.1 = strT ∨ nv.1 = strDue ∨ nv.1 = strUntil) →
      ∃ d, parse_date nv.2 base = Except.ok d ∧ nv.2 = format_date d := by
    rintro ⟨n, v⟩ hmem hname
    rw [htv] at hmem
    have hget : tagsGet tgs n = some v := mem_tagsGet tgs hkeys n v hmem
    rcases hname with h | h | h
    · subst h
      rw [hget] at hthrm
      obtain ⟨d, _, hv, hok⟩ := hthrm
      exact ⟨d, by rw [hv]; exact parse_date_format d hok base, hv⟩
    · subst h
      rw [hget] at hduem
      obtain ⟨d, _, hv, hok⟩ := hduem
      exact ⟨d, by rw [hv]; exact parse_date_format d hok base, hv⟩
    · subst h
      rw [hget] at huntm
      obtain ⟨d, hv, hok⟩ := huntm
      exact ⟨d, by rw [hv]; exact parse_date_format d hok base, hv⟩
  rw [parse_special_tags_eq tv base hcanon]
  have h1 : pstRecF tv.recurrence tv.tags = rca := by
    rw [htv, hrc, pstRecF_get tgs none hkeys]
    cases hg : tagsGet tgs strRec with
    | none =>
      rw [hg] at hrecm
      simp only [hg]
      exact hrecm.symm
    | some v =>
      rw [hg] at hrecm
      obtain ⟨r, hr1, hr2⟩ := hrecm
      simp only [hg, hr2]
      exact hr1.symm
  have h2 : pstDueF base tv.due_date tv.tags = dda := by
    rw [htv, hdd, pstDueF_get base tgs none hkeys]
    cases hg : tagsGet tgs strDue with
    | none =>
      rw [hg] at hduem
      simp only [hg]
      exact hduem.symm
    | some v =>
      rw [hg] at hduem
      obtain ⟨d, hd1, hd2, hok⟩ := hduem
      simp only [hg, hd2, parse_date_format d hok base]
      exact hd1.symm
  have h3 : pstThrF base tv.threshold_date tv.tags = tda := by
    rw [htv, htd, pstThrF_get base tgs none hkeys]
    cases hg : tagsGet tgs strT with
    | none =>
      rw [hg] at hthrm
      simp only [hg]
      exact hthrm.symm
    | some v =>
      rw [hg] at hthrm
      obtain ⟨d, hd1, hd2, hok⟩ := hthrm
      simp only [hg, hd2, parse_date_format d hok base]
      exact hd1.symm
  rw [h1, h2, h3]

/-- Well-formedness for the round trip. -/
def TaskWF (t : Task) : Prop :=
  t.contexts = extract_contexts t.subject ∧
  t.projects = extract_projects t.subject ∧
  t.tags = extract_tags t.subject ∧
  t.hashtags = extract_hashtags t.subject ∧
  t.subject ≠ [] ∧
  rustTrim t.subject = t.subject ∧
  t.priority ≤ NO_PRIORITY ∧
  (t.finished = false → t.finish_date = none) ∧
  (t.finished = true → t.finish_date = none → t.create_date = none) ∧
  (∀ d, t.finish_date = some d → dateOk d) ∧
  (∀ d, t.create_date = some d → dateOk d) ∧
  (t.create_date = none → ∀ b, try_read_date t.subject b = none) ∧
  ((t.priority = NO_PRIORITY ∧ t.finish_date = none ∧ t.create_date = none) →
    t.subject.head? ≠ some '(') ∧
  ((t.finished = false ∧ t.priority = NO_PRIORITY ∧ t.create_date = none) →
    strStarts t.subject ['x', ' '] = false) ∧
  (match tagsGet t.tags strRec with
   | some v => ∃ r, t.recurrence = some r ∧ Recurrence.parse v = Except.ok r
   | none => t.recurrence = none) ∧
  (match tagsGet t.tags strDue with
   | some v => ∃ d, t.due_date = some d ∧ v = format_date d ∧ dateOk d
   | none => t.due_date = none) ∧
  (match tagsGet t.tags strT with
   | some v => ∃ d, t.threshold_date = some d ∧ v = format_date d ∧ dateOk d
   | none => t.threshold_date = none) ∧
  (match tagsGet t.tags strUntil with
   | some v => ∃ d, v = format_date d ∧ dateOk d
   | none => True)

theorem strStarts_nilpat (s : Str) : strStarts s [] = true := by
  cases s <;> rfl

theorem strStarts_x (rest : Str) : strStarts ('x' :: ' ' :: rest) ['x', ' '] = true := by
  simp [strStarts, strStarts_nilpat]

theorem strStarts_x_false (s : Str) (h : s.head? ≠ some 'x') :
    strStarts s ['x', ' '] = false := by
  cases s with
  | nil => rfl
  | cons c rest =>
    have hc : c ≠ 'x' := by
      intro hcon
      exact h (by rw [hcon]; rfl)
    simp [strStarts, hc]

/-- Claim C2 as amended: the textual round trip does NOT hold for every
task satisfying I1–I3 (see `claim_C2_counterexample`); it holds, field by
field and for any value of today, for every task satisfying the
strengthened well-formedness conditions `TaskWF`: structured fields agree
with re-extraction, due/t/until tag values are textually canonical dates,
the subject is non-empty and trim-stable, an unfinished task has no finish
date (and a finished task without one has no creation date), and the
subject does not begin with an `x `, priority or date word in the field
configurations where the parser would consume it. -/
theorem claim_C2_roundtrip (t : Task) (hWF : TaskWF t) (today : Date) :
    Task.parse (Task.format t) today = t := by
  obtain ⟨sub, pri, fin, ctx, prj, tgs, cda, fda, dda, tda, rca, hsh⟩ := t
  obtain ⟨hctx0, hprj0, htags0, hhash0, hsne0, hstrim0, hpri0, hfd00, hfdcd0, hfdok0, hcdok0,
    hnodate0, hparen0, hxfree0, hrecm0, hduem0, hthrm0, huntm0⟩ := hWF
  have hsne : sub ≠ [] := hsne0
  have hstrim : rustTrim sub = sub := hstrim0
  have hpri : pri ≤ NO_PRIORITY := hpri0
  have hfd0 : fin = false → fda = none := hfd00
  have hfdcd : fin = true → fda = none → cda = none := hfdcd0
  have hfdok : ∀ d, fda = some d → dateOk d := hfdok0
  have hcdok : ∀ d, cda = some d → dateOk d := hcdok0
  have hctx : ctx = extract_contexts sub := hctx0
  have hprj : prj = extract_projects sub := hprj0
  have htags : tgs = extract_tags sub := htags0
  have hhash : hsh = extract_hashtags sub := hhash0
  have hnodate : cda = none → ∀ b, try_read_date sub b = none := hnodate0
  have hparen : (pri = NO_PRIORITY ∧ fda = none ∧ cda = none) → sub.head? ≠ some '(' := hparen0
  have hxfree : (fin = false ∧ pri = NO_PRIORITY ∧ cda = none) →
      strStarts sub ['x', ' '] = false := hxfree0
  have hrecm : (match tagsGet tgs strRec with
      | some v => ∃ r, rca = some r ∧ Recurrence.parse v = Except.ok r
      | none => rca = none) := hrecm0
  have hduem : (match tagsGet tgs strDue with
      | some v => ∃ d, dda = some d ∧ v = format_date d ∧ dateOk d
      | none => dda = none) := hduem0
  have hthrm : (match tagsGet tgs strT with
      | some v => ∃ d, tda = some d ∧ v = format_date d ∧ dateOk d
      | none => tda = none) := hthrm0
  have huntm : (match tagsGet tgs strUntil with
      | some v => ∃ d, v = format_date d ∧ dateOk d
      | none => True) := huntm0
  clear hctx0 hprj0 htags0 hhash0 hsne0 hstrim0 hpri0 hfd00 hfdcd0 hfdok0 hcdok0
    hnodate0 hparen0 hxfree0 hrecm0 hduem0 hthrm0 huntm0
  have hkeys : (tgs.map Prod.fst).Nodup := by
    rw [htags]
    exact extract_tags_keys_nodup sub
  cases fin with
  | false =>
    have hfda : fda = none := hfd0 rfl
    subst hfda
    cases cda with
    | none =>
      have htr := hnodate rfl
      by_cases hp : pri < NO_PRIORITY
      · have hfmt : Task.format ⟨sub, pri, false, ctx, prj, tgs, none, none,
            dda, tda, rca, hsh⟩ = format_priority pri ++ ' ' :: sub := by
          unfold Task.format
          dsimp only
          rw [if_neg (by simp), if_pos hp]
          simp
        unfold Task.parse
        rw [hfmt]
        have hxf : strStarts (format_priority pri ++ ' ' :: sub) ['x', ' '] = false := by
          apply strStarts_x_false
          rw [format_priority_eq pri hp]
          simp
        have hE := extracts_pri pri hp sub
        have hval : Task.validate (format_priority pri ++ ' ' :: sub) today
            = ⟨sub, pri, false, ctx, prj, tgs, none, none, none, none, none, hsh⟩ := by
          unfold Task.validate
          dsimp only
          simp only [hxf, Bool.false_eq_true, if_false]
          rw [hE.1, hE.2.1, hE.2.2.1, hE.2.2.2]
          rw [validatePri_pri _ pri hp sub today hstrim]
          rw [validateDates_none _ sub today (htr today)]
          rw [← hctx, ← hprj, ← htags, ← hhash]
          rfl
        rw [hval]
        rw [pst_final _ today tgs dda tda rca rfl rfl rfl rfl hkeys hrecm hduem hthrm huntm]
      · have hpeq : pri = NO_PRIORITY := by
          omega
        subst hpeq
        have hfmt : Task.format ⟨sub, NO_PRIORITY, false, ctx, prj, tgs, none, none,
            dda, tda, rca, hsh⟩ = sub := by
          unfold Task.format
          dsimp only
          rw [if_neg (by simp), if_neg (by omega)]
          simp
        unfold Task.parse
        rw [hfmt]
        have hval : Task.validate sub today
            = ⟨sub, NO_PRIORITY, false, ctx, prj, tgs, none, none, none, none, none, hsh⟩ := by
          unfold Task.validate
          dsimp only
          simp only [hxfree ⟨rfl, rfl, rfl⟩, Bool.false_eq_true, if_false]
          rw [validatePri_nopri _ sub today (hparen ⟨rfl, rfl, rfl⟩)]
          rw [validateDates_none _ sub today (htr today)]
          rw [← hctx, ← hprj, ← htags, ← hhash]
          rfl
        rw [hval]
        rw [pst_final _ today tgs dda tda rca rfl rfl rfl rfl hkeys hrecm hduem hthrm huntm]
    | some cdt =>
      have hcok : dateOk cdt := hcdok cdt rfl
      have hdhead : ∀ c, (format_date cdt).head? = some c → rustIsWs c = false := by
        intro c hc
        obtain ⟨_, _, ⟨c2, hc2, hdig⟩⟩ := dateWord_neutral cdt hcok
        rw [hc2, Option.some.injEq] at hc
        exact digit_not_ws c (hc ▸ hdig)
      have htr2 : rustTrim (format_date cdt ++ ' ' :: sub) = format_date cdt ++ ' ' :: sub :=
        rustTrim_word_pre _ _ (format_date_ne_nil cdt hcok) hdhead hsne hstrim
      have hExD := extracts_date cdt hcok sub
      by_cases hp : pri < NO_PRIORITY
      · have hfmt : Task.format ⟨sub, pri, false, ctx, prj, tgs, some cdt, none,
            dda, tda, rca, hsh⟩
            = format_priority pri ++ ' ' :: (format_date cdt ++ ' ' :: sub) := by
          unfold Task.format
          dsimp only
          rw [if_neg (by simp), if_pos hp]
          simp
        unfold Task.parse
        rw [hfmt]
        have hxf : strStarts (format_priority pri ++ ' ' :: (format_date cdt ++ ' ' :: sub))
            ['x', ' '] = false := by
          apply strStarts_x_false
          rw [format_priority_eq pri hp]
          simp
        have hE := extracts_pri pri hp (format_date cdt ++ ' ' :: sub)
        have hval : Task.validate (format_priority pri ++ ' ' ::
              (format_date cdt ++ ' ' :: sub)) today
            = ⟨sub, pri, false, ctx, prj, tgs, some cdt, none, none, none, none, hsh⟩ := by
          unfold Task.validate
          dsimp only
          simp only [hxf, Bool.false_eq_true, if_false]
          rw [hE.1, hE.2.1, hE.2.2.1, hE.2.2.2]
          rw [hExD.1, hExD.2.1, hExD.2.2.1, hExD.2.2.2]
          rw [validatePri_pri _ pri hp _ today htr2]
          rw [validateDates_create _ cdt hcok sub today rfl hstrim]
          rw [← hctx, ← hprj, ← htags, ← hhash]
          rfl
        rw [hval]
        rw [pst_final _ today tgs dda tda rca rfl rfl rfl rfl hkeys hrecm hduem hthrm huntm]
      · have hpeq : pri = NO_PRIORITY := by
          omega
        subst hpeq
        have hfmt : Task.format ⟨sub, NO_PRIORITY, false, ctx, prj, tgs, some cdt, none,
            dda, tda, rca, hsh⟩ = format_date cdt ++ ' ' :: sub := by
          unfold Task.format
          dsimp only
          rw [if_neg (by simp), if_neg (by omega)]
          simp
        unfold Task.parse
        rw [hfmt]
        obtain ⟨_, _, ⟨chd, hchd, hdig⟩⟩ := dateWord_neutral cdt hcok
        have hxf : strStarts (format_date cdt ++ ' ' :: sub) ['x', ' '] = false := by
          apply strStarts_x_false
          rw [head?_append_left _ _ (format_date_ne_nil cdt hcok), hchd]
          intro hcon
          rw [Option.some.injEq] at hcon
          subst hcon
          exact absurd hdig (by decide)
        have hval : Task.validate (format_date cdt ++ ' ' :: sub) today
            = ⟨sub, NO_PRIORITY, false, ctx, prj, tgs, some cdt, none, none, none,
                none, hsh⟩ := by
          unfold Task.validate
          dsimp only
          simp only [hxf, Bool.false_eq_true, if_false]
          rw [hExD.1, hExD.2.1, hExD.2.2.1, hExD.2.2.2]
          rw [validatePri_nopri _ _ today (by
            rw [head?_append_left _ _ (format_date_ne_nil cdt hcok), hchd]
            intro hcon
            rw [Option.some.injEq] at hcon
            subst hcon
            exact absurd hdig (by decide))]
          rw [validateDates_create _ cdt hcok sub today rfl hstrim]
          rw [← hctx, ← hprj, ← htags, ← hhash]
          rfl
        rw [hval]
        rw [pst_final _ today tgs dda tda rca rfl rfl rfl rfl hkeys hrecm hduem hthrm huntm]
  | true =>
    cases fda with
    | none =>
      have hcda : cda = none := hfdcd rfl rfl
      subst hcda
      have htr := hnodate rfl
      by_cases hp : pri < NO_PRIORITY
      · have hpwne : format_priority pri ≠ [] := by
          rw [format_priority_eq pri hp]
          simp
        have hpwhead : ∀ c, (format_priority pri).head? = some c → rustIsWs c = false := by
          intro c hc
          rw [format_priority_eq pri hp, List.head?_cons, Option.some.injEq] at hc
          subst hc
          decide
        have htr1 : rustTrim (format_priority pri ++ ' ' :: sub)
            = format_priority pri ++ ' ' :: sub :=
          rustTrim_word_pre _ _ hpwne hpwhead hsne hstrim
        have hfmt : Task.format ⟨sub, pri, true, ctx, prj, tgs, none, none,
            dda, tda, rca, hsh⟩
            = 'x' :: ' ' :: (format_priority pri ++ ' ' :: sub) := by
          unfold Task.format
          dsimp only
          rw [if_pos rfl, if_pos hp]
          simp
        unfold Task.parse
        rw [hfmt]
        have hE := extracts_x (format_priority pri ++ ' ' :: sub)
        have hE2 := extracts_pri pri hp sub
        have hval : Task.validate ('x' :: ' ' :: (format_priority pri ++ ' ' :: sub)) today
            = ⟨sub, pri, true, ctx, prj, tgs, none, none, none, none, none, hsh⟩ := by
          unfold Task.validate
          dsimp only
          rw [hE.1, hE.2.1, hE.2.2.1, hE.2.2.2]
          rw [hE2.1, hE2.2.1, hE2.2.2.1, hE2.2.2.2]
          rw [if_pos (strStarts_x _)]
          rw [show ('x' :: ' ' :: (format_priority pri ++ ' ' :: sub)).drop 2
            = format_priority pri ++ ' ' :: sub from rfl, htr1]
          rw [validatePri_pri _ pri hp sub today hstrim]
          rw [validateDates_none _ sub today (htr today)]
          rw [← hctx, ← hprj, ← htags, ← hhash]
          rfl
        rw [hval]
        rw [pst_final _ today tgs dda tda rca rfl rfl rfl rfl hkeys hrecm hduem hthrm huntm]
      · have hpeq : pri = NO_PRIORITY := by
          omega
        subst hpeq
        have hfmt : Task.format ⟨sub, NO_PRIORITY, true, ctx, prj, tgs, none, none,
            dda, tda, rca, hsh⟩ = 'x' :: ' ' :: sub := by
          unfold Task.format
          dsimp only
          rw [if_pos rfl, if_neg (by omega)]
          simp
        unfold Task.parse
        rw [hfmt]
        have hE := extracts_x sub
        have hval : Task.validate ('x' :: ' ' :: sub) today
            = ⟨sub, NO_PRIORITY, true, ctx, prj, tgs, none, none, none, none, none, hsh⟩ := by
          unfold Task.validate
          dsimp only
          rw [hE.1, hE.2.1, hE.2.2.1, hE.2.2.2]
          rw [if_pos (strStarts_x _)]
          rw [show ('x' :: ' ' :: sub).drop 2 = sub from rfl, hstrim]
          rw [validatePri_nopri _ sub today (hparen ⟨rfl, rfl, rfl⟩)]
          rw [validateDates_none _ sub today (htr today)]
          rw [← hctx, ← hprj, ← htags, ← hhash]
          rfl
        rw [hval]
        rw [pst_final _ today tgs dda tda rca rfl rfl rfl rfl hkeys hrecm hduem hthrm huntm]
    | some fdt =>
      have hfok : dateOk fdt := hfdok fdt rfl
      obtain ⟨_, _, ⟨fhd, hfhd, hfdig⟩⟩ := dateWord_neutral fdt hfok
      have hfhead : ∀ c, (format_date fdt).head? = some c → rustIsWs c = false := by
        intro c hc
        rw [hfhd, Option.some.injEq] at hc
        exact digit_not_ws c (hc ▸ hfdig)
      have hfne : format_date fdt ≠ [] := format_date_ne_nil fdt hfok
      have hfnoparen : ∀ r : Str, (format_date fdt ++ ' ' :: r).head? ≠ some '(' := by
        intro r hcon
        rw [head?_append_left _ _ hfne, hfhd, Option.some.injEq] at hcon
        subst hcon
        exact absurd hfdig (by decide)
      cases cda with
      | none =>
        have htr := hnodate rfl
        have htrF : rustTrim (format_date fdt ++ ' ' :: sub)
            = format_date fdt ++ ' ' :: sub :=
          rustTrim_word_pre _ _ hfne hfhead hsne hstrim
        have hExF := extracts_date fdt hfok sub
        by_cases hp : pri < NO_PRIORITY
        · have hpwne : format_priority pri ≠ [] := by
            rw [format_priority_eq pri hp]
            simp
          have hpwhead : ∀ c, (format_priority pri).head? = some c → rustIsWs c = false := by
            intro c hc
            rw [format_priority_eq pri hp, List.head?_cons, Option.some.injEq] at hc
            subst hc
            decide
          have htr1 : rustTrim (format_priority pri ++ ' ' :: (format_date fdt ++ ' ' :: sub))
              = format_priority pri ++ ' ' :: (format_date fdt ++ ' ' :: sub) :=
            rustTrim_word_pre _ _ hpwne hpwhead (by simp) htrF
          have hfmt : Task.format ⟨sub, pri, true, ctx, prj, tgs, none, some fdt,
              dda, tda, rca, hsh⟩
              = 'x' :: ' ' :: (format_priority pri ++ ' ' ::
                  (format_date fdt ++ ' ' :: sub)) := by
            unfold Task.format
            dsimp only
            rw [if_pos rfl, if_pos hp]
            simp
          unfold Task.parse
          rw [hfmt]
          have hE := extracts_x (format_priority pri ++ ' ' :: (format_date fdt ++ ' ' :: sub))
          have hE2 := extracts_pri pri hp (format_date fdt ++ ' ' :: sub)
          have hval : Task.validate ('x' :: ' ' :: (format_priority pri ++ ' ' ::
                (format_date fdt ++ ' ' :: sub))) today
              = ⟨sub, pri, true, ctx, prj, tgs, none, some fdt, none, none, none, hsh⟩ := by
            unfold Task.validate
            dsimp only
            rw [hE.1, hE.2.1, hE.2.2.1, hE.2.2.2]
            rw [hE2.1, hE2.2.1, hE2.2.2.1, hE2.2.2.2]
            rw [hExF.1, hExF.2.1, hExF.2.2.1, hExF.2.2.2]
            rw [if_pos (strStarts_x _)]
            rw [show ('x' :: ' ' :: (format_priority pri ++ ' ' ::
                (format_date fdt ++ ' ' :: sub))).drop 2
              = format_priority pri ++ ' ' :: (format_date fdt ++ ' ' :: sub) from rfl, htr1]
            rw [validatePri_pri _ pri hp _ today htrF]
            rw [validateDates_fin1 _ fdt hfok sub today rfl hstrim (htr today)]
            rw [← hctx, ← hprj, ← htags, ← hhash]
            rfl
          rw [hval]
          rw [pst_final _ today tgs dda tda rca rfl rfl rfl rfl hkeys hrecm hduem hthrm huntm]
        · have hpeq : pri = NO_PRIORITY := by
            omega
          subst hpeq
          have hfmt : Task.format ⟨sub, NO_PRIORITY, true, ctx, prj, tgs, none, some fdt,
              dda, tda, rca, hsh⟩
              = 'x' :: ' ' :: (format_date fdt ++ ' ' :: sub) := by
            unfold Task.format
            dsimp only
            rw [if_pos rfl, if_neg (by omega)]
            simp
          unfold Task.parse
          rw [hfmt]
          have hE := extracts_x (format_date fdt ++ ' ' :: sub)
          have hval : Task.validate ('x' :: ' ' :: (format_date fdt ++ ' ' :: sub)) today
              = ⟨sub, NO_PRIORITY, true, ctx, prj, tgs, none, some fdt, none, none,
                  none, hsh⟩ := by
            unfold Task.validate
            dsimp only
            rw [hE.1, hE.2.1, hE.2.2.1, hE.2.2.2]
            rw [hExF.1, hExF.2.1, hExF.2.2.1, hExF.2.2.2]
            rw [if_pos (strStarts_x _)]
            rw [show ('x' :: ' ' :: (format_date fdt ++ ' ' :: sub)).drop 2
              = format_date fdt ++ ' ' :: sub from rfl, htrF]
            rw [validatePri_nopri _ _ today (hfnoparen sub)]
            rw [validateDates_fin1 _ fdt hfok sub today rfl hstrim (htr today)]
            rw [← hctx, ← hprj, ← htags, ← hhash]
            rfl
          rw [hval]
          rw [pst_final _ today tgs dda tda rca rfl rfl rfl rfl hkeys hrecm hduem hthrm huntm]
      | some cdt =>
        have hcok : dateOk cdt := hcdok cdt rfl
        have hdhead : ∀ c, (format_date cdt).head? = some c → rustIsWs c = false := by
          intro c hc
          obtain ⟨_, _, ⟨c2, hc2, hdig⟩⟩ := dateWord_neutral cdt hcok
          rw [hc2, Option.some.injEq] at hc
          exact digit_not_ws c (hc ▸ hdig)
        have htr3 : rustTrim (format_date cdt ++ ' ' :: sub)
            = format_date cdt ++ ' ' :: sub :=
          rustTrim_word_pre _ _ (format_date_ne_nil cdt hcok) hdhead hsne hstrim
        have htr2 : rustTrim (format_date fdt ++ ' ' :: (format_date cdt ++ ' ' :: sub))
            = format_date fdt ++ ' ' :: (format_date cdt ++ ' ' :: sub) :=
          rustTrim_word_pre _ _ hfne hfhead (by simp) htr3
        have hExC := extracts_date cdt hcok sub
        have hExF := extracts_date fdt hfok (format_date cdt ++ ' ' :: sub)
        by_cases hp : pri < NO_PRIORITY
        · have hpwne : format_priority pri ≠ [] := by
            rw [format_priority_eq pri hp]
            simp
          have hpwhead : ∀ c, (format_priority pri).head? = some c → rustIsWs c = false := by
            intro c hc
            rw [format_priority_eq pri hp, List.head?_cons, Option.some.injEq] at hc
            subst hc
            decide
          have htr1 : rustTrim (format_priority pri ++ ' ' ::
              (format_date fdt ++ ' ' :: (format_date cdt ++ ' ' :: sub)))
              = format_priority pri ++ ' ' ::
                  (format_date fdt ++ ' ' :: (format_date cdt ++ ' ' :: sub)) :=
            rustTrim_word_pre _ _ hpwne hpwhead (by simp) htr2
          have hfmt : Task.format ⟨sub, pri, true, ctx, prj, tgs, some cdt, some fdt,
              dda, tda, rca, hsh⟩
              = 'x' :: ' ' :: (format_priority pri ++ ' ' ::
                  (format_date fdt ++ ' ' :: (format_date cdt ++ ' ' :: sub))) := by
            unfold Task.format
            dsimp only
            rw [if_pos rfl, if_pos hp]
            simp
          unfold Task.parse
          rw [hfmt]
          have hE := extracts_x (format_priority pri ++ ' ' ::
            (format_date fdt ++ ' ' :: (format_date cdt ++ ' ' :: sub)))
          have hE2 := extracts_pri pri hp
            (format_date fdt ++ ' ' :: (format_date cdt ++ ' ' :: sub))
          have hval : Task.validate ('x' :: ' ' :: (format_priority pri ++ ' ' ::
                (format_date fdt ++ ' ' :: (format_date cdt ++ ' ' :: sub)))) today
              = ⟨sub, pri, true, ctx, prj, tgs, some cdt, some fdt, none, none,
                  none, hsh⟩ := by
            unfold Task.validate
            dsimp only
            rw [hE.1, hE.2.1, hE.2.2.1, hE.2.2.2]
            rw [hE2.1, hE2.2.1, hE2.2.2.1, hE2.2.2.2]
            rw [hExF.1, hExF.2.1, hExF.2.2.1, hExF.2.2.2]
            rw [hExC.1, hExC.2.1, hExC.2.2.1, hExC.2.2.2]
            rw [if_pos (strStarts_x _)]
            rw [show ('x' :: ' ' :: (format_priority pri ++ ' ' ::
                (format_date fdt ++ ' ' :: (format_date cdt ++ ' ' :: sub)))).drop 2
              = format_priority pri ++ ' ' ::
                  (format_date fdt ++ ' ' :: (format_date cdt ++ ' ' :: sub)) from rfl, htr1]
            rw [validatePri_pri _ pri hp _ today htr2]
            rw [validateDates_fin2 _ fdt cdt hfok hcok sub today rfl hsne hstrim]
            rw [← hctx, ← hprj, ← htags, ← hhash]
            rfl
          rw [hval]
          rw [pst_final _ today tgs dda tda rca rfl rfl rfl rfl hkeys hrecm hduem hthrm huntm]
        · have hpeq : pri = NO_PRIORITY := by
            omega
          subst hpeq
          have hfmt : Task.format ⟨sub, NO_PRIORITY, true, ctx, prj, tgs, some cdt, some fdt,
              dda, tda, rca, hsh⟩
              = 'x' :: ' ' :: (format_date fdt ++ ' ' ::
                  (format_date cdt ++ ' ' :: sub)) := by
            unfold Task.format
            dsimp only
            rw [if_pos rfl, if_neg (by omega)]
            simp
          unfold Task.parse
          rw [hfmt]
          have hE := extracts_x (format_date fdt ++ ' ' :: (format_date cdt ++ ' ' :: sub))
          have hval : Task.validate ('x' :: ' ' :: (format_date fdt ++ ' ' ::
                (format_date cdt ++ ' ' :: sub))) today
              = ⟨sub, NO_PRIORITY, true, ctx, prj, tgs, some cdt, some fdt, none, none,
                  none, hsh⟩ := by
            unfold Task.validate
            dsimp only
            rw [hE.1, hE.2.1, hE.2.2.1, hE.2.2.2]
            rw [hExF.1, hExF.2.1, hExF.2.2.1, hExF.2.2.2]
            rw [hExC.1, hExC.2.1, hExC.2.2.1, hExC.2.2.2]
            rw [if_pos (strStarts_x _)]
            rw [show ('x' :: ' ' :: (format_date fdt ++ ' ' ::
                (format_date cdt ++ ' ' :: sub))).drop 2
              = format_date fdt ++ ' ' :: (format_date cdt ++ ' ' :: sub) from rfl, htr2]
            rw [validatePri_nopri _ _ today (hfnoparen _)]
            rw [validateDates_fin2 _ fdt cdt hfok hcok sub today rfl hsne hstrim]
            rw [← hctx, ← hprj, ← htags, ← hhash]
            rfl
          rw [hval]
          rw [pst_final _ today tgs dda tda rca rfl rfl rfl rfl hkeys hrecm hduem hthrm huntm]


/-- A concrete well-formed task exercising the round trip: finished, with
priority, both dates, due and recurrence tags and a foreign tag. -/
def c2Task : Task :=
  { subject := ( "pay +home @bank #now due:2026-03-01 rec:2w note:ok" ).toList
    priority := 1
    finished := true
    contexts := [( "bank" ).toList]
    projects := [( "home" ).toList]
    tags := [(( "due" ).toList, ( "2026-03-01" ).toList), (( "rec" ).toList, ( "2w" ).toList),
      (( "note" ).toList, ( "ok" ).toList)]
    create_date := some ⟨2026, 2, 20⟩
    finish_date := some ⟨2026, 2, 27⟩
    due_date := some ⟨2026, 3, 1⟩
    threshold_date := none
    recurrence := some ⟨Period.Week, 2, false⟩
    hashtags := [( "now" ).toList] }

theorem claim_C2_roundtrip_witness :
    Task.parse (Task.format c2Task) ⟨2027, 5, 9⟩ = c2Task := by
  refine claim_C2_roundtrip c2Task
    ⟨?_, ?_, ?_, ?_, ?_, ?_, ?_, ?_, ?_, ?_, ?_, ?_, ?_, ?_, ?_, ?_, ?_, ?_⟩ ⟨2027, 5, 9⟩
  · rw [show c2Task.subject = ( "pay +home @bank #now due:2026-03-01 rec:2w note:ok" ).toList
      from rfl, extract_contexts_words]
    decide
  · rw [show c2Task.subject = ( "pay +home @bank #now due:2026-03-01 rec:2w note:ok" ).toList
      from rfl, extract_projects_words]
    decide
  · decide
  · decide
  · decide
  · decide
  · decide
  · decide
  · decide
  · intro d hd
    injection hd with h
    rw [← h]
    decide
  · intro d hd
    injection hd with h
    rw [← h]
    decide
  · intro h
    exact absurd h (by decide)
  · intro h
    exact absurd h.1 (by decide)
  · intro h
    exact absurd h.1 (by decide)
  · exact ⟨⟨Period.Week, 2, false⟩, rfl, rfl⟩
  · exact ⟨⟨2026, 3, 1⟩, rfl, by decide, by decide⟩
  · exact rfl
  · trivial

/-- An I1–I3-satisfying task on which the round trip fails: unfinished,
no dates or tags, subject `x do it` (no relative tokens; every extractor
agrees with the structured fields, which are all empty). -/
def c2Bad : Task := { Task.default with subject := ( "x do it" ).toList }

/-- Counterexample to C2 as frozen: `c2Bad` satisfies the I1 extraction
invariants (I2/I3 are vacuous — no dates, no tags) and its subject holds
no relative tokens, yet parsing its formatted line back yields a FINISHED
task with subject `do it`: `Task::validate` consumes the leading `x ` of
the subject, so `parse(format(t)) ≠ t`. -/
theorem claim_C2_counterexample :
    (c2Bad.contexts = extract_contexts c2Bad.subject ∧
     c2Bad.projects = extract_projects c2Bad.subject ∧
     c2Bad.tags = extract_tags c2Bad.subject ∧
     c2Bad.hashtags = extract_hashtags c2Bad.subject) ∧
    c2Bad.finished = false ∧
    Task.parse (Task.format c2Bad) ⟨2026, 1, 1⟩
      = { Task.default with subject := ( "do it" ).toList, finished := true } ∧
    Task.parse (Task.format c2Bad) ⟨2026, 1, 1⟩ ≠ c2Bad := by
  have hval : Task.validate (( "x do it" ).toList) ⟨2026, 1, 1⟩
      = { Task.default with subject := ( "do it" ).toList, finished := true } := by
    unfold Task.validate
    dsimp only
    rw [show extract_contexts (( "x do it" ).toList) = [] from by
      rw [extract_contexts_words]; decide]
    rw [show extract_projects (( "x do it" ).toList) = [] from by
      rw [extract_projects_words]; decide]
    rw [show extract_tags (( "x do it" ).toList) = [] from by decide]
    rw [show extract_hashtags (( "x do it" ).toList) = [] from by decide]
    rw [if_pos (show strStarts (( "x do it" ).toList) ['x', ' '] = true from rfl)]
    rw [show rustTrim ((( "x do it" ).toList).drop 2) = ( "do it" ).toList from rfl]
    rw [validatePri_nopri _ _ _ (by decide)]
    rw [validateDates_none _ _ _
      (show try_read_date (( "do it" ).toList) (⟨2026, 1, 1⟩ : Date) = none from rfl)]
    rfl
  have hpar : Task.parse (Task.format c2Bad) ⟨2026, 1, 1⟩
      = { Task.default with subject := ( "do it" ).toList, finished := true } := by
    rw [show Task.format c2Bad = ( "x do it" ).toList from rfl]
    unfold Task.parse
    rw [hval]
    rfl
  refine ⟨⟨?_, ?_, by decide, by decide⟩, rfl, hpar, ?_⟩
  · rw [extract_contexts_words]
    decide
  · rw [extract_projects_words]
    decide
  · rw [hpar]
    decide

end TodoSpec
